import Mathlib

/-!
# DAIDE client socket layer (`src/daide_client/socket.cpp`)

A shallow embedding of the message framing code of `DAIDE::Socket`:
the byte-order codec (`AdjustOrdering`), the send and receive state
machines (`SendData`, `ReceiveData`), the socket registry
(`InsertSocket`, `RemoveSocket`, `FindSocket`) and the set-up of a
connection (`Connect`, `OnConnect`).

Conventions of the embedding.

* A `char` buffer is a `List Byte`; the list is the whole extent of memory
  that may be accessed through the pointer.  An access outside it is
  undefined behaviour in C++ and is reported as `Fault.outOfBounds`.
* A `short` is represented by its 16-bit pattern (a `Nat` below `65536`);
  `shortVal` gives the signed value that C++ arithmetic sees.
* `int` variables are `Int`.
* The preprocessor flag `LITTLE_ENDIAN` is a `Bool` parameter.  The
  `ASSERT`s on `htons(1)` in `AdjustOrdering` tie it to the byte order of the
  host, so the same flag also fixes how a `short` is laid out in memory.
-/

namespace DAIDE

/-! ## Machine model -/

/-- One `char` of memory. -/
abbrev Byte := Fin 256

/-- Ways in which an operation can leave defined behaviour. -/
inductive Fault where
  /-- an access outside the extent of a buffer -/
  | outOfBounds
  /-- `new char[n]` with a negative `n` -/
  | badAlloc
  /-- a failed `ASSERT` -/
  | assertion
  /-- the loop bound of the embedding was exhausted (never the case for the
  bounds used below, see `SendData` and `ReceiveData`) -/
  | fuel
  deriving DecidableEq, Repr

deriving instance DecidableEq for Except

/-- Modelled from the spec: `MessageHeader` is declared in `socket.h`, which is
not part of the sources; the spec gives it as `type` (1 byte), `pad` (1 byte)
and `length` (16 bit), so `sizeof(MessageHeader)` is 4, with `type` at offset
0, `pad` at offset 1 and `length` at offsets 2 and 3. -/
def sizeofMessageHeader : Nat := 4

/-- Byte offset of `MessageHeader::length`. -/
def lengthOffset : Nat := 2

/-- Value of `sizeof(short)`. -/
def sizeofShort : Nat := 2

/-- Signed value of the `short` with 16-bit pattern `x`. -/
def shortVal (x : Nat) : Int :=
  if x % 65536 < 32768 then ((x % 65536 : Nat) : Int) else ((x % 65536 : Nat) : Int) - 65536

/-- Conversion of an integer to `short`: its 16-bit pattern. -/
def toShort (n : Int) : Nat := (n % 65536).toNat

/-- The `short` read from two consecutive bytes of memory, lower address first. -/
def readShort (LITTLE_ENDIAN : Bool) (b0 b1 : Byte) : Nat :=
  if LITTLE_ENDIAN then b0.val + 256 * b1.val else 256 * b0.val + b1.val

/-- The two bytes, lower address first, that store the `short` with pattern `x`. -/
def writeShort (LITTLE_ENDIAN : Bool) (x : Nat) : Byte × Byte :=
  if LITTLE_ENDIAN then (Fin.ofNat (x % 256), Fin.ofNat (x / 256 % 256))
  else (Fin.ofNat (x / 256 % 256), Fin.ofNat (x % 256))

/-- The bytes `mem[off], ..., mem[off + count - 1]`, as `send` or `memcpy`
reads them. -/
def readBytes (mem : List Byte) (off count : Int) : Except Fault (List Byte) :=
  if 0 ≤ off ∧ 0 ≤ count ∧ off + count ≤ mem.length then
    .ok ((mem.drop off.toNat).take count.toNat)
  else .error .outOfBounds

/-- The effect of `memcpy(mem + off, src, src.length)`. -/
def writeBytes (mem : List Byte) (off : Int) (src : List Byte) : Except Fault (List Byte) :=
  if 0 ≤ off ∧ off + src.length ≤ mem.length then
    .ok (mem.take off.toNat ++ src ++ mem.drop (off.toNat + src.length))
  else .error .outOfBounds

/-! ## Byte-order codec -/

/-- `AdjustOrdering(short &x)`: under `LITTLE_ENDIAN`,
`x = (x << 8) | (((unsigned short) x) >> 8)`, stored back into a `short`. -/
def AdjustOrderingShort (LITTLE_ENDIAN : Bool) (x : Nat) : Nat :=
  if LITTLE_ENDIAN then ((x <<< 8) ||| ((x % 65536) >>> 8)) % 65536 else x

/-- `AdjustOrdering(*(short *) (mem + off))`: the `short` at byte offset `off`
is read, reordered and stored back. -/
def adjustShortAt (LITTLE_ENDIAN : Bool) (mem : List Byte) (off : Nat) :
    Except Fault (List Byte) :=
  match mem[off]?, mem[off + 1]? with
  | some b0, some b1 =>
    let x := AdjustOrderingShort LITTLE_ENDIAN (readShort LITTLE_ENDIAN b0 b1)
    .ok ((mem.set off (writeShort LITTLE_ENDIAN x).1).set (off + 1)
      (writeShort LITTLE_ENDIAN x).2)
  | _, _ => .error .outOfBounds

/-- The loop `for (; message < end; message += sizeof(short))
AdjustOrdering(*(short *) message);` of `AdjustOrdering(char *, short)`, with
`message` and `end` as byte offsets into `mem`. -/
def adjustBody (LITTLE_ENDIAN : Bool) :
    Nat → List Byte → Int → Int → Except Fault (List Byte)
  | 0, _, _, _ => .error .fuel
  | fuel + 1, mem, message, end_ =>
    if message < end_ then do
      let mem' ← adjustShortAt LITTLE_ENDIAN mem message.toNat
      adjustBody LITTLE_ENDIAN fuel mem' (message + sizeofShort) end_
    else .ok mem

/-- `AdjustOrdering(char *message, short length)`: `message` is the memory at
the pointer, `length` the signed value of the argument.  The loop runs at most
`length` times, which bounds the recursion. -/
def AdjustOrdering (LITTLE_ENDIAN : Bool) (message : List Byte) (length : Int) :
    Except Fault (List Byte) :=
  if LITTLE_ENDIAN then do
    let mem ← adjustShortAt LITTLE_ENDIAN message lengthOffset
    adjustBody LITTLE_ENDIAN (length.toNat + 1) mem sizeofMessageHeader
      (sizeofMessageHeader + length)
  else .ok message

/-! ## The connection object -/

/-- What the pointer `IncomingMessage` refers to. -/
inductive IncomingBuffer where
  /-- the member `Header`: `IncomingMessage == (char *) &Header` -/
  | header
  /-- a buffer obtained from `new char[IncomingLength]`, with its contents -/
  | heap (buf : List Byte)
  deriving DecidableEq, Repr

/-- The data members of `DAIDE::Socket` used by `socket.cpp` (the class is
declared in `socket.h`).  A queued `char *` is embedded as the buffer it points
to; a null `OutgoingMessage` is `none`. -/
structure Socket where
  MySocket : Int
  Connected : Bool
  Header : List Byte
  IncomingMessage : IncomingBuffer
  IncomingNext : Int
  IncomingLength : Int
  IncomingMessageQueue : List (List Byte)
  OutgoingMessage : Option (List Byte)
  OutgoingNext : Int
  OutgoingLength : Int
  OutgoingMessageQueue : List (List Byte)
  deriving DecidableEq, Repr

/-- The memory `IncomingMessage` points to. -/
def Socket.incomingMem (s : Socket) : List Byte :=
  match s.IncomingMessage with
  | .header => s.Header
  | .heap buf => buf

/-- A store through `IncomingMessage`: the memory it points to becomes `mem`. -/
def Socket.setIncomingMem (s : Socket) (mem : List Byte) : Socket :=
  match s.IncomingMessage with
  | .header => { s with Header := mem }
  | .heap _ => { s with IncomingMessage := .heap mem }

/-- The field `((MessageHeader *) mem)->length`, as a 16-bit pattern. -/
def readLength (LITTLE_ENDIAN : Bool) (mem : List Byte) : Except Fault Nat :=
  match mem[lengthOffset]?, mem[lengthOffset + 1]? with
  | some b0, some b1 => .ok (readShort LITTLE_ENDIAN b0 b1)
  | _, _ => .error .outOfBounds

/-! ## Send pipeline -/

/-- Outcome of one call of `send`. -/
inductive SendResult where
  /-- the call returned `n`, the number of bytes accepted -/
  | sent (n : Nat)
  /-- the call returned `SOCKET_ERROR`, with `WSAGetLastError()` equal to
  `error` (`WSAEWOULDBLOCK` or another code: they differ only in logging) -/
  | socketError (error : Int)
  deriving DecidableEq, Repr

/-- The transport seen through `send`: given the bytes accepted so far and the
bytes offered by a call, the outcome of the call. -/
abbrev Transport := List Byte → List Byte → SendResult

/-- Lines 59-67 of `SendData`: when no message is in progress, the next queued
message becomes the outgoing one; `none` is the `return` on an empty queue. -/
def nextOutgoing (LITTLE_ENDIAN : Bool) (s : Socket) : Except Fault (Option Socket) :=
  match s.OutgoingMessage with
  | some _ => .ok (some s)
  | none =>
    match s.OutgoingMessageQueue with
    | [] => .ok none
    | m :: queue => do
      let length := shortVal (← readLength LITTLE_ENDIAN m)
      let m' ← AdjustOrdering LITTLE_ENDIAN m length
      pure (some { s with
        OutgoingMessage := some m'
        OutgoingMessageQueue := queue
        OutgoingNext := 0
        OutgoingLength := sizeofMessageHeader + length })

/-- Lines 70-82 of `SendData`: one call of `send` on the unsent part of the
outgoing message.  The result is the new state, the bytes accepted by the
transport so far, and whether the loop goes on (`false` is a `return`). -/
def sendCurrent (send : Transport) (s : Socket) (wire : List Byte) :
    Except Fault (Socket × List Byte × Bool) :=
  match s.OutgoingMessage with
  | none => .error .outOfBounds
  | some m => do
    let offered ← readBytes m s.OutgoingNext (s.OutgoingLength - s.OutgoingNext)
    match send wire offered with
    | .socketError _ => pure (s, wire, false)
    | .sent n =>
      let s' := { s with OutgoingNext := s.OutgoingNext + n }
      if s'.OutgoingNext < s'.OutgoingLength then pure (s', wire ++ offered.take n, false)
      else pure ({ s' with OutgoingMessage := none }, wire ++ offered.take n, true)

/-- The `for (;;)` loop of `SendData`. -/
def sendLoop (LITTLE_ENDIAN : Bool) (send : Transport) :
    Nat → Socket → List Byte → Except Fault (Socket × List Byte)
  | 0, _, _ => .error .fuel
  | fuel + 1, s, wire =>
    match nextOutgoing LITTLE_ENDIAN s with
    | .error e => .error e
    | .ok none => .ok (s, wire)
    | .ok (some s1) =>
      match sendCurrent send s1 wire with
      | .error e => .error e
      | .ok (s2, wire2, false) => .ok (s2, wire2)
      | .ok (s2, wire2, true) => sendLoop LITTLE_ENDIAN send fuel s2 wire2

/-- `Socket::SendData`.  `wire` is the sequence of bytes the transport has
accepted so far.  Every pass of the loop but the first takes a message off the
queue, so `OutgoingMessageQueue.length + 2` passes are never exceeded. -/
def SendData (LITTLE_ENDIAN : Bool) (send : Transport) (s : Socket) (wire : List Byte) :
    Except Fault (Socket × List Byte) :=
  if s.Connected then
    sendLoop LITTLE_ENDIAN send (s.OutgoingMessageQueue.length + 2) s wire
  else .error .assertion

/-- `Socket::PushOutgoingMessage`. -/
def PushOutgoingMessage (LITTLE_ENDIAN : Bool) (send : Transport) (s : Socket)
    (message : List Byte) (wire : List Byte) : Except Fault (Socket × List Byte) :=
  let s1 := { s with OutgoingMessageQueue := s.OutgoingMessageQueue ++ [message] }
  if s1.OutgoingMessage.isNone ∧ s1.Connected then SendData LITTLE_ENDIAN send s1 wire
  else .ok (s1, wire)

/-- `Socket::Start`. -/
def Start (LITTLE_ENDIAN : Bool) (send : Transport) (s : Socket) (wire : List Byte) :
    Except Fault (Socket × List Byte) :=
  SendData LITTLE_ENDIAN send { s with Connected := true } wire

/-- `Socket::OnConnect`. -/
def OnConnect (LITTLE_ENDIAN : Bool) (send : Transport) (s : Socket) (error : Int)
    (wire : List Byte) : Except Fault (Socket × List Byte) :=
  if error = 0 then Start LITTLE_ENDIAN send s wire else .ok (s, wire)

/-! ## Receive pipeline -/

/-- Outcome of the call of `recv` in `ReceiveData`. -/
inductive RecvResult where
  /-- the call returned `buffer.length` and stored these bytes in `buffer`
  (a return value of 0 is the empty list) -/
  | received (buffer : List Byte)
  /-- the call returned `SOCKET_ERROR`, with `WSAGetLastError()` equal to
  `error` -/
  | socketError (error : Int)
  deriving DecidableEq, Repr

/-- The constant `bufferLength` of `ReceiveData`: `recv` never stores more
bytes than this. -/
def bufferLength : Nat := 1024

/-- Lines 118-130 of `ReceiveData`, run when `IncomingNext ==
sizeof(MessageHeader)`: the body length is decoded, a buffer for the full
message is allocated (its bytes are taken as 0 until written) and the three
fields of `Header`, which make up its 4 bytes, are copied into it. -/
def completeHeader (LITTLE_ENDIAN : Bool) (s : Socket) : Except Fault Socket := do
  let length := AdjustOrderingShort LITTLE_ENDIAN (← readLength LITTLE_ENDIAN s.incomingMem)
  let IncomingLength : Int := sizeofMessageHeader + shortVal length
  if IncomingLength < 0 then .error .badAlloc
  else do
    let fields ← readBytes s.Header 0 sizeofMessageHeader
    let buf ← writeBytes (List.replicate IncomingLength.toNat 0) 0 fields
    pure { s with
      IncomingLength := IncomingLength
      IncomingMessage := .heap buf
      IncomingNext := sizeofMessageHeader }

/-- Lines 132-140 of `ReceiveData`, run when `IncomingNext >= IncomingLength`:
the message is put into host order and queued, and `IncomingMessage` is made to
use `Header` again. -/
def completeMessage (LITTLE_ENDIAN : Bool) (s : Socket) : Except Fault Socket := do
  let mem ← AdjustOrdering LITTLE_ENDIAN s.incomingMem
    (shortVal (toShort (s.IncomingLength - sizeofMessageHeader)))
  let s1 := s.setIncomingMem mem
  pure { s1 with
    IncomingMessageQueue := s1.IncomingMessageQueue ++ [mem]
    IncomingMessage := .header
    IncomingNext := 0
    IncomingLength := sizeofMessageHeader }

/-- One pass of the `for (;;)` loop of `ReceiveData` after the test of `count`:
lines 111-140. -/
def receiveStep (LITTLE_ENDIAN : Bool) (s : Socket) (chunk : List Byte) :
    Except Fault Socket := do
  let mem ← writeBytes s.incomingMem s.IncomingNext chunk
  let s1 := { s.setIncomingMem mem with IncomingNext := s.IncomingNext + chunk.length }
  let s2 ← if s1.IncomingNext = (sizeofMessageHeader : Int) then completeHeader LITTLE_ENDIAN s1
    else pure s1
  if s2.IncomingNext ≥ s2.IncomingLength then completeMessage LITTLE_ENDIAN s2 else pure s2

/-- The `for (;;)` loop of `ReceiveData`; `buffer` holds the `received` bytes. -/
def receiveLoop (LITTLE_ENDIAN : Bool) (buffer : List Byte) :
    Nat → Int → Socket → Except Fault Socket
  | 0, _, _ => .error .fuel
  | fuel + 1, bufferNext, s =>
    let count : Int := min (s.IncomingLength - s.IncomingNext) (buffer.length - bufferNext)
    if count = 0 then .ok s
    else if count > 0 then do
      let chunk ← readBytes buffer bufferNext count
      let s' ← receiveStep LITTLE_ENDIAN s chunk
      receiveLoop LITTLE_ENDIAN buffer fuel (bufferNext + count) s'
    else .error .assertion

/-- `Socket::ReceiveData`, given the outcome of its call of `recv`.  Every pass
of the loop that does not return consumes at least one received byte, so
`buffer.length + 1` passes are never exceeded. -/
def ReceiveData (LITTLE_ENDIAN : Bool) (s : Socket) (r : RecvResult) : Except Fault Socket :=
  if s.Connected then
    match r with
    | .socketError _ => .ok s
    | .received buffer =>
      if buffer.length = 0 then .ok s
      else receiveLoop LITTLE_ENDIAN buffer (buffer.length + 1) 0 s
  else .error .assertion

/-- `Socket::OnReceive`. -/
def OnReceive (LITTLE_ENDIAN : Bool) (s : Socket) (error : Int) (r : RecvResult) :
    Except Fault Socket :=
  if error = 0 then ReceiveData LITTLE_ENDIAN s r else .ok s

/-- `Socket::PushIncomingMessage`. -/
def PushIncomingMessage (s : Socket) (message : List Byte) : Socket :=
  { s with IncomingMessageQueue := s.IncomingMessageQueue ++ [message] }

/-- `Socket::PullIncomingMessage`. -/
def PullIncomingMessage (s : Socket) : Except Fault (List Byte × Socket) :=
  match s.IncomingMessageQueue with
  | [] => .error .assertion
  | incomingMessage :: queue => .ok (incomingMessage, { s with IncomingMessageQueue := queue })

/-- The receive and send state set up by lines 232-236 of `Connect`, on a
socket whose connection has then been reported by `OnConnect(0)`: nothing
queued, nothing in progress.  `header` is the content of the member `Header`,
which `Connect` does not initialise. -/
def connected (MySocket : Int) (header : List Byte) (OutgoingNext OutgoingLength : Int) :
    Socket :=
  { MySocket := MySocket
    Connected := true
    Header := header
    IncomingMessage := .header
    IncomingNext := 0
    IncomingLength := sizeofMessageHeader
    IncomingMessageQueue := []
    OutgoingMessage := none
    OutgoingNext := OutgoingNext
    OutgoingLength := OutgoingLength
    OutgoingMessageQueue := [] }

/-- A sequence of `ReceiveData` calls, one for each outcome of `recv`. -/
def receiveAll (LITTLE_ENDIAN : Bool) (s : Socket) (rs : List RecvResult) :
    Except Fault Socket :=
  rs.foldlM (ReceiveData LITTLE_ENDIAN) s

/-- A transport without errors: a call accepts the bytes offered up to a
capacity `cap`, which may depend on the bytes accepted so far and on the bytes
offered. -/
def capped (cap : List Byte → List Byte → Nat) : Transport :=
  fun wire offered => .sent (min (cap wire offered) offered.length)

/-- A transport that accepts every byte offered. -/
def acceptAll : Transport := fun _ offered => .sent offered.length

/-- The frame `(type, pad, length = |body|, body)` in the memory of the host,
`length` stored as a `short` in host order. -/
def hostFrame (LITTLE_ENDIAN : Bool) (type pad : Byte) (body : List Byte) : List Byte :=
  type :: pad :: (writeShort LITTLE_ENDIAN body.length).1 ::
    (writeShort LITTLE_ENDIAN body.length).2 :: body

/-- The body of a frame with every pair of bytes at offsets `2i`, `2i + 1`
exchanged; a last byte without partner stays. -/
def swapPairs : List Byte → List Byte
  | a :: b :: rest => b :: a :: swapPairs rest
  | rest => rest

/-! ## Socket registry -/

/-- A `Socket *`: the address of a connection object (0 is the null pointer). -/
abbrev SocketPtr := Nat

/-- The static members `SocketTab` and `SocketCnt`.  `SocketTab` has
`FD_SETSIZE` slots; `SocketCnt` is never decremented below 0 (`RemoveSocket`
decrements it only after `FindSocket` found an entry), so it is a `Nat`. -/
structure Registry where
  SocketTab : List SocketPtr
  SocketCnt : Nat
  deriving DecidableEq, Repr

/-- The registry at program start: static storage is zero-initialised.
`FD_SETSIZE` comes from the system headers and is a parameter. -/
def Registry.init (FD_SETSIZE : Nat) : Registry :=
  { SocketTab := List.replicate FD_SETSIZE 0, SocketCnt := 0 }

/-- The loop of `FindSocket` from index `i` on, with `n` the number of entries
still to visit; `heap` gives the object behind each pointer.  The result is the
index of the slot `s`, `none` for the null result. -/
def findSocketFrom (heap : SocketPtr → Socket) (r : Registry) (socket : Int) :
    Nat → Nat → Except Fault (Option Nat)
  | 0, _ => .ok none
  | n + 1, i =>
    match r.SocketTab[i]? with
    | none => .error .outOfBounds
    | some p =>
      if (heap p).MySocket = socket then .ok (some i)
      else findSocketFrom heap r socket n (i + 1)

/-- `Socket::FindSocket`. -/
def FindSocket (heap : SocketPtr → Socket) (r : Registry) (socket : Int) :
    Except Fault (Option Nat) :=
  findSocketFrom heap r socket r.SocketCnt 0

/-- `Socket::InsertSocket`, called on the object at `this`. -/
def InsertSocket (FD_SETSIZE : Nat) (heap : SocketPtr → Socket) (r : Registry)
    (this : SocketPtr) : Except Fault Registry := do
  let found ← FindSocket heap r (heap this).MySocket
  if found.isNone ∧ r.SocketCnt < FD_SETSIZE then
    if r.SocketCnt < r.SocketTab.length then
      pure { SocketTab := r.SocketTab.set r.SocketCnt this, SocketCnt := r.SocketCnt + 1 }
    else .error .outOfBounds
  else .error .assertion

/-- `Socket::RemoveSocket`, called on the object at `this`. -/
def RemoveSocket (heap : SocketPtr → Socket) (r : Registry) (this : SocketPtr) :
    Except Fault Registry := do
  match ← FindSocket heap r (heap this).MySocket with
  | none => pure r
  | some s =>
    match r.SocketTab[r.SocketCnt - 1]? with
    | none => .error .outOfBounds
    | some last => pure { SocketTab := r.SocketTab.set s last, SocketCnt := r.SocketCnt - 1 }

/-! ## Connection set-up -/

/-- The value `INADDR_NONE` returned by `inet_addr` for a string that is not
an IPv4 address. -/
def INADDR_NONE : Nat := 0xFFFFFFFF

/-- Outcomes of the system calls made by `Connect`: the return values of
`socket`, `ioctlsocket` and `setsockopt`, the function `inet_addr`, the return
value of `connect` for an address and a port, and the value of
`WSAGetLastError()` after it. -/
structure ConnectCalls where
  socket : Int
  ioctlsocket : Int
  setsockopt : Int
  inet_addr : String → Nat
  connect : Nat → Int → Int
  lastError : Int

/-- `Socket::Connect`, called on the object at `this`.  The result is the value
returned, the objects after the call and the registry after the call.
`WSAEWOULDBLOCK` comes from the headers and is a parameter. -/
def Connect (WSAEWOULDBLOCK : Int) (FD_SETSIZE : Nat) (calls : ConnectCalls)
    (heap : SocketPtr → Socket) (r : Registry) (this : SocketPtr) (address : String)
    (port : Int) : Except Fault (Bool × (SocketPtr → Socket) × Registry) :=
  let heap1 := Function.update heap this { heap this with MySocket := calls.socket }
  if calls.socket < 0 then .ok (false, heap1, r)
  else if calls.ioctlsocket ≠ 0 then .ok (false, heap1, r)
  else if calls.setsockopt ≠ 0 then .ok (false, heap1, r)
  else if calls.inet_addr address = INADDR_NONE then .ok (false, heap1, r)
  else if calls.connect (calls.inet_addr address) port ≠ 0
      ∧ calls.lastError ≠ WSAEWOULDBLOCK then .ok (false, heap1, r)
  else
    let heap2 := Function.update heap1 this { heap1 this with
      IncomingMessage := .header
      IncomingNext := 0
      IncomingLength := sizeofMessageHeader
      OutgoingMessage := none }
    match InsertSocket FD_SETSIZE heap2 r this with
    | .error e => .error e
    | .ok r' => .ok (true, heap2, r')

/-- `Socket::OnClose`: the error is logged, the state stays. -/
def OnClose (s : Socket) (_error : Int) : Socket := s

/-! ## Notions used to state the claims -/

/-- The wire format of the spec: `type`, `pad`, the body length as a 16-bit
value in network order (high byte first), then the bytes of the body. -/
def wireFrame (type pad : Byte) (body : List Byte) : List Byte :=
  type :: pad :: Fin.ofNat (body.length / 256 % 256) :: Fin.ofNat (body.length % 256) :: body

/-- The bytes `SendData` hands to `send` for a queued message `m`: the message
after `AdjustOrdering`, cut at `sizeof(MessageHeader) + length`. -/
def wireEncoding (LITTLE_ENDIAN : Bool) (m : List Byte) : Except Fault (List Byte) := do
  let length := shortVal (← readLength LITTLE_ENDIAN m)
  let m' ← AdjustOrdering LITTLE_ENDIAN m length
  readBytes m' 0 (sizeofMessageHeader + length)

/-- The socket `s` with its receive state replaced: the member `Header`, the
target of `IncomingMessage`, `IncomingNext`, `IncomingLength` and the incoming
queue. -/
def Socket.withReceive (s : Socket) (header : List Byte) (incoming : IncomingBuffer)
    (next length : Int) (queue : List (List Byte)) : Socket :=
  { s with
    Header := header
    IncomingMessage := incoming
    IncomingNext := next
    IncomingLength := length
    IncomingMessageQueue := queue }

/-- The receive state of a connection that was awaiting a header in state `s0`
and has since received the first `n` bytes of the wire message `wire`, whose
decoded form is `frame`. -/
def receiveProgress (s0 : Socket) (wire frame : List Byte) (n : Nat) : Socket :=
  if n < sizeofMessageHeader then
    s0.withReceive (wire.take n ++ s0.Header.drop n) .header n sizeofMessageHeader
      s0.IncomingMessageQueue
  else if n < wire.length then
    s0.withReceive (wire.take sizeofMessageHeader)
      (.heap (wire.take n ++ List.replicate (wire.length - n) 0)) n wire.length
      s0.IncomingMessageQueue
  else
    s0.withReceive (wire.take sizeofMessageHeader) .header 0 sizeofMessageHeader
      (s0.IncomingMessageQueue ++ [frame])

/-- A connected socket whose receive accumulator is awaiting a header. -/
def AwaitingHeader (s : Socket) : Prop :=
  s.Connected = true ∧ s.IncomingMessage = .header ∧ s.IncomingNext = 0
    ∧ s.IncomingLength = sizeofMessageHeader ∧ s.Header.length = sizeofMessageHeader

/-- The send state of a connected socket: `cur` is the unsent part of the
message in progress (empty when there is none) and `ws` lists the bytes that
`SendData` will hand to `send` for each queued message. -/
def SendState (LITTLE_ENDIAN : Bool) (s : Socket) (cur : List Byte) (ws : List (List Byte)) :
    Prop :=
  s.Connected = true
    ∧ List.Forall₂ (fun f w => wireEncoding LITTLE_ENDIAN f = .ok w) s.OutgoingMessageQueue ws
    ∧ match s.OutgoingMessage with
      | none => cur = []
      | some m => 0 ≤ s.OutgoingNext ∧ s.OutgoingNext < s.OutgoingLength
          ∧ readBytes m s.OutgoingNext (s.OutgoingLength - s.OutgoingNext) = .ok cur

/-- A call on the registry: `InsertSocket` or `RemoveSocket` on the object at
`this`. -/
inductive RegistryOp where
  | insert (this : SocketPtr)
  | remove (this : SocketPtr)
  deriving DecidableEq, Repr

/-- The effect of one registry call. -/
def applyOp (FD_SETSIZE : Nat) (heap : SocketPtr → Socket) (r : Registry) :
    RegistryOp → Except Fault Registry
  | .insert this => InsertSocket FD_SETSIZE heap r this
  | .remove this => RemoveSocket heap r this

/-- A sequence of registry calls; it yields a registry only if every
`InsertSocket` was called under its precondition.  The native handles of the
objects, read through `heap`, stay the same throughout. -/
def runOps (FD_SETSIZE : Nat) (heap : SocketPtr → Socket) (ops : List RegistryOp)
    (r : Registry) : Except Fault Registry :=
  ops.foldlM (applyOp FD_SETSIZE heap) r

/-- The object at `p` is one of the `SocketCnt` live entries of the registry. -/
def Registry.Registered (r : Registry) (p : SocketPtr) : Prop :=
  ∃ k, k < r.SocketCnt ∧ r.SocketTab[k]? = some p

/-- Well-formed registry: the table has `FD_SETSIZE` slots, at most that many
are live, and no two live slots hold objects with the same native handle. -/
def Registry.Valid (FD_SETSIZE : Nat) (heap : SocketPtr → Socket) (r : Registry) : Prop :=
  r.SocketTab.length = FD_SETSIZE ∧ r.SocketCnt ≤ FD_SETSIZE
    ∧ ∀ i j p q, i < r.SocketCnt → j < r.SocketCnt →
        r.SocketTab[i]? = some p → r.SocketTab[j]? = some q →
        (heap p).MySocket = (heap q).MySocket → i = j

/-- Successive calls of `PullIncomingMessage`: the frames returned, in the
order of the calls, and the state after the last call. -/
def pullAll : Nat → Socket → Except Fault (List (List Byte) × Socket)
  | 0, s => .ok ([], s)
  | n + 1, s =>
    match PullIncomingMessage s with
    | .error e => .error e
    | .ok (front, s1) =>
      match pullAll n s1 with
      | .error e => .error e
      | .ok (frames, s2) => .ok (front :: frames, s2)

/-- Successive calls of `PushOutgoingMessage`, one for each frame of the list. -/
def pushAll (LITTLE_ENDIAN : Bool) (send : Transport) :
    List (List Byte) → Socket → List Byte → Except Fault (Socket × List Byte)
  | [], s, wire => .ok (s, wire)
  | frame :: frames, s, wire =>
    match PushOutgoingMessage LITTLE_ENDIAN send s frame wire with
    | .error e => .error e
    | .ok (s1, wire1) => pushAll LITTLE_ENDIAN send frames s1 wire1

/-- A message as it travels: type, pad and the bytes of the body on the wire. -/
structure WireMessage where
  type : Byte
  pad : Byte
  body : List Byte
  deriving DecidableEq, Repr

/-- The bytes of the message on the wire. -/
def WireMessage.wire (m : WireMessage) : List Byte := wireFrame m.type m.pad m.body

/-- The frame the host queues for the message: `length` in host order and,
under `LITTLE_ENDIAN`, the bytes of every body word exchanged. -/
def WireMessage.decoded (LITTLE_ENDIAN : Bool) (m : WireMessage) : List Byte :=
  hostFrame LITTLE_ENDIAN m.type m.pad (if LITTLE_ENDIAN then swapPairs m.body else m.body)

/-- The body length is even and at most 32766. -/
def WireMessage.Even (m : WireMessage) : Prop :=
  m.body.length % 2 = 0 ∧ m.body.length ≤ 32766

instance (m : WireMessage) : Decidable m.Even := by
  unfold WireMessage.Even
  exact inferInstance

/-- The bytes of a sequence of messages on the wire, one after the other. -/
def wireStream (ms : List WireMessage) : List Byte := (ms.map WireMessage.wire).flatten

/-- The receive state of a connection that was awaiting a header in state `s0`
and has since received the first `k` bytes of the wire stream of `ms`. -/
def streamProgress (LITTLE_ENDIAN : Bool) : Socket → List WireMessage → Nat → Socket
  | s0, [], _ => s0
  | s0, m :: ms, k =>
    if k < m.wire.length then receiveProgress s0 m.wire (m.decoded LITTLE_ENDIAN) k
    else streamProgress LITTLE_ENDIAN
      (receiveProgress s0 m.wire (m.decoded LITTLE_ENDIAN) m.wire.length) ms (k - m.wire.length)

/-- The invariant of the receive accumulator: `0 <= IncomingNext <
IncomingLength`, and either `IncomingMessage` uses `Header` and
`IncomingLength` is `sizeof(MessageHeader)` (awaiting header), or it is a
buffer of `IncomingLength` bytes, `IncomingLength` being
`sizeof(MessageHeader)` plus the positive length announced in the header it
holds, with `IncomingNext >= sizeof(MessageHeader)` (awaiting body). -/
def ReceiveInv (LITTLE_ENDIAN : Bool) (s : Socket) : Prop :=
  0 ≤ s.IncomingNext ∧ s.IncomingNext < s.IncomingLength
    ∧ s.Header.length = sizeofMessageHeader
    ∧ match s.IncomingMessage with
      | .header => s.IncomingLength = sizeofMessageHeader
      | .heap buf => (buf.length : Int) = s.IncomingLength
          ∧ (sizeofMessageHeader : Int) < s.IncomingLength
          ∧ (sizeofMessageHeader : Int) ≤ s.IncomingNext
          ∧ ∃ x, readLength LITTLE_ENDIAN buf = .ok x
            ∧ s.IncomingLength
              = sizeofMessageHeader + shortVal (AdjustOrderingShort LITTLE_ENDIAN x)

/-- Number of passes of the body loop of `AdjustOrdering(message, length)`:
the 16-bit words it reorders after the header. -/
def wordsTouched (length : Int) : Nat := ((length + 1) / 2).toNat

/-! ## Lemmas on the byte-order codec -/

theorem AdjustOrderingShort_eq (x : Nat) (hx : x < 65536) :
    AdjustOrderingShort true x = x % 256 * 256 + x / 256 := by
  have h := Nat.mul_add_lt_is_or (show x / 2 ^ 8 < 2 ^ 8 by omega) x
  simp only [AdjustOrderingShort, if_true, Nat.shiftLeft_eq, Nat.shiftRight_eq_div_pow,
    Nat.mod_eq_of_lt hx]
  rw [Nat.mul_comm x (2 ^ 8), ← h]
  omega

theorem AdjustOrderingShort_lt (le : Bool) (x : Nat) (hx : x < 65536) :
    AdjustOrderingShort le x < 65536 := by
  cases le
  · simpa [AdjustOrderingShort] using hx
  · rw [AdjustOrderingShort_eq x hx]; omega

theorem readShort_lt (le : Bool) (b0 b1 : Byte) : readShort le b0 b1 < 65536 := by
  have h0 := b0.isLt
  have h1 := b1.isLt
  cases le <;> simp only [readShort, if_true, Bool.false_eq_true, if_false] <;> omega

theorem writeShort_swap (b0 b1 : Byte) :
    writeShort true (AdjustOrderingShort true (readShort true b0 b1)) = (b1, b0) := by
  have h0 := b0.isLt
  have h1 := b1.isLt
  have e : readShort true b0 b1 % 256 * 256 + readShort true b0 b1 / 256
      = b0.val * 256 + b1.val := by
    simp only [readShort, if_true]; omega
  have e0 : (b0.val * 256 + b1.val) % 256 = b1.val := by omega
  have e1 : (b0.val * 256 + b1.val) / 256 % 256 = b0.val := by omega
  rw [AdjustOrderingShort_eq _ (readShort_lt true b0 b1), e]
  simp only [writeShort, if_true, e0, e1, Prod.mk.injEq]
  constructor <;> apply Fin.ext <;> simp [Fin.ofNat]

theorem adjustShortAt_append (pre post : List Byte) (a b : Byte) :
    adjustShortAt true (pre ++ a :: b :: post) pre.length = .ok (pre ++ b :: a :: post) := by
  have h0 : (pre ++ a :: b :: post)[pre.length]? = some a := by
    rw [List.getElem?_append_right (by omega)]; simp
  have h1 : (pre ++ a :: b :: post)[pre.length + 1]? = some b := by
    rw [List.getElem?_append_right (by omega)]; simp
  simp only [adjustShortAt, h0, h1, writeShort_swap]
  congr 1
  rw [List.set_append_right _ _ (by omega), List.set_append_right _ _ (by omega)]
  simp

theorem swapPairs_length : ∀ (w : List Byte), (swapPairs w).length = w.length
  | [] => rfl
  | [_] => rfl
  | a :: b :: w => by simp [swapPairs, swapPairs_length w]

theorem swapPairs_twice : ∀ (w : List Byte), swapPairs (swapPairs w) = w
  | [] => rfl
  | [_] => rfl
  | a :: b :: w => by simp [swapPairs, swapPairs_twice w]

@[simp] theorem ok_bind {α β : Type} (a : α) (f : α → Except Fault β) :
    (Except.ok a >>= f) = f a := rfl

@[simp] theorem error_bind {α β : Type} (e : Fault) (f : α → Except Fault β) :
    ((Except.error e : Except Fault α) >>= f) = .error e := rfl

@[simp] theorem pure_eq_ok {α : Type} (a : α) : (pure a : Except Fault α) = .ok a := rfl

/-- The first `k` passes of the body loop exchange the bytes of the `k` words
they visit. -/
theorem adjustBody_first : ∀ (k : Nat) (w pre rest : List Byte) (fuel : Nat) (off end_ : Int),
    w.length = 2 * k → off = pre.length → (0 < k → off + 2 * k < end_ + 2) →
    adjustBody true (fuel + k) (pre ++ w ++ rest) off end_
      = adjustBody true fuel (pre ++ swapPairs w ++ rest) (off + 2 * k) end_
  | 0, w, pre, rest, fuel, off, end_, hw, _, _ => by
    have : w = [] := List.length_eq_zero.mp (by omega)
    subst this
    simp [swapPairs]
  | k + 1, w, pre, rest, fuel, off, end_, hw, hoff, h2 => by
    match w, hw with
    | a :: b :: w', hw' =>
      have hlt : off < end_ := by have := h2 (by omega); omega
      have ih := adjustBody_first k w' (pre ++ [b, a]) rest fuel (off + sizeofShort) end_
        (by simp at hw'; omega) (by simp [sizeofShort, hoff])
        (fun hk => by have := h2 (by omega); simp only [sizeofShort]; omega)
      simp only [List.append_assoc, List.cons_append, List.nil_append] at ih
      have hnat : off.toNat = pre.length := by omega
      show adjustBody true ((fuel + k) + 1) _ _ _ = _
      simp only [adjustBody, hlt, if_true, hnat, List.append_assoc, List.cons_append,
        adjustShortAt_append, swapPairs, ok_bind]
      rw [ih]
      congr 1
      simp only [sizeofShort]
      omega

/-- A body loop that visits exactly the `k` words of `w` exchanges their bytes. -/
theorem adjustBody_words (k : Nat) (w pre rest : List Byte) (fuel : Nat) (off end_ : Int)
    (hw : w.length = 2 * k) (hoff : off = pre.length) (hf : k < fuel)
    (h1 : end_ ≤ off + 2 * k) (h2 : 0 < k → off + 2 * k < end_ + 2) :
    adjustBody true fuel (pre ++ w ++ rest) off end_
      = .ok (pre ++ swapPairs w ++ rest) := by
  obtain ⟨f, rfl⟩ : ∃ f, fuel = (f + 1) + k := ⟨fuel - k - 1, by omega⟩
  rw [adjustBody_first k w pre rest (f + 1) off end_ hw hoff h2]
  have hlt : ¬ (off + 2 * k < end_) := by omega
  simp [adjustBody, hlt]

/-- The effect of `AdjustOrdering` on a buffer that holds the header, the words
the loop visits and any further bytes. -/
theorem AdjustOrdering_frame (t p c d : Byte) (w rest : List Byte) (length : Int)
    (hw : w.length = 2 * wordsTouched length) :
    AdjustOrdering true (t :: p :: c :: d :: (w ++ rest)) length
      = .ok (t :: p :: d :: c :: (swapPairs w ++ rest)) := by
  have h := adjustShortAt_append [t, p] (w ++ rest) c d
  simp only [List.length_cons, List.length_nil, List.cons_append, List.nil_append] at h
  have hb := adjustBody_words (wordsTouched length) w [t, p, d, c] rest (length.toNat + 1)
    sizeofMessageHeader (sizeofMessageHeader + length) hw (by simp [sizeofMessageHeader])
    (by unfold wordsTouched; omega)
    (by simp only [sizeofMessageHeader, wordsTouched]; omega)
    (by simp only [sizeofMessageHeader, wordsTouched]; omega)
  simp only [List.length_cons, List.length_nil, List.cons_append, List.nil_append,
    List.append_assoc] at hb
  simp only [AdjustOrdering, if_true, lengthOffset]
  rw [show (0 + 1 + 1 : Nat) = 2 from rfl] at h
  rw [h]
  exact hb

/-- Every buffer that covers the bytes `AdjustOrdering` touches splits into
header bytes, visited words and a rest. -/
theorem frame_split (message : List Byte) (k : Nat)
    (h : sizeofMessageHeader + 2 * k ≤ message.length) :
    ∃ t p c d w rest, message = t :: p :: c :: d :: (w ++ rest) ∧ w.length = 2 * k := by
  rcases message with _ | ⟨t, _ | ⟨p, _ | ⟨c, _ | ⟨d, tail⟩⟩⟩⟩ <;>
    simp only [sizeofMessageHeader, List.length_cons, List.length_nil] at h
  · omega
  · omega
  · omega
  · omega
  · refine ⟨t, p, c, d, tail.take (2 * k), tail.drop (2 * k), by simp, ?_⟩
    simp only [List.length_take]
    omega

theorem swapPairs_getElem? : ∀ (i : Nat) (w : List Byte), 2 * i + 1 < w.length →
    (swapPairs w)[2 * i]? = w[2 * i + 1]? ∧ (swapPairs w)[2 * i + 1]? = w[2 * i]?
  | 0, a :: b :: w, _ => by simp [swapPairs]
  | i + 1, a :: b :: w, h => by
    have ih := swapPairs_getElem? i w (by simp at h; omega)
    rw [show 2 * (i + 1) = 2 * i + 1 + 1 by ring]
    simpa [swapPairs] using ih
  | _, [], h => by simp at h
  | _, [_], h => by simp at h

/-! ## Lemmas on the receive pipeline -/

theorem readBytes_ok (mem : List Byte) (n c : Nat) (h : n + c ≤ mem.length) :
    readBytes mem n c = .ok ((mem.drop n).take c) := by
  have h' : (0 : Int) ≤ n ∧ (0 : Int) ≤ c ∧ (n : Int) + c ≤ mem.length := by omega
  simp [readBytes, h']

theorem writeBytes_ok (mem : List Byte) (n : Nat) (src : List Byte)
    (h : n + src.length ≤ mem.length) :
    writeBytes mem n src = .ok (mem.take n ++ src ++ mem.drop (n + src.length)) := by
  have h' : (0 : Int) ≤ n ∧ (n : Int) + src.length ≤ mem.length := by omega
  simp [writeBytes, h']

/-- Overwriting `c` bytes at offset `n` of a buffer that starts with the first
`n` bytes of `A` by the next `c` bytes of `A`. -/
theorem splice_take (A B : List Byte) (n c : Nat) (h : n + c ≤ A.length) :
    (A.take n ++ B).take n ++ (A.drop n).take c ++ (A.take n ++ B).drop (n + c)
      = A.take (n + c) ++ B.drop c := by
  have hn : (A.take n).length = n := by simp; omega
  rw [List.take_left' hn, List.take_add]
  congr 1
  rw [show n + c = (A.take n).length + c by omega, List.drop_append]

@[simp] theorem withReceive_Connected (s : Socket) (h : List Byte) (im : IncomingBuffer)
    (n l : Int) (q : List (List Byte)) : (s.withReceive h im n l q).Connected = s.Connected :=
  rfl

@[simp] theorem withReceive_Header (s : Socket) (h : List Byte) (im : IncomingBuffer)
    (n l : Int) (q : List (List Byte)) : (s.withReceive h im n l q).Header = h := rfl

@[simp] theorem withReceive_IncomingMessage (s : Socket) (h : List Byte) (im : IncomingBuffer)
    (n l : Int) (q : List (List Byte)) : (s.withReceive h im n l q).IncomingMessage = im := rfl

@[simp] theorem withReceive_IncomingNext (s : Socket) (h : List Byte) (im : IncomingBuffer)
    (n l : Int) (q : List (List Byte)) : (s.withReceive h im n l q).IncomingNext = n := rfl

@[simp] theorem withReceive_IncomingLength (s : Socket) (h : List Byte) (im : IncomingBuffer)
    (n l : Int) (q : List (List Byte)) : (s.withReceive h im n l q).IncomingLength = l := rfl

@[simp] theorem withReceive_IncomingMessageQueue (s : Socket) (h : List Byte)
    (im : IncomingBuffer) (n l : Int) (q : List (List Byte)) :
    (s.withReceive h im n l q).IncomingMessageQueue = q := rfl

@[simp] theorem withReceive_withReceive (s : Socket) (h h' : List Byte)
    (im im' : IncomingBuffer) (n l n' l' : Int) (q q' : List (List Byte)) :
    (s.withReceive h im n l q).withReceive h' im' n' l' q' = s.withReceive h' im' n' l' q' :=
  rfl

theorem withReceive_self (s : Socket) :
    s.withReceive s.Header s.IncomingMessage s.IncomingNext s.IncomingLength
      s.IncomingMessageQueue = s := rfl

theorem shortVal_of_le (L : Nat) (h : L ≤ 32767) : shortVal L = L := by
  have h1 : L % 65536 = L := Nat.mod_eq_of_lt (by omega)
  have h2 : L < 32768 := by omega
  simp [shortVal, h1, h2]

theorem shortVal_toShort (L : Nat) (h : L ≤ 32767) : shortVal (toShort (L : Int)) = L := by
  have h1 : toShort (L : Int) = L := by unfold toShort; omega
  rw [h1, shortVal_of_le L h]

/-- Decoding the network-order length field. -/
theorem decode_length (le : Bool) (L : Nat) (h : L < 65536) :
    AdjustOrderingShort le (readShort le (Fin.ofNat (L / 256 % 256)) (Fin.ofNat (L % 256)))
      = L := by
  have e1 : ((Fin.ofNat (L / 256 % 256) : Byte) : Nat) = L / 256 := by
    simp only [Fin.ofNat, Fin.val_mk]; omega
  have e2 : ((Fin.ofNat (L % 256) : Byte) : Nat) = L % 256 := by
    simp only [Fin.ofNat, Fin.val_mk]; omega
  cases le
  · simp only [AdjustOrderingShort, readShort, Bool.false_eq_true, if_false, e1, e2]; omega
  · rw [AdjustOrderingShort_eq _ (readShort_lt _ _ _)]
    simp only [readShort, if_true, e1, e2]
    omega

/-- Header completion for a length field that decodes to `L <= 32767`. -/
theorem completeHeader_ok (le : Bool) (s : Socket) (t p b2 b3 : Byte) (q : List (List Byte))
    (n len : Int) (L : Nat) (hL : AdjustOrderingShort le (readShort le b2 b3) = L)
    (hmax : L ≤ 32767) :
    completeHeader le (s.withReceive [t, p, b2, b3] .header n len q)
      = .ok (s.withReceive [t, p, b2, b3] (.heap (t :: p :: b2 :: b3 :: List.replicate L 0))
          sizeofMessageHeader (sizeofMessageHeader + L) q) := by
  have hr : readLength le [t, p, b2, b3] = .ok (readShort le b2 b3) := by
    simp [readLength, lengthOffset]
  have hneg : ¬ ((sizeofMessageHeader : Int) + (L : Int) < 0) := by omega
  have hrd : readBytes [t, p, b2, b3] 0 (sizeofMessageHeader : Nat) = .ok [t, p, b2, b3] := by
    simp [readBytes, sizeofMessageHeader]
  have hto : ((sizeofMessageHeader : Int) + (L : Int)).toNat = L + 4 := by
    simp only [sizeofMessageHeader]; omega
  have hwr : writeBytes (List.replicate (L + 4) (0 : Byte)) 0 [t, p, b2, b3]
      = .ok (t :: p :: b2 :: b3 :: List.replicate L 0) := by
    have h' : (0 : Int) ≤ 0 ∧ (0 : Int) + (4 : Nat) ≤ ((L + 4 : Nat) : Int) := by omega
    simp [writeBytes, h']
  simp only [completeHeader, Socket.incomingMem, withReceive_IncomingMessage,
    withReceive_Header, hr, ok_bind, hL, shortVal_of_le L hmax, hneg, if_false, hrd, hto, hwr,
    pure_eq_ok]
  rfl

/-- Message completion on a buffer that `AdjustOrdering` converts to `m`. -/
theorem completeMessage_heap (le : Bool) (s : Socket) (h buf m : List Byte)
    (q : List (List Byte)) (n len : Int)
    (hm : AdjustOrdering le buf (shortVal (toShort (len - sizeofMessageHeader))) = .ok m) :
    completeMessage le (s.withReceive h (.heap buf) n len q)
      = .ok (s.withReceive h .header 0 sizeofMessageHeader (q ++ [m])) := by
  simp only [completeMessage, Socket.incomingMem, withReceive_IncomingMessage,
    withReceive_IncomingLength, hm, ok_bind, pure_eq_ok]
  rfl

/-- The wire frame of an even-length body converts to the host frame of the
body with the bytes of every pair exchanged. -/
theorem AdjustOrdering_wireFrame (t p : Byte) (wbody : List Byte)
    (heven : wbody.length % 2 = 0) :
    AdjustOrdering true (wireFrame t p wbody) wbody.length
      = .ok (hostFrame true t p (swapPairs wbody)) := by
  have hw : wbody.length = 2 * wordsTouched (wbody.length : Int) := by
    unfold wordsTouched; omega
  have h := AdjustOrdering_frame t p (Fin.ofNat (wbody.length / 256 % 256))
    (Fin.ofNat (wbody.length % 256)) wbody [] wbody.length hw
  simp only [List.append_nil] at h
  simp only [wireFrame, hostFrame, writeShort, if_true, swapPairs_length]
  exact h

/-- The host frame of an even-length body converts to the wire frame of the
body with the bytes of every pair exchanged. -/
theorem AdjustOrdering_hostFrame (t p : Byte) (body : List Byte)
    (heven : body.length % 2 = 0) :
    AdjustOrdering true (hostFrame true t p body) body.length
      = .ok (wireFrame t p (swapPairs body)) := by
  have hw : body.length = 2 * wordsTouched (body.length : Int) := by
    unfold wordsTouched; omega
  have h := AdjustOrdering_frame t p (Fin.ofNat (body.length % 256))
    (Fin.ofNat (body.length / 256 % 256)) body [] body.length hw
  simp only [List.append_nil] at h
  simp only [wireFrame, hostFrame, writeShort, if_true, swapPairs_length]
  exact h

/-- One pass of the receive loop while `IncomingMessage` uses `Header`. -/
theorem receiveStep_header_eq (le : Bool) (s : Socket) (h h' : List Byte)
    (q : List (List Byte)) (n len : Int) (chunk : List Byte)
    (hw : writeBytes h n chunk = .ok h') :
    receiveStep le (s.withReceive h .header n len q) chunk
      = if n + chunk.length = (sizeofMessageHeader : Int) then
          completeHeader le (s.withReceive h' .header (n + chunk.length) len q) >>= fun s2 =>
            if s2.IncomingNext ≥ s2.IncomingLength then completeMessage le s2 else .ok s2
        else if n + chunk.length ≥ len then
          completeMessage le (s.withReceive h' .header (n + chunk.length) len q)
        else .ok (s.withReceive h' .header (n + chunk.length) len q) := by
  simp only [receiveStep, Socket.incomingMem, Socket.setIncomingMem, withReceive_IncomingMessage,
    withReceive_Header, withReceive_IncomingNext, hw, ok_bind]
  by_cases hc : n + chunk.length = (sizeofMessageHeader : Int)
  · simp only [hc, if_true]; rfl
  · simp only [hc, if_false]; rfl

/-- One pass of the receive loop while `IncomingMessage` is a message buffer. -/
theorem receiveStep_heap_eq (le : Bool) (s : Socket) (h buf buf' : List Byte)
    (q : List (List Byte)) (n len : Int) (chunk : List Byte)
    (hw : writeBytes buf n chunk = .ok buf') :
    receiveStep le (s.withReceive h (.heap buf) n len q) chunk
      = if n + chunk.length = (sizeofMessageHeader : Int) then
          completeHeader le (s.withReceive h (.heap buf') (n + chunk.length) len q) >>= fun s2 =>
            if s2.IncomingNext ≥ s2.IncomingLength then completeMessage le s2 else .ok s2
        else if n + chunk.length ≥ len then
          completeMessage le (s.withReceive h (.heap buf') (n + chunk.length) len q)
        else .ok (s.withReceive h (.heap buf') (n + chunk.length) len q) := by
  simp only [receiveStep, Socket.incomingMem, Socket.setIncomingMem, withReceive_IncomingMessage,
    withReceive_Header, withReceive_IncomingNext, hw, ok_bind]
  by_cases hc : n + chunk.length = (sizeofMessageHeader : Int)
  · simp only [hc, if_true]; rfl
  · simp only [hc, if_false]; rfl

/-- A pass of the receive loop that leaves the header incomplete only stores
the bytes in `Header`. -/
theorem receiveStep_header_more (le : Bool) (s : Socket) (h : List Byte)
    (q : List (List Byte))
    (n : Nat) (chunk : List Byte) (hh : h.length = sizeofMessageHeader)
    (hlt : n + chunk.length < sizeofMessageHeader) :
    receiveStep le (s.withReceive h .header n sizeofMessageHeader q) chunk
      = .ok (s.withReceive (h.take n ++ chunk ++ h.drop (n + chunk.length)) .header
          ((n + chunk.length : Nat) : Int) sizeofMessageHeader q) := by
  have h1 : ¬ ((n : Int) + chunk.length = (sizeofMessageHeader : Int)) := by omega
  have h2 : ¬ ((n : Int) + chunk.length ≥ (sizeofMessageHeader : Int)) := by omega
  rw [receiveStep_header_eq le s h _ q n _ chunk (writeBytes_ok h n chunk (by omega))]
  simp only [h1, if_false, h2, Nat.cast_add]

/-- A pass of the receive loop inside the body only stores the bytes in the
message buffer. -/
theorem receiveStep_body_more (le : Bool) (s : Socket) (h buf : List Byte)
    (q : List (List Byte))
    (n : Nat) (chunk : List Byte) (hn : sizeofMessageHeader ≤ n) (hc : 0 < chunk.length)
    (hlt : n + chunk.length < buf.length) :
    receiveStep le (s.withReceive h (.heap buf) n buf.length q) chunk
      = .ok (s.withReceive h (.heap (buf.take n ++ chunk ++ buf.drop (n + chunk.length)))
          ((n + chunk.length : Nat) : Int) buf.length q) := by
  have h1 : ¬ ((n : Int) + chunk.length = (sizeofMessageHeader : Int)) := by omega
  have h2 : ¬ ((n : Int) + chunk.length ≥ (buf.length : Int)) := by omega
  rw [receiveStep_heap_eq le s h buf _ q n _ chunk (writeBytes_ok buf n chunk (by omega))]
  simp only [h1, if_false, h2, Nat.cast_add]

/-- A pass of the receive loop that completes the header allocates the message
buffer, and completes the message when the body is empty. -/
theorem receiveStep_header_complete (le : Bool) (s : Socket) (h : List Byte)
    (q : List (List Byte))
    (n : Nat) (chunk : List Byte) (t p b2 b3 : Byte) (L : Nat)
    (hh : h.length = sizeofMessageHeader) (hsum : n + chunk.length = sizeofMessageHeader)
    (hnew : h.take n ++ chunk = [t, p, b2, b3])
    (hL : AdjustOrderingShort le (readShort le b2 b3) = L) (hmax : L ≤ 32767) :
    receiveStep le (s.withReceive h .header n sizeofMessageHeader q) chunk
      = if L = 0 then
          completeMessage le (s.withReceive [t, p, b2, b3] (.heap [t, p, b2, b3])
            sizeofMessageHeader sizeofMessageHeader q)
        else .ok (s.withReceive [t, p, b2, b3]
          (.heap (t :: p :: b2 :: b3 :: List.replicate L 0)) sizeofMessageHeader
          (sizeofMessageHeader + L) q) := by
  have hw := writeBytes_ok h n chunk (by omega)
  have hd : h.drop (n + chunk.length) = [] := List.drop_of_length_le (by omega)
  rw [hd, List.append_nil, hnew] at hw
  have h1 : (n : Int) + chunk.length = (sizeofMessageHeader : Int) := by omega
  rw [receiveStep_header_eq le s h _ q n _ chunk hw, if_pos h1,
    completeHeader_ok le s t p b2 b3 q _ _ L hL hmax, ok_bind]
  simp only [withReceive_IncomingNext, withReceive_IncomingLength]
  by_cases hz : L = 0
  · subst hz
    simp
  · have : ¬ ((sizeofMessageHeader : Int) ≥ (sizeofMessageHeader : Int) + (L : Int)) := by omega
    simp only [hz, this, if_false]

/-- A pass of the receive loop that stores the last bytes of the body converts
the message and queues it. -/
theorem receiveStep_body_complete (le : Bool) (s : Socket) (h buf m : List Byte)
    (q : List (List Byte))
    (n : Nat) (chunk : List Byte) (hn : sizeofMessageHeader ≤ n) (hc : 0 < chunk.length)
    (hsum : n + chunk.length = buf.length)
    (hm : AdjustOrdering le (buf.take n ++ chunk)
      (shortVal (toShort ((buf.length : Int) - sizeofMessageHeader))) = .ok m) :
    receiveStep le (s.withReceive h (.heap buf) n buf.length q) chunk
      = .ok (s.withReceive h .header 0 sizeofMessageHeader (q ++ [m])) := by
  have hw := writeBytes_ok buf n chunk (by omega)
  have hd : buf.drop (n + chunk.length) = [] := List.drop_of_length_le (by omega)
  rw [hd, List.append_nil] at hw
  have h1 : ¬ ((n : Int) + chunk.length = (sizeofMessageHeader : Int)) := by omega
  have h2 : (n : Int) + chunk.length ≥ (buf.length : Int) := by omega
  rw [receiveStep_heap_eq le s h buf _ q n _ chunk hw, if_neg h1, if_pos h2]
  exact completeMessage_heap le s h _ m q _ _ hm

theorem wireFrame_length (t p : Byte) (wbody : List Byte) :
    (wireFrame t p wbody).length = wbody.length + 4 := by
  simp [wireFrame]

theorem wireFrame_take_header (t p : Byte) (wbody : List Byte) :
    (wireFrame t p wbody).take sizeofMessageHeader
      = [t, p, Fin.ofNat (wbody.length / 256 % 256), Fin.ofNat (wbody.length % 256)] := by
  simp [wireFrame, sizeofMessageHeader]

/-- One pass of the receive loop on the next `c` bytes of a wire message, within
the header or within the body, advances the receive state by `c` bytes; `frame`
is what `AdjustOrdering` makes of the complete wire message. -/
theorem receiveStep_progress (le : Bool) (s0 : Socket) (t p : Byte) (wbody frame : List Byte)
    (hs0 : AwaitingHeader s0)
    (hframe : AdjustOrdering le (wireFrame t p wbody) wbody.length = .ok frame)
    (hmax : wbody.length ≤ 32766)
    (n c : Nat) (hc : 0 < c)
    (hbound : n + c ≤ if n < sizeofMessageHeader then sizeofMessageHeader
      else (wireFrame t p wbody).length) :
    receiveStep le (receiveProgress s0 (wireFrame t p wbody) frame n)
        (((wireFrame t p wbody).drop n).take c)
      = .ok (receiveProgress s0 (wireFrame t p wbody) frame (n + c)) := by
  obtain ⟨_, _, _, _, hH⟩ := hs0
  have hwl := wireFrame_length t p wbody
  have h4 := wireFrame_take_header t p wbody
  generalize hwire : wireFrame t p wbody = wire at *
  have hsz : sizeofMessageHeader = 4 := rfl
  by_cases hn : n < sizeofMessageHeader
  · rw [if_pos hn] at hbound
    have hcl : ((wire.drop n).take c).length = c := by
      simp only [List.length_take, List.length_drop]; omega
    have hh : (wire.take n ++ s0.Header.drop n).length = sizeofMessageHeader := by
      simp only [List.length_append, List.length_take, List.length_drop]; omega
    have hsp := splice_take wire (s0.Header.drop n) n c (by omega)
    rw [List.drop_drop] at hsp
    simp only [receiveProgress, if_pos hn]
    by_cases hlt : n + c < sizeofMessageHeader
    · rw [receiveStep_header_more le s0 _ _ n _ hh (by rw [hcl]; exact hlt), hcl, hsp,
        if_pos hlt]
    · have hsum : n + c = sizeofMessageHeader := by omega
      have hnew : (wire.take n ++ s0.Header.drop n).take n ++ (wire.drop n).take c
          = [t, p, Fin.ofNat (wbody.length / 256 % 256), Fin.ofNat (wbody.length % 256)] := by
        rw [List.take_left' (by simp only [List.length_take]; omega), ← List.take_add, hsum, h4]
      rw [receiveStep_header_complete le s0 _ _ n _ t p _ _ wbody.length hh
        (by rw [hcl]; exact hsum) hnew (decode_length le _ (by omega)) (by omega)]
      rw [if_neg hlt, hsum, h4]
      by_cases hz : wbody.length = 0
      · have hnil : wbody = [] := List.length_eq_zero.mp hz
        have hm := hframe
        subst hnil
        have hw4 : wire = [t, p, Fin.ofNat (([] : List Byte).length / 256 % 256),
            Fin.ofNat (([] : List Byte).length % 256)] := by
          rw [← hwire]; rfl
        rw [if_pos hz, if_neg (by omega)]
        refine completeMessage_heap le s0 _ _ _ _ _ _ ?_
        rw [← hw4]
        simpa [shortVal, toShort] using hm
      · rw [if_neg hz, if_pos (by omega)]
        congr 3
        · rw [hwl]; simp [hsz]
        · rw [hwl]; simp only [hsz]; push_cast; ring
  · rw [if_neg hn] at hbound
    have hn' : n < wire.length := by omega
    have hcl : ((wire.drop n).take c).length = c := by
      simp only [List.length_take, List.length_drop]; omega
    have hbl : (wire.take n ++ List.replicate (wire.length - n) (0 : Byte)).length
        = wire.length := by
      simp only [List.length_append, List.length_take, List.length_replicate]; omega
    have hsp := splice_take wire (List.replicate (wire.length - n) (0 : Byte)) n c (by omega)
    rw [List.drop_replicate] at hsp
    simp only [receiveProgress, if_neg hn, if_pos hn']
    have hstate : s0.withReceive (wire.take sizeofMessageHeader)
        (.heap (wire.take n ++ List.replicate (wire.length - n) 0)) n wire.length
          s0.IncomingMessageQueue
        = s0.withReceive (wire.take sizeofMessageHeader)
          (.heap (wire.take n ++ List.replicate (wire.length - n) 0)) n
            ((wire.take n ++ List.replicate (wire.length - n) (0 : Byte)).length : Nat)
            s0.IncomingMessageQueue := by rw [hbl]
    rw [hstate]
    by_cases hlt : n + c < wire.length
    · rw [receiveStep_body_more le s0 _ _ _ n _ (by omega) (by omega)
          (by rw [hcl, hbl]; exact hlt),
        hcl, hsp, hbl, if_neg (by omega), if_pos hlt]
      rw [Nat.sub_sub]
    · have hsum : n + c = wire.length := by omega
      rw [if_neg (by omega), if_neg hlt]
      refine receiveStep_body_complete le s0 _ _ _ _ n _ (by omega) (by omega)
        (by rw [hcl, hbl]; exact hsum) ?_
      have hm := hframe
      have e1 : (wire.take n ++ List.replicate (wire.length - n) (0 : Byte)).take n
          ++ (wire.drop n).take c = wire := by
        rw [List.take_left' (by simp; omega), ← List.take_add, hsum, List.take_length]
      have e2 : shortVal (toShort ((wire.length : Int) - sizeofMessageHeader))
          = wbody.length := by
        have : (wire.length : Int) - sizeofMessageHeader = (wbody.length : Nat) := by
          rw [hwl]; simp only [hsz]; push_cast; ring
        rw [this, shortVal_toShort _ (by omega)]
      rw [e1, hbl, e2]
      exact hm

/-- Room left in the buffer `IncomingMessage` points to, in a receive state
within a wire message. -/
theorem receiveProgress_gap (s0 : Socket) (wire frame : List Byte) (n : Nat) :
    ∃ g : Nat, 0 < g
      ∧ (receiveProgress s0 wire frame n).IncomingLength
          - (receiveProgress s0 wire frame n).IncomingNext = g
      ∧ (n < wire.length →
          n + g = if n < sizeofMessageHeader then sizeofMessageHeader else wire.length) := by
  have hsz : sizeofMessageHeader = 4 := rfl
  unfold receiveProgress
  by_cases h1 : n < sizeofMessageHeader
  · refine ⟨sizeofMessageHeader - n, by omega, ?_, fun _ => by rw [if_pos h1]; omega⟩
    simp only [if_pos h1, withReceive_IncomingLength, withReceive_IncomingNext]
    omega
  · by_cases h2 : n < wire.length
    · refine ⟨wire.length - n, by omega, ?_, fun _ => by rw [if_neg h1]; omega⟩
      simp only [if_neg h1, if_pos h2, withReceive_IncomingLength, withReceive_IncomingNext]
      omega
    · refine ⟨sizeofMessageHeader, by omega, ?_, fun h => absurd h h2⟩
      simp only [if_neg h1, if_neg h2, withReceive_IncomingLength, withReceive_IncomingNext]
      omega

/-- The receive loop on a buffer whose unread part continues a wire message
advances the receive state by the number of unread bytes. -/
theorem receiveLoop_progress (s0 : Socket) (t p : Byte) (wbody : List Byte)
    (hs0 : AwaitingHeader s0) (heven : wbody.length % 2 = 0) (hmax : wbody.length ≤ 32766)
    (buffer : List Byte) : ∀ (fuel bn n : Nat), bn ≤ buffer.length →
      n + (buffer.length - bn) ≤ (wireFrame t p wbody).length →
      buffer.drop bn = ((wireFrame t p wbody).drop n).take (buffer.length - bn) →
      buffer.length - bn < fuel →
      receiveLoop true buffer fuel bn
          (receiveProgress s0 (wireFrame t p wbody) (hostFrame true t p (swapPairs wbody)) n)
        = .ok (receiveProgress s0 (wireFrame t p wbody)
            (hostFrame true t p (swapPairs wbody)) (n + (buffer.length - bn))) := by
  have hwl := wireFrame_length t p wbody
  have hsz : sizeofMessageHeader = 4 := rfl
  intro fuel
  induction fuel with
  | zero => intro bn n _ _ _ hf; omega
  | succ fuel ih =>
    intro bn n hbn hfit hbuf hfuel
    obtain ⟨g, hg0, hgap, hgn⟩ := receiveProgress_gap s0 (wireFrame t p wbody)
      (hostFrame true t p (swapPairs wbody)) n
    simp only [receiveLoop, hgap]
    by_cases hrem : buffer.length - bn = 0
    · have hcount : min (g : Int) ((buffer.length : Int) - (bn : Int)) = 0 := by omega
      rw [if_pos hcount, hrem, Nat.add_zero]
    · have hn : n < (wireFrame t p wbody).length := by omega
      have hgn' := hgn hn
      obtain ⟨c, hc⟩ : ∃ c : Nat, c = min g (buffer.length - bn) := ⟨_, rfl⟩
      have hcount : min (g : Int) ((buffer.length : Int) - (bn : Int)) = (c : Int) := by omega
      have hcpos : 0 < c := by omega
      have hrd : readBytes buffer bn c = .ok (((wireFrame t p wbody).drop n).take c) := by
        rw [readBytes_ok buffer bn c (by omega), hbuf, List.take_take,
          Nat.min_eq_left (by omega)]
      have hstep := receiveStep_progress true s0 t p wbody _ hs0
        (AdjustOrdering_wireFrame t p wbody heven) hmax n c hcpos (by rw [← hgn']; omega)
      have hnext := ih (bn + c) (n + c) (by omega) (by omega) (by
        rw [← List.drop_drop, hbuf, List.drop_take, List.drop_drop]
        congr 1
        omega) (by omega)
      rw [hcount, if_neg (by omega), if_pos (by omega), hrd, ok_bind, hstep, ok_bind]
      rw [show ((bn : Int) + (c : Int)) = ((bn + c : Nat) : Int) by push_cast; rfl, hnext]
      congr 2
      omega

theorem receiveProgress_Connected (s0 : Socket) (wire frame : List Byte) (n : Nat) :
    (receiveProgress s0 wire frame n).Connected = s0.Connected := by
  unfold receiveProgress
  split
  · rfl
  · split <;> rfl

theorem receiveProgress_zero (s0 : Socket) (wire frame : List Byte) (hs0 : AwaitingHeader s0) :
    receiveProgress s0 wire frame 0 = s0 := by
  obtain ⟨_, h2, h3, h4, _⟩ := hs0
  have h0 : (0 : Nat) < sizeofMessageHeader := by decide
  simp only [receiveProgress, if_pos h0, List.take_zero, List.nil_append, List.drop_zero,
    Nat.cast_zero]
  rw [← h2, ← h3, ← h4]
  rfl

theorem receiveProgress_queue (s0 : Socket) (wire frame : List Byte) (n : Nat)
    (hn : n < wire.length) :
    (receiveProgress s0 wire frame n).IncomingMessageQueue = s0.IncomingMessageQueue := by
  unfold receiveProgress
  split
  · rfl
  · rfl

theorem receiveProgress_done (s0 : Socket) (t p : Byte) (wbody frame : List Byte) :
    receiveProgress s0 (wireFrame t p wbody) frame (wireFrame t p wbody).length
      = s0.withReceive
          [t, p, Fin.ofNat (wbody.length / 256 % 256), Fin.ofNat (wbody.length % 256)]
          .header 0 sizeofMessageHeader (s0.IncomingMessageQueue ++ [frame]) := by
  have hwl := wireFrame_length t p wbody
  have hsz : sizeofMessageHeader = 4 := rfl
  unfold receiveProgress
  rw [if_neg (by omega), if_neg (by omega), wireFrame_take_header]

/-- One call of `ReceiveData` that receives the next bytes of a wire message
advances the receive state by that many bytes. -/
theorem ReceiveData_progress (s0 : Socket) (t p : Byte) (wbody : List Byte)
    (hs0 : AwaitingHeader s0) (heven : wbody.length % 2 = 0) (hmax : wbody.length ≤ 32766)
    (chunk : List Byte) (n : Nat) (hfit : n + chunk.length ≤ (wireFrame t p wbody).length)
    (hchunk : chunk = ((wireFrame t p wbody).drop n).take chunk.length) :
    ReceiveData true
        (receiveProgress s0 (wireFrame t p wbody) (hostFrame true t p (swapPairs wbody)) n)
        (.received chunk)
      = .ok (receiveProgress s0 (wireFrame t p wbody)
          (hostFrame true t p (swapPairs wbody)) (n + chunk.length)) := by
  have hconn : (receiveProgress s0 (wireFrame t p wbody)
      (hostFrame true t p (swapPairs wbody)) n).Connected = true := by
    rw [receiveProgress_Connected]; exact hs0.1
  simp only [ReceiveData, hconn, if_true]
  by_cases hz : chunk.length = 0
  · rw [if_pos hz, hz, Nat.add_zero]
  · rw [if_neg hz]
    have h := receiveLoop_progress s0 t p wbody hs0 heven hmax chunk (chunk.length + 1) 0 n
      (by omega) (by simpa using hfit) (by simpa using hchunk) (by omega)
    simpa using h

/-- A sequence of `ReceiveData` calls that receives the next bytes of a wire
message advances the receive state by the bytes received. -/
theorem receiveAll_progress (s0 : Socket) (t p : Byte) (wbody : List Byte)
    (hs0 : AwaitingHeader s0) (heven : wbody.length % 2 = 0) (hmax : wbody.length ≤ 32766) :
    ∀ (chunks : List (List Byte)) (n : Nat),
      n + chunks.flatten.length ≤ (wireFrame t p wbody).length →
      chunks.flatten = ((wireFrame t p wbody).drop n).take chunks.flatten.length →
      receiveAll true
          (receiveProgress s0 (wireFrame t p wbody) (hostFrame true t p (swapPairs wbody)) n)
          (chunks.map .received)
        = .ok (receiveProgress s0 (wireFrame t p wbody)
            (hostFrame true t p (swapPairs wbody)) (n + chunks.flatten.length))
  | [], n, _, _ => by simp [receiveAll]
  | chunk :: chunks, n, hfit, hfl => by
    simp only [List.flatten_cons, List.length_append] at hfit hfl
    have hc : chunk = ((wireFrame t p wbody).drop n).take chunk.length := by
      have := congrArg (List.take chunk.length) hfl
      rw [List.take_left, List.take_take, Nat.min_eq_left (by omega)] at this
      exact this
    have hrest : chunks.flatten
        = ((wireFrame t p wbody).drop (n + chunk.length)).take chunks.flatten.length := by
      have := congrArg (List.drop chunk.length) hfl
      rw [List.drop_left, List.drop_take, List.drop_drop, Nat.add_sub_cancel_left] at this
      exact this
    have h1 := ReceiveData_progress s0 t p wbody hs0 heven hmax chunk n (by omega) hc
    have h2 := receiveAll_progress s0 t p wbody hs0 heven hmax chunks (n + chunk.length)
      (by omega) hrest
    simp only [receiveAll, List.map_cons, List.foldlM_cons, h1, ok_bind] at h2 ⊢
    rw [h2, List.flatten_cons, List.length_append, Nat.add_assoc]

/-! ## Lemmas on the send pipeline -/

theorem readBytes_length (mem : List Byte) (off count : Int) (cur : List Byte)
    (h : readBytes mem off count = .ok cur) :
    0 ≤ off ∧ 0 ≤ count ∧ (cur.length : Int) = count
      ∧ cur = (mem.drop off.toNat).take count.toNat := by
  unfold readBytes at h
  split at h
  · rename_i hb
    cases h
    refine ⟨hb.1, hb.2.1, ?_, rfl⟩
    simp only [List.length_take, List.length_drop]
    omega
  · cases h

/-- The unsent part after `k` more bytes have been accepted. -/
theorem readBytes_advance (mem : List Byte) (off len : Int) (cur : List Byte) (k : Nat)
    (h : readBytes mem off (len - off) = .ok cur) (hk : k ≤ cur.length) :
    readBytes mem (off + k) (len - (off + k)) = .ok (cur.drop k) := by
  obtain ⟨h0, h1, h2, h3⟩ := readBytes_length _ _ _ _ h
  unfold readBytes at h ⊢
  split at h
  · rename_i hb
    have hb' : 0 ≤ off + k ∧ 0 ≤ len - (off + k) ∧ off + k + (len - (off + k)) ≤ mem.length := by
      omega
    rw [if_pos hb', h3, List.drop_take, List.drop_drop]
    have e1 : (off + k).toNat = off.toNat + k := by omega
    have e2 : (len - (off + k)).toNat = (len - off).toNat - k := by omega
    rw [e1, e2]
  · cases h

/-- Taking the next queued message: its wire bytes are what `send` is offered. -/
theorem nextOutgoing_queued (le : Bool) (s : Socket) (f w : List Byte)
    (fs : List (List Byte)) (hidle : s.OutgoingMessage = none)
    (hq : s.OutgoingMessageQueue = f :: fs) (hw : wireEncoding le f = .ok w) :
    ∃ s1 m, nextOutgoing le s = .ok (some s1) ∧ s1.OutgoingMessage = some m
      ∧ s1.OutgoingNext = 0 ∧ readBytes m 0 (s1.OutgoingLength - 0) = .ok w
      ∧ s1.OutgoingMessageQueue = fs ∧ s1.Connected = s.Connected
      ∧ s1.withReceive s.Header s.IncomingMessage s.IncomingNext s.IncomingLength
          s.IncomingMessageQueue = s1 := by
  unfold wireEncoding at hw
  cases h1 : readLength le f with
  | error e => rw [h1] at hw; cases hw
  | ok x =>
    rw [h1, ok_bind] at hw
    dsimp only at hw
    cases h2 : AdjustOrdering le f (shortVal x) with
    | error e => rw [h2] at hw; cases hw
    | ok m =>
      rw [h2, ok_bind] at hw
      refine ⟨{ s with
        OutgoingMessage := some m
        OutgoingMessageQueue := fs
        OutgoingNext := 0
        OutgoingLength := sizeofMessageHeader + shortVal x }, m, ?_, rfl, rfl, ?_, rfl, rfl, rfl⟩
      · simp only [nextOutgoing, hidle, hq, h1, ok_bind, h2, pure_eq_ok]
      · simpa using hw

/-- One call of `send` on a transport that accepts up to its capacity. -/
theorem sendCurrent_limited (cap : List Byte → List Byte → Nat) (s : Socket)
    (m cur wire : List Byte)
    (hm : s.OutgoingMessage = some m)
    (hcur : readBytes m s.OutgoingNext (s.OutgoingLength - s.OutgoingNext) = .ok cur) :
    ∃ s2, sendCurrent (capped cap) s wire
        = .ok (s2, wire ++ cur.take (cap wire cur), decide (cur.length ≤ cap wire cur))
      ∧ s2.OutgoingMessage = (if cur.length ≤ cap wire cur then none else some m)
      ∧ s2.OutgoingNext = s.OutgoingNext + (min (cap wire cur) cur.length : Nat)
      ∧ s2.OutgoingLength = s.OutgoingLength
      ∧ s2.OutgoingMessageQueue = s.OutgoingMessageQueue ∧ s2.Connected = s.Connected
      ∧ s2.withReceive s.Header s.IncomingMessage s.IncomingNext s.IncomingLength
          s.IncomingMessageQueue = s2 := by
  obtain ⟨h0, h1, h2, _⟩ := readBytes_length _ _ _ _ hcur
  obtain ⟨K, hKdef⟩ : ∃ K, K = cap wire cur := ⟨_, rfl⟩
  rw [← hKdef]
  have htake : cur.take (min K cur.length) = cur.take K := by
    rw [← List.take_take, List.take_length]
  by_cases hle : cur.length ≤ K
  · have hnot : ¬ (s.OutgoingNext + ((min K cur.length : Nat) : Int) < s.OutgoingLength) := by
      omega
    refine ⟨{ s with
      OutgoingNext := s.OutgoingNext + ((min K cur.length : Nat) : Int)
      OutgoingMessage := none }, ?_, by simp [hle], rfl, rfl, rfl, rfl, rfl⟩
    simp only [sendCurrent, hm, hcur, ok_bind, capped, ← hKdef, hnot, if_false, pure_eq_ok, htake,
      hle, decide_True]
  · have hlt : s.OutgoingNext + ((min K cur.length : Nat) : Int) < s.OutgoingLength := by
      omega
    refine ⟨{ s with OutgoingNext := s.OutgoingNext + ((min K cur.length : Nat) : Int) }, ?_,
      by simp [hle, hm], rfl, rfl, rfl, rfl, rfl⟩
    simp only [sendCurrent, hm, hcur, ok_bind, capped, ← hKdef, hlt, if_true, pure_eq_ok, htake,
      hle, decide_False]

/-- The send loop from a state with no message in progress, on a transport
that accepts at least one byte per call: it emits the next pending bytes in
order and stops either with everything sent or after a partial write. -/
theorem sendLoop_idle (le : Bool) (cap : List Byte → List Byte → Nat)
    (hcap : ∀ wire offered, 1 ≤ cap wire offered) :
    ∀ (ws : List (List Byte)) (s : Socket) (wire : List Byte) (fuel : Nat),
      SendState le s [] ws → s.OutgoingMessage = none → ws.length + 1 ≤ fuel →
      ∃ s' d cur' ws', sendLoop le (capped cap) fuel s wire = .ok (s', wire ++ d)
        ∧ SendState le s' cur' ws' ∧ ws.flatten = d ++ (cur' ++ ws'.flatten)
        ∧ ((s'.OutgoingMessage = none ∧ s'.OutgoingMessageQueue = []) ∨ d ≠ [])
        ∧ ((∀ wire offered, offered.length ≤ cap wire offered) →
          s'.OutgoingMessage = none ∧ s'.OutgoingMessageQueue = [])
  | [], s, wire, fuel, hst, hidle, hf => by
    obtain ⟨f, rfl⟩ : ∃ f, fuel = f + 1 := ⟨fuel - 1, by omega⟩
    obtain ⟨hconn, hq, _⟩ := hst
    have hq' : s.OutgoingMessageQueue = [] := List.forall₂_nil_right_iff.mp hq
    refine ⟨s, [], [], [], ?_, ⟨hconn, hq, by rw [hidle]⟩, rfl, Or.inl ⟨hidle, hq'⟩,
      fun _ => ⟨hidle, hq'⟩⟩
    simp [sendLoop, nextOutgoing, hidle, hq']
  | w :: ws, s, wire, fuel, hst, hidle, hf => by
    obtain ⟨f, rfl⟩ : ∃ f, fuel = f + 1 := ⟨fuel - 1, by simp at hf; omega⟩
    obtain ⟨hconn, hq, _⟩ := hst
    obtain ⟨m0, fs, hw, hrest, hqeq⟩ : ∃ m0 fs, wireEncoding le m0 = .ok w
        ∧ List.Forall₂ (fun f w => wireEncoding le f = .ok w) fs ws
        ∧ s.OutgoingMessageQueue = m0 :: fs := List.forall₂_cons_right_iff.mp hq
    obtain ⟨s1, m, hnext, hm, hn0, hrd, hq1, hc1, _⟩ :=
      nextOutgoing_queued le s m0 w fs hidle hqeq hw
    have hrd' : readBytes m s1.OutgoingNext (s1.OutgoingLength - s1.OutgoingNext) = .ok w := by
      rw [hn0]; exact hrd
    obtain ⟨s2, hsend, hm2, hn2, hl2, hq2, hc2, _⟩ :=
      sendCurrent_limited cap s1 m w wire hm hrd'
    obtain ⟨_, _, hlen, _⟩ := readBytes_length _ _ _ _ hrd'
    have hK := hcap wire w
    obtain ⟨K, hKdef⟩ : ∃ K, K = cap wire w := ⟨_, rfl⟩
    rw [← hKdef] at hsend hm2 hn2 hK
    by_cases hle : w.length ≤ K
    · rw [if_pos hle] at hm2
      have hst2 : SendState le s2 [] ws := ⟨by rw [hc2, hc1]; exact hconn,
        by rw [hq2, hq1]; exact hrest, by rw [hm2]⟩
      obtain ⟨s', d, cur', ws', hloop, hst', hfl, hprog, hall⟩ :=
        sendLoop_idle le cap hcap ws s2 (wire ++ w) f hst2 hm2 (by simp at hf; omega)
      refine ⟨s', w ++ d, cur', ws', ?_, hst', ?_, ?_, hall⟩
      · simp only [sendLoop, hnext, hsend, hle, decide_True, List.take_of_length_le hle]
        rw [hloop, List.append_assoc]
      · rw [List.flatten_cons, hfl, List.append_assoc]
      · rcases hprog with h | h
        · exact Or.inl h
        · exact Or.inr (by intro hnil; exact h (List.append_eq_nil.mp hnil).2)
    · rw [if_neg hle] at hm2
      have hadv := readBytes_advance m s1.OutgoingNext s1.OutgoingLength w (min K w.length)
        hrd' (by omega)
      rw [← hn2, ← hl2, Nat.min_eq_left (by omega)] at hadv
      refine ⟨s2, w.take K, w.drop K, ws, ?_, ⟨by rw [hc2, hc1]; exact hconn,
        by rw [hq2, hq1]; exact hrest, ?_⟩, ?_, Or.inr ?_,
        fun hall => absurd (hKdef ▸ hall wire w) hle⟩
      · simp only [sendLoop, hnext, hsend, hle, decide_False]
      · rw [hm2]
        exact ⟨by omega, by omega, hadv⟩
      · rw [List.flatten_cons, ← List.append_assoc, List.take_append_drop]
      · intro hnil
        have := congrArg List.length hnil
        simp only [List.length_take, List.length_nil] at this
        omega

/-- One call of `SendData` on a transport that accepts at least one byte per
call: it emits the next pending bytes in order and stops either with everything
sent or after a partial write of at least one byte. -/
theorem SendData_limited (le : Bool) (cap : List Byte → List Byte → Nat)
    (hcap : ∀ wire offered, 1 ≤ cap wire offered) (s : Socket)
    (cur wire : List Byte) (ws : List (List Byte)) (hst : SendState le s cur ws) :
    ∃ s' d cur' ws', SendData le (capped cap) s wire = .ok (s', wire ++ d)
      ∧ SendState le s' cur' ws' ∧ cur ++ ws.flatten = d ++ (cur' ++ ws'.flatten)
      ∧ ((s'.OutgoingMessage = none ∧ s'.OutgoingMessageQueue = []) ∨ d ≠ [])
      ∧ ((∀ wire offered, offered.length ≤ cap wire offered) →
        s'.OutgoingMessage = none ∧ s'.OutgoingMessageQueue = []) := by
  obtain ⟨hconn, hq, hcur⟩ := hst
  have hlen := hq.length_eq
  simp only [SendData, hconn, if_true]
  rw [show s.OutgoingMessageQueue.length + 2 = (s.OutgoingMessageQueue.length + 1) + 1 from rfl]
  cases hm : s.OutgoingMessage with
  | none =>
    rw [hm] at hcur
    subst hcur
    obtain ⟨s', d, cur', ws', h1, h2, h3, h4⟩ := sendLoop_idle le cap hcap ws s wire
      (s.OutgoingMessageQueue.length + 1 + 1) ⟨hconn, hq, by rw [hm]⟩ hm (by omega)
    exact ⟨s', d, cur', ws', h1, h2, by simpa using h3, h4⟩
  | some m =>
    rw [hm] at hcur
    obtain ⟨h0, hlt, hrd⟩ := hcur
    obtain ⟨s2, hsend, hm2, hn2, hl2, hq2, hc2, _⟩ :=
      sendCurrent_limited cap s m cur wire hm hrd
    obtain ⟨_, _, hclen, _⟩ := readBytes_length _ _ _ _ hrd
    have hnext : nextOutgoing le s = .ok (some s) := by simp [nextOutgoing, hm]
    have hK := hcap wire cur
    obtain ⟨K, hKdef⟩ : ∃ K, K = cap wire cur := ⟨_, rfl⟩
    rw [← hKdef] at hsend hm2 hn2 hK
    by_cases hle : cur.length ≤ K
    · rw [if_pos hle] at hm2
      have hst2 : SendState le s2 [] ws := ⟨by rw [hc2]; exact hconn,
        by rw [hq2]; exact hq, by rw [hm2]⟩
      obtain ⟨s', d, cur', ws', hloop, hst', hfl, _, hall⟩ :=
        sendLoop_idle le cap hcap ws s2 (wire ++ cur) (s.OutgoingMessageQueue.length + 1) hst2
          hm2
          (by omega)
      refine ⟨s', cur ++ d, cur', ws', ?_, hst', by rw [hfl, List.append_assoc], Or.inr ?_,
        hall⟩
      · rw [sendLoop]
        simp only [hnext, hsend, hle, decide_True, List.take_of_length_le hle]
        rw [hloop, List.append_assoc]
      · intro hnil
        have := congrArg List.length hnil
        simp only [List.length_append, List.length_nil] at this
        omega
    · rw [if_neg hle] at hm2
      have hadv := readBytes_advance m s.OutgoingNext s.OutgoingLength cur (min K cur.length)
        hrd (by omega)
      rw [← hn2, ← hl2, Nat.min_eq_left (by omega)] at hadv
      refine ⟨s2, cur.take K, cur.drop K, ws, ?_, ⟨by rw [hc2]; exact hconn,
        by rw [hq2]; exact hq, ?_⟩, ?_, Or.inr ?_,
        fun hall => absurd (hKdef ▸ hall wire cur) hle⟩
      · rw [sendLoop]
        simp only [hnext, hsend, hle, decide_False]
      · rw [hm2]
        exact ⟨by omega, by omega, hadv⟩
      · rw [← List.append_assoc, List.take_append_drop]
      · intro hnil
        have := congrArg List.length hnil
        simp only [List.length_take, List.length_nil] at this
        omega

/-- The length field of a host frame on a little-endian host. -/
theorem readLength_hostFrame (le : Bool) (t p : Byte) (body : List Byte)
    (h : body.length < 65536) :
    readLength le (hostFrame le t p body) = .ok body.length := by
  have e1 : ((Fin.ofNat (body.length / 256 % 256) : Byte) : Nat) = body.length / 256 := by
    simp only [Fin.ofNat, Fin.val_mk]; omega
  have e2 : ((Fin.ofNat (body.length % 256) : Byte) : Nat) = body.length % 256 := by
    simp only [Fin.ofNat, Fin.val_mk]; omega
  cases le <;>
    simp only [readLength, hostFrame, lengthOffset, writeShort, readShort, if_true,
      Bool.false_eq_true, if_false, List.getElem?_cons_succ, List.getElem?_cons_zero, e1, e2] <;>
    congr 1 <;> omega

/-- What `SendData` emits for the host frame of a body of even length at most
32766: the wire frame of the body with the bytes of every pair exchanged. -/
theorem wireEncoding_hostFrame (t p : Byte) (body : List Byte)
    (heven : body.length % 2 = 0) (hmax : body.length ≤ 32766) :
    wireEncoding true (hostFrame true t p body) = .ok (wireFrame t p (swapPairs body)) := by
  have hl := wireFrame_length t p (swapPairs body)
  rw [swapPairs_length] at hl
  have hrd : readBytes (wireFrame t p (swapPairs body)) 0
      ((sizeofMessageHeader : Int) + (body.length : Int))
        = .ok (wireFrame t p (swapPairs body)) := by
    have := readBytes_ok (wireFrame t p (swapPairs body)) 0 (4 + body.length) (by omega)
    rw [List.drop_zero, List.take_of_length_le (by omega)] at this
    rw [← this]
    congr 1
  simp only [wireEncoding, readLength_hostFrame true t p body (by omega), ok_bind,
    shortVal_of_le body.length (by omega), AdjustOrdering_hostFrame t p body heven, hrd]

theorem acceptAll_eq : acceptAll = capped fun _ offered => offered.length + 1 := by
  funext wire offered
  simp [acceptAll, capped]

/-- One call of `SendData` on a transport that accepts everything emits all
pending bytes in order and leaves nothing queued or in progress. -/
theorem SendData_acceptAll (le : Bool) (s : Socket) (cur wire : List Byte)
    (ws : List (List Byte)) (hst : SendState le s cur ws) :
    ∃ s', SendData le acceptAll s wire = .ok (s', wire ++ (cur ++ ws.flatten))
      ∧ s'.OutgoingMessage = none ∧ s'.OutgoingMessageQueue = [] ∧ s'.Connected = true := by
  obtain ⟨s', d, cur', ws', h1, hst', hfl, _, hall⟩ :=
    SendData_limited le (fun _ offered => offered.length + 1)
      (fun _ offered => Nat.le_add_left 1 offered.length) s cur wire ws hst
  obtain ⟨hm, hq⟩ := hall (fun _ offered => Nat.le_succ offered.length)
  obtain ⟨hconn, hq', hc'⟩ := hst'
  rw [hm] at hc'
  rw [hq] at hq'
  have hws : ws' = [] := by cases hq'; rfl
  subst hc' hws
  simp only [List.flatten_nil, List.append_nil] at hfl
  rw [acceptAll_eq, h1, hfl]
  exact ⟨s', rfl, hm, hq, hconn⟩

/-- Enqueuing a frame on a connected socket with nothing queued or in progress,
on a transport that accepts everything, emits the wire bytes of the frame. -/
theorem PushOutgoingMessage_acceptAll (le : Bool) (s : Socket) (frame w wire : List Byte)
    (hconn : s.Connected = true) (hidle : s.OutgoingMessage = none)
    (hq : s.OutgoingMessageQueue = []) (hw : wireEncoding le frame = .ok w) :
    ∃ s', PushOutgoingMessage le acceptAll s frame wire = .ok (s', wire ++ w)
      ∧ s'.OutgoingMessage = none ∧ s'.OutgoingMessageQueue = [] ∧ s'.Connected = true := by
  have hst : SendState le { s with OutgoingMessageQueue := s.OutgoingMessageQueue ++ [frame] }
      [] [w] := by
    refine ⟨hconn, ?_, ?_⟩
    · show List.Forall₂ _ (s.OutgoingMessageQueue ++ [frame]) [w]
      rw [hq]
      exact List.Forall₂.cons hw List.Forall₂.nil
    · show (match s.OutgoingMessage with
        | none => ([] : List Byte) = []
        | some m => _) 
      rw [hidle]
  obtain ⟨s', h1, h2, h3, h4⟩ := SendData_acceptAll le _ [] wire [w] hst
  refine ⟨s', ?_, h2, h3, h4⟩
  have hcond : (Option.isNone s.OutgoingMessage = true ∧ s.Connected = true) := by
    rw [hidle, hconn]; exact ⟨rfl, rfl⟩
  simp only [List.nil_append, List.flatten_cons, List.flatten_nil, List.append_nil] at h1
  unfold PushOutgoingMessage
  rw [if_pos hcond]
  exact h1

/-- A frame whose `length` field has the top bit set is sent with a negative
`OutgoingLength`, so that `send` is called with a byte count out of range. -/
theorem SendData_long_body (send : Transport) (s : Socket) (t p : Byte) (body wire : List Byte)
    (q : List (List Byte)) (hconn : s.Connected = true) (hidle : s.OutgoingMessage = none)
    (hq : s.OutgoingMessageQueue = hostFrame true t p body :: q)
    (h1 : 32768 ≤ body.length) (h2 : body.length ≤ 65531) :
    SendData true send s wire = .error .outOfBounds := by
  have hv : shortVal body.length = (body.length : Int) - 65536 := by
    have e1 : body.length % 65536 = body.length := Nat.mod_eq_of_lt (by omega)
    have e2 : ¬ body.length < 32768 := by omega
    simp [shortVal, e1, e2]
  have hw : ([] : List Byte).length = 2 * wordsTouched ((body.length : Int) - 65536) := by
    unfold wordsTouched; simp only [List.length_nil]; omega
  have hadj := AdjustOrdering_frame t p (Fin.ofNat (body.length % 256))
    (Fin.ofNat (body.length / 256 % 256)) [] body ((body.length : Int) - 65536) hw
  simp only [swapPairs, List.nil_append] at hadj
  have hrb : ∀ m : List Byte, readBytes m 0
      ((sizeofMessageHeader : Int) + ((body.length : Int) - 65536) - 0) = .error .outOfBounds := by
    intro m
    have : ¬ ((0 : Int) ≤ 0 ∧ 0 ≤ (sizeofMessageHeader : Int) + ((body.length : Int) - 65536) - 0
        ∧ 0 + ((sizeofMessageHeader : Int) + ((body.length : Int) - 65536) - 0) ≤ m.length) := by
      simp only [sizeofMessageHeader]; omega
    simp only [readBytes, this, if_false]
  have hnext : nextOutgoing true s = .ok (some { s with
      OutgoingMessage := some (t :: p :: Fin.ofNat (body.length / 256 % 256)
        :: Fin.ofNat (body.length % 256) :: body)
      OutgoingMessageQueue := q
      OutgoingNext := 0
      OutgoingLength := sizeofMessageHeader + ((body.length : Int) - 65536) }) := by
    have hadj' : AdjustOrdering true (hostFrame true t p body) ((body.length : Int) - 65536)
        = .ok (t :: p :: Fin.ofNat (body.length / 256 % 256)
          :: Fin.ofNat (body.length % 256) :: body) := by
      simpa [hostFrame, writeShort] using hadj
    simp only [nextOutgoing, hidle, hq, readLength_hostFrame true t p body (by omega), ok_bind,
      hv, hadj', pure_eq_ok]
  simp only [SendData, hconn, if_true, sendLoop, hnext, sendCurrent, hrb, error_bind]

theorem connected_awaiting (MySocket : Int) (h0 h1 h2 h3 : Byte) (a b : Int) :
    AwaitingHeader (connected MySocket [h0, h1, h2, h3] a b) :=
  ⟨rfl, rfl, rfl, rfl, rfl⟩

/-- Receiving a whole wire message of even body length at most 32766, in any
chunks, queues the decoded frame and leaves the accumulator awaiting a header;
receiving only a proper part of it queues nothing. -/
theorem receiveAll_wireFrame (s0 : Socket) (t p : Byte) (wbody : List Byte)
    (hs0 : AwaitingHeader s0) (heven : wbody.length % 2 = 0) (hmax : wbody.length ≤ 32766)
    (chunks : List (List Byte)) (n : Nat) (hn : n = chunks.flatten.length)
    (hfl : chunks.flatten = (wireFrame t p wbody).take n) :
    ∃ s', receiveAll true s0 (chunks.map .received) = .ok s'
      ∧ (n < (wireFrame t p wbody).length → s'.IncomingMessageQueue = s0.IncomingMessageQueue)
      ∧ ((wireFrame t p wbody).length ≤ n →
          s'.IncomingMessageQueue
              = s0.IncomingMessageQueue ++ [hostFrame true t p (swapPairs wbody)]
            ∧ AwaitingHeader s') := by
  have hle : n ≤ (wireFrame t p wbody).length := by
    have := congrArg List.length hfl
    rw [List.length_take] at this
    omega
  have h := receiveAll_progress s0 t p wbody hs0 heven hmax chunks 0 (by omega)
    (by rw [List.drop_zero, ← hn]; exact hfl)
  rw [receiveProgress_zero _ _ _ hs0, Nat.zero_add, ← hn] at h
  refine ⟨_, h, fun hlt => receiveProgress_queue _ _ _ _ hlt, fun hge => ?_⟩
  have hn' : n = (wireFrame t p wbody).length := by omega
  rw [hn', receiveProgress_done]
  exact ⟨rfl, hs0.1, rfl, rfl, rfl, rfl⟩

/-- Enqueuing a frame whose `length` field has the top bit set, on a connected
socket with nothing queued or in progress. -/
theorem PushOutgoingMessage_long_body (send : Transport) (s : Socket) (t p : Byte)
    (body wire : List Byte) (hconn : s.Connected = true) (hidle : s.OutgoingMessage = none)
    (hq : s.OutgoingMessageQueue = []) (h1 : 32768 ≤ body.length) (h2 : body.length ≤ 65531) :
    PushOutgoingMessage true send s (hostFrame true t p body) wire = .error .outOfBounds := by
  have hcond : (Option.isNone s.OutgoingMessage = true ∧ s.Connected = true) := by
    rw [hidle, hconn]; exact ⟨rfl, rfl⟩
  unfold PushOutgoingMessage
  rw [if_pos hcond]
  exact SendData_long_body send _ t p body wire [] hconn hidle
    (show s.OutgoingMessageQueue ++ [hostFrame true t p body] = _ by rw [hq]; rfl) h1 h2

/-! ## Lemmas on streams of messages -/

/-- What `AdjustOrdering` makes of a complete wire message of even body length:
the frame the host queues. -/
theorem AdjustOrdering_wire (le : Bool) (m : WireMessage) (hm : m.Even) :
    AdjustOrdering le m.wire m.body.length = .ok (m.decoded le) := by
  cases le
  · rfl
  · exact AdjustOrdering_wireFrame m.type m.pad m.body hm.1

/-- One pass of the receive loop inside a wire message: the next bytes, up to
the end of the header or of the message, are consumed. -/
theorem receiveLoop_iterate (le : Bool) (s0 : Socket) (m : WireMessage) (hs0 : AwaitingHeader s0)
    (hm : m.Even) (buffer : List Byte) (fuel bn n : Nat) (hbn : bn < buffer.length)
    (hn : n < m.wire.length) :
    ∃ c, 0 < c ∧ c ≤ buffer.length - bn ∧ n + c ≤ m.wire.length
      ∧ ((buffer.drop bn).take c = (m.wire.drop n).take c →
          receiveLoop le buffer (fuel + 1) bn (receiveProgress s0 m.wire (m.decoded le) n)
            = receiveLoop le buffer fuel ((bn + c : Nat) : Int)
                (receiveProgress s0 m.wire (m.decoded le) (n + c))) := by
  have hsz : sizeofMessageHeader = 4 := rfl
  have hwl : m.wire.length = m.body.length + 4 := wireFrame_length _ _ _
  obtain ⟨g, hg0, hgap, hgn⟩ := receiveProgress_gap s0 m.wire (m.decoded le) n
  have hgn' := hgn hn
  obtain ⟨c, hc⟩ : ∃ c : Nat, c = min g (buffer.length - bn) := ⟨_, rfl⟩
  have hcount : min (g : Int) ((buffer.length : Int) - (bn : Int)) = (c : Int) := by omega
  have hle : n + c ≤ m.wire.length := by
    have : n + g ≤ m.wire.length := by
      rw [hgn']; split <;> omega
    omega
  refine ⟨c, by omega, by omega, hle, fun hmatch => ?_⟩
  have hrd : readBytes buffer bn c = .ok ((m.wire.drop n).take c) := by
    rw [readBytes_ok buffer bn c (by omega), hmatch]
  have hstep := receiveStep_progress le s0 m.type m.pad m.body _ hs0
    (AdjustOrdering_wire le m hm) hm.2 n c (by omega) (by
    show n + c ≤ if n < sizeofMessageHeader then sizeofMessageHeader else m.wire.length
    rw [← hgn']; omega)
  simp only [receiveLoop, hgap]
  rw [hcount, if_neg (by omega), if_pos (by omega), hrd, ok_bind]
  show (receiveStep le (receiveProgress s0 (wireFrame m.type m.pad m.body) (m.decoded le) n)
      (((wireFrame m.type m.pad m.body).drop n).take c) >>= _) = _
  rw [hstep, ok_bind]
  rw [show ((bn : Int) + (c : Int)) = ((bn + c : Nat) : Int) by push_cast; rfl]
  rfl

theorem wireStream_cons (m : WireMessage) (ms : List WireMessage) :
    wireStream (m :: ms) = m.wire ++ wireStream ms := by
  simp [wireStream]

theorem wireStream_append (ms1 ms2 : List WireMessage) :
    wireStream (ms1 ++ ms2) = wireStream ms1 ++ wireStream ms2 := by
  simp [wireStream]

theorem wire_pos (m : WireMessage) : 0 < m.wire.length := by
  have : m.wire.length = m.body.length + 4 := wireFrame_length _ _ _
  omega

/-- The state after a whole message awaits the next header. -/
theorem receiveProgress_whole (le : Bool) (s0 : Socket) (m : WireMessage) (hs0 : AwaitingHeader s0) :
    AwaitingHeader (receiveProgress s0 m.wire (m.decoded le) m.wire.length)
      ∧ (receiveProgress s0 m.wire (m.decoded le) m.wire.length).IncomingMessageQueue
        = s0.IncomingMessageQueue ++ [(m.decoded le)] := by
  have h := receiveProgress_done s0 m.type m.pad m.body (m.decoded le)
  have h' : receiveProgress s0 m.wire (m.decoded le) m.wire.length = _ := h
  rw [h']
  exact ⟨⟨hs0.1, rfl, rfl, rfl, rfl⟩, rfl⟩

theorem streamProgress_zero (le : Bool) (s0 : Socket) (ms : List WireMessage) (hs0 : AwaitingHeader s0) :
    streamProgress le s0 ms 0 = s0 := by
  cases ms with
  | nil => rfl
  | cons m ms =>
    simp only [streamProgress, if_pos (wire_pos m)]
    exact receiveProgress_zero s0 _ _ hs0

/-- Inside the first message of a stream, the state is that of the message;
at its end it is the state at the start of the rest of the stream. -/
theorem streamProgress_first (le : Bool) (s0 : Socket) (m : WireMessage) (ms : List WireMessage)
    (hs0 : AwaitingHeader s0) (k : Nat) (hk : k ≤ m.wire.length) :
    streamProgress le s0 (m :: ms) k = receiveProgress s0 m.wire (m.decoded le) k := by
  by_cases hlt : k < m.wire.length
  · simp only [streamProgress, if_pos hlt]
  · have hk' : k = m.wire.length := by omega
    subst hk'
    simp only [streamProgress, if_neg hlt, Nat.sub_self]
    exact streamProgress_zero le _ ms (receiveProgress_whole le s0 m hs0).1

theorem streamProgress_later (le : Bool) (s0 : Socket) (m : WireMessage) (ms : List WireMessage)
    (k : Nat) (hk : m.wire.length ≤ k) :
    streamProgress le s0 (m :: ms) k
      = streamProgress le (receiveProgress s0 m.wire (m.decoded le) m.wire.length) ms
          (k - m.wire.length) := by
  simp only [streamProgress, if_neg (by omega : ¬ k < m.wire.length)]

/-- The receive loop on a buffer whose unread part continues a stream of
messages of even body length at most 32766 advances the receive state by the
number of unread bytes, across any number of message boundaries. -/
theorem receiveLoop_stream (le : Bool) (buffer : List Byte) :
    ∀ (fuel : Nat) (ms : List WireMessage) (s0 : Socket) (k bn : Nat),
      AwaitingHeader s0 → (∀ m ∈ ms, m.Even) → bn ≤ buffer.length →
      k + (buffer.length - bn) ≤ (wireStream ms).length →
      buffer.drop bn = ((wireStream ms).drop k).take (buffer.length - bn) →
      buffer.length - bn < fuel →
      receiveLoop le buffer fuel bn (streamProgress le s0 ms k)
        = .ok (streamProgress le s0 ms (k + (buffer.length - bn))) := by
  intro fuel
  induction fuel with
  | zero => intro ms s0 k bn _ _ _ _ _ hf; omega
  | succ fuel ih =>
    intro ms
    induction ms with
    | nil =>
      intro s0 k bn hs0 _ hbn hfit hbuf hfuel
      simp only [wireStream, List.map_nil, List.flatten_nil, List.length_nil] at hfit
      obtain ⟨_, _, h3, h4, _⟩ := hs0
      have hcount : min (s0.IncomingLength - s0.IncomingNext)
          ((buffer.length : Int) - (bn : Int)) = 0 := by
        rw [h3, h4]; simp only [sizeofMessageHeader]; omega
      simp only [streamProgress, receiveLoop, hcount, if_true]
    | cons m rest ihm =>
      intro s0 k bn hs0 hms hbn hfit hbuf hfuel
      have hwl : m.wire.length = m.body.length + 4 := wireFrame_length _ _ _
      rw [wireStream_cons] at hfit hbuf
      rw [List.length_append] at hfit
      by_cases hk : k < m.wire.length
      · by_cases hrem : buffer.length - bn = 0
        · obtain ⟨g, hg0, hgap, _⟩ := receiveProgress_gap s0 m.wire (m.decoded le) k
          have hcount : min (g : Int) ((buffer.length : Int) - (bn : Int)) = 0 := by omega
          have hsame : k + (buffer.length - bn) = k := by omega
          rw [hsame, streamProgress_first le s0 m rest hs0 k (by omega)]
          simp only [receiveLoop, hgap, hcount, if_true]
        · obtain ⟨c, hc0, hcr, hcw, hiter⟩ := receiveLoop_iterate le s0 m hs0
            (hms m (List.mem_cons_self _ _)) buffer fuel bn k (by omega) hk
          have hmatch : (buffer.drop bn).take c = (m.wire.drop k).take c := by
            rw [hbuf, List.take_take, Nat.min_eq_left hcr,
              List.drop_append_of_le_length (by omega),
              List.take_append_of_le_length (by rw [List.length_drop]; omega)]
          have hnext := ih (m :: rest) s0 (k + c) (bn + c) hs0 hms (by omega)
            (by rw [wireStream_cons, List.length_append]; omega)
            (by
              rw [wireStream_cons, ← List.drop_drop, hbuf, List.drop_take, List.drop_drop]
              congr 1
              omega)
            (by omega)
          rw [streamProgress_first le s0 m rest hs0 k (by omega), hiter hmatch,
            ← streamProgress_first le s0 m rest hs0 (k + c) hcw, hnext]
          congr 2
          omega
      · have hk' : m.wire.length ≤ k := by omega
        have hnext := ihm (receiveProgress s0 m.wire (m.decoded le) m.wire.length)
          (k - m.wire.length) bn (receiveProgress_whole le s0 m hs0).1
          (fun x hx => hms x (List.mem_cons_of_mem _ hx)) hbn (by omega)
          (by
            rw [hbuf, List.drop_append_eq_append_drop, List.drop_of_length_le hk',
              List.nil_append])
          hfuel
        rw [streamProgress_later le s0 m rest k hk',
          streamProgress_later le s0 m rest (k + (buffer.length - bn)) (by omega), hnext]
        congr 2
        omega

theorem streamProgress_Connected (le : Bool) : ∀ (ms : List WireMessage) (s0 : Socket) (k : Nat),
    (streamProgress le s0 ms k).Connected = s0.Connected
  | [], _, _ => rfl
  | m :: ms, s0, k => by
    unfold streamProgress
    split
    · exact receiveProgress_Connected _ _ _ _
    · rw [streamProgress_Connected le ms, receiveProgress_Connected]

/-- One call of `ReceiveData` that receives the next bytes of a stream of
messages advances the receive state by that many bytes. -/
theorem ReceiveData_stream (le : Bool) (s0 : Socket) (ms : List WireMessage) (hs0 : AwaitingHeader s0)
    (hms : ∀ m ∈ ms, m.Even) (chunk : List Byte) (k : Nat)
    (hfit : k + chunk.length ≤ (wireStream ms).length)
    (hchunk : chunk = ((wireStream ms).drop k).take chunk.length) :
    ReceiveData le (streamProgress le s0 ms k) (.received chunk)
      = .ok (streamProgress le s0 ms (k + chunk.length)) := by
  have hconn : (streamProgress le s0 ms k).Connected = true := by
    rw [streamProgress_Connected]; exact hs0.1
  simp only [ReceiveData, hconn, if_true]
  by_cases hz : chunk.length = 0
  · rw [if_pos hz, hz, Nat.add_zero]
  · rw [if_neg hz]
    have h := receiveLoop_stream le chunk (chunk.length + 1) ms s0 k 0 hs0 hms
      (by omega) (by simpa using hfit) (by simpa using hchunk) (by omega)
    simpa using h

/-- A sequence of `ReceiveData` calls that receives the next bytes of a stream
of messages advances the receive state by the bytes received. -/
theorem receiveAll_stream (le : Bool) (s0 : Socket) (ms : List WireMessage) (hs0 : AwaitingHeader s0)
    (hms : ∀ m ∈ ms, m.Even) :
    ∀ (chunks : List (List Byte)) (k : Nat),
      k + chunks.flatten.length ≤ (wireStream ms).length →
      chunks.flatten = ((wireStream ms).drop k).take chunks.flatten.length →
      receiveAll le (streamProgress le s0 ms k) (chunks.map .received)
        = .ok (streamProgress le s0 ms (k + chunks.flatten.length))
  | [], k, _, _ => by simp [receiveAll]
  | chunk :: chunks, k, hfit, hfl => by
    simp only [List.flatten_cons, List.length_append] at hfit hfl
    have hc : chunk = ((wireStream ms).drop k).take chunk.length := by
      have := congrArg (List.take chunk.length) hfl
      rw [List.take_left, List.take_take, Nat.min_eq_left (by omega)] at this
      exact this
    have hrest : chunks.flatten
        = ((wireStream ms).drop (k + chunk.length)).take chunks.flatten.length := by
      have := congrArg (List.drop chunk.length) hfl
      rw [List.drop_left, List.drop_take, List.drop_drop, Nat.add_sub_cancel_left] at this
      exact this
    have h1 := ReceiveData_stream le s0 ms hs0 hms chunk k (by omega) hc
    have h2 := receiveAll_stream le s0 ms hs0 hms chunks (k + chunk.length) (by omega) hrest
    simp only [receiveAll, List.map_cons, List.foldlM_cons, h1, ok_bind] at h2 ⊢
    rw [h2, List.flatten_cons, List.length_append, Nat.add_assoc]

/-- The calls of `ReceiveData` that deliver the first `k` bytes of a stream of
messages, from a state awaiting a header. -/
theorem receiveAll_stream_take (le : Bool) (s0 : Socket) (ms : List WireMessage) (hs0 : AwaitingHeader s0)
    (hms : ∀ m ∈ ms, m.Even) (chunks : List (List Byte)) (k : Nat)
    (hk : k ≤ (wireStream ms).length) (hfl : chunks.flatten = (wireStream ms).take k) :
    receiveAll le s0 (chunks.map .received) = .ok (streamProgress le s0 ms k) := by
  have hlen : chunks.flatten.length = k := by
    rw [hfl, List.length_take]; omega
  have h := receiveAll_stream le s0 ms hs0 hms chunks 0 (by omega)
    (by rw [List.drop_zero, hlen]; exact hfl)
  rw [streamProgress_zero le s0 ms hs0, Nat.zero_add, hlen] at h
  exact h

/-- At the end of a list of messages the accumulator awaits a header and the
decoded frames have been queued in the order of the messages. -/
theorem streamProgress_all (le : Bool) : ∀ (ms : List WireMessage) (s0 : Socket), AwaitingHeader s0 →
    AwaitingHeader (streamProgress le s0 ms (wireStream ms).length)
      ∧ (streamProgress le s0 ms (wireStream ms).length).IncomingMessageQueue
          = s0.IncomingMessageQueue ++ ms.map (WireMessage.decoded le)
  | [], s0, hs0 => ⟨hs0, by simp [streamProgress]⟩
  | m :: ms, s0, hs0 => by
    obtain ⟨ha, hq⟩ := receiveProgress_whole le s0 m hs0
    obtain ⟨ha', hq'⟩ := streamProgress_all le ms _ ha
    rw [wireStream_cons, List.length_append,
      streamProgress_later le s0 m ms _ (by omega), Nat.add_sub_cancel_left]
    refine ⟨ha', ?_⟩
    rw [hq', hq, List.map_cons, List.append_assoc]
    rfl

theorem streamProgress_append (le : Bool) : ∀ (ms : List WireMessage) (s0 : Socket)
    (ms2 : List WireMessage) (j : Nat),
    streamProgress le s0 (ms ++ ms2) ((wireStream ms).length + j)
      = streamProgress le (streamProgress le s0 ms (wireStream ms).length) ms2 j
  | [], s0, ms2, j => by
    simp [wireStream, streamProgress]
  | m :: ms, s0, ms2, j => by
    rw [wireStream_cons, List.length_append, List.cons_append,
      streamProgress_later le s0 m (ms ++ ms2) _ (by omega),
      streamProgress_later le s0 m ms _ (by omega), Nat.add_sub_cancel_left,
      show m.wire.length + (wireStream ms).length + j - m.wire.length
        = (wireStream ms).length + j by omega]
    exact streamProgress_append le ms _ ms2 j

/-- Pulling as many times as there are queued frames returns them in queue
order and empties the queue. -/
theorem pullAll_queue : ∀ (q : List (List Byte)) (s : Socket), s.IncomingMessageQueue = q →
    pullAll q.length s = .ok (q, { s with IncomingMessageQueue := [] })
  | [], s, h => by
    simp only [List.length_nil, pullAll]
    rw [← h]
  | f :: q, s, h => by
    have h1 : PullIncomingMessage s = .ok (f, { s with IncomingMessageQueue := q }) := by
      simp only [PullIncomingMessage, h]
    have h2 := pullAll_queue q { s with IncomingMessageQueue := q } rfl
    simp only [List.length_cons, pullAll, h1, h2]

/-- A state awaiting a header satisfies the invariant of the accumulator. -/
theorem awaiting_inv (le : Bool) (s : Socket) (h : AwaitingHeader s) : ReceiveInv le s := by
  obtain ⟨_, h2, h3, h4, h5⟩ := h
  unfold ReceiveInv
  rw [h2, h3, h4]
  exact ⟨le_refl _, by decide, h5, rfl⟩

/-- Inside a wire message of body length at most 32766 the accumulator
satisfies its invariant. -/
theorem receiveProgress_inv (le : Bool) (s0 : Socket) (m : WireMessage) (frame : List Byte)
    (hs0 : AwaitingHeader s0) (hmax : m.body.length ≤ 32766) (n : Nat)
    (hn : n < m.wire.length) : ReceiveInv le (receiveProgress s0 m.wire frame n) := by
  have hsz : sizeofMessageHeader = 4 := rfl
  have hwl : m.wire.length = m.body.length + 4 := wireFrame_length _ _ _
  obtain ⟨_, _, _, _, hH⟩ := hs0
  unfold receiveProgress
  by_cases h1 : n < sizeofMessageHeader
  · rw [if_pos h1]
    unfold ReceiveInv
    simp only [withReceive_IncomingNext, withReceive_IncomingLength, withReceive_Header,
      withReceive_IncomingMessage]
    refine ⟨by omega, by omega, ?_, trivial⟩
    simp only [List.length_append, List.length_take, List.length_drop]
    omega
  · rw [if_neg h1, if_pos hn]
    unfold ReceiveInv
    simp only [withReceive_IncomingNext, withReceive_IncomingLength, withReceive_Header,
      withReceive_IncomingMessage]
    refine ⟨by omega, by omega, ?_, ?_, by omega, by omega, ?_⟩
    · simp only [List.length_take]
      omega
    · simp only [List.length_append, List.length_take, List.length_replicate]
      omega
    · obtain ⟨n', hn'⟩ : ∃ n', n = n' + 4 := ⟨n - 4, by omega⟩
      subst hn'
      refine ⟨readShort le (Fin.ofNat (m.body.length / 256 % 256))
        (Fin.ofNat (m.body.length % 256)), ?_, ?_⟩
      · simp [WireMessage.wire, wireFrame, readLength, lengthOffset]
      · rw [decode_length le m.body.length (by omega), shortVal_of_le _ (by omega), hwl]
        simp only [hsz]
        push_cast
        ring

/-- The size of the buffer in use inside a wire message never exceeds that of
the message. -/
theorem receiveProgress_size (s0 : Socket) (wire frame : List Byte) (n : Nat)
    (h : sizeofMessageHeader ≤ wire.length) :
    (receiveProgress s0 wire frame n).IncomingLength ≤ (wire.length : Int) := by
  have hsz : sizeofMessageHeader = 4 := rfl
  unfold receiveProgress
  split
  · simp only [withReceive_IncomingLength]; omega
  · split
    · simp only [withReceive_IncomingLength]; omega
    · simp only [withReceive_IncomingLength]; omega

/-- Everywhere in a stream of messages of even body length at most 32766 the
accumulator satisfies its invariant. -/
theorem streamProgress_inv (le : Bool) : ∀ (ms : List WireMessage) (s0 : Socket) (k : Nat),
    AwaitingHeader s0 → (∀ m ∈ ms, m.Even) → ReceiveInv le (streamProgress le s0 ms k)
  | [], s0, _, hs0, _ => awaiting_inv le s0 hs0
  | m :: ms, s0, k, hs0, hms => by
    by_cases hk : k < m.wire.length
    · rw [streamProgress_first le s0 m ms hs0 k (by omega)]
      exact receiveProgress_inv le s0 m _ hs0 (hms m (List.mem_cons_self _ _)).2 k hk
    · rw [streamProgress_later le s0 m ms k (by omega)]
      exact streamProgress_inv le ms _ _ (receiveProgress_whole le s0 m hs0).1
        (fun x hx => hms x (List.mem_cons_of_mem _ hx))

/-- The bytes delivered by the first `i` reads are an initial part of the bytes
delivered by all of them. -/
theorem flatten_take (chunks : List (List Byte)) (i : Nat) :
    (chunks.take i).flatten = chunks.flatten.take (chunks.take i).flatten.length := by
  have h : chunks.flatten = (chunks.take i).flatten ++ (chunks.drop i).flatten := by
    rw [← List.flatten_append, List.take_append_drop]
  rw [h, List.take_left]

/-- What `SendData` emits for the host frame of a body of even length at most
32766, under either byte order. -/
theorem wireEncoding_hostFrame_any (le : Bool) (t p : Byte) (body : List Byte)
    (heven : body.length % 2 = 0) (hmax : body.length ≤ 32766) :
    wireEncoding le (hostFrame le t p body)
      = .ok (wireFrame t p (if le then swapPairs body else body)) := by
  cases le
  · have hl := wireFrame_length t p body
    have hrd : readBytes (wireFrame t p body) 0
        ((sizeofMessageHeader : Int) + (body.length : Int)) = .ok (wireFrame t p body) := by
      have := readBytes_ok (wireFrame t p body) 0 (4 + body.length) (by omega)
      rw [List.drop_zero, List.take_of_length_le (by omega)] at this
      rw [← this]
      congr 1
    have hadj : ∀ n : Int, AdjustOrdering false (hostFrame false t p body) n
        = .ok (wireFrame t p body) := fun _ => rfl
    simp only [wireEncoding, readLength_hostFrame false t p body (by omega), ok_bind,
      shortVal_of_le body.length (by omega), hadj, hrd, Bool.false_eq_true, if_false]
  · exact wireEncoding_hostFrame t p body heven hmax

/-- Under the invariant the buffer `IncomingMessage` points to has exactly
`IncomingLength` bytes. -/
theorem ReceiveInv_mem (le : Bool) (s : Socket) (h : ReceiveInv le s) :
    (s.incomingMem.length : Int) = s.IncomingLength := by
  obtain ⟨_, _, hH, hm⟩ := h
  unfold Socket.incomingMem
  cases hI : s.IncomingMessage with
  | header =>
    rw [hI] at hm
    simp only at hm ⊢
    rw [hH, hm]
  | heap buf =>
    rw [hI] at hm
    exact hm.1

theorem wireStream_single (m : WireMessage) : wireStream [m] = m.wire := by
  simp [wireStream]

/-- While one message is received the buffer in use is never larger than the
message. -/
theorem streamProgress_single_size (le : Bool) (s0 : Socket) (m : WireMessage) (k : Nat)
    (hs0 : AwaitingHeader s0) :
    (streamProgress le s0 [m] k).IncomingLength ≤ (m.wire.length : Int) := by
  have hwl : m.wire.length = m.body.length + 4 := wireFrame_length _ _ _
  have hsz : sizeofMessageHeader = 4 := rfl
  by_cases hk : k < m.wire.length
  · rw [streamProgress_first le s0 m [] hs0 k (by omega)]
    exact receiveProgress_size _ _ _ _ (by omega)
  · rw [streamProgress_later le s0 m [] k (by omega)]
    have h4 := (receiveProgress_whole le s0 m hs0).1.2.2.2.1
    simp only [streamProgress]
    rw [h4]
    omega

/-- The invariant of the receive accumulator, under either byte order, for
input that is an initial part of the wire bytes of messages whose body lengths
are even and at most 32766.  From the state set by `Connect` on a connected
socket, however the input is cut into reads, every call of `ReceiveData`
returns and the state on return satisfies the invariant; the buffer in use has
exactly `IncomingLength` bytes, so a copy of at most `IncomingLength -
IncomingNext` bytes at `IncomingNext` stays inside it. -/
theorem receiveAll_invariant_even (LITTLE_ENDIAN : Bool) (ms : List WireMessage)
    (hms : ∀ m ∈ ms, m.Even) (MySocket : Int) (h0 h1 h2 h3 : Byte) (a b : Int)
    (chunks : List (List Byte)) (k : Nat) (hk : k ≤ (wireStream ms).length)
    (hfl : chunks.flatten = (wireStream ms).take k) (i : Nat) :
    ∃ r, receiveAll LITTLE_ENDIAN (connected MySocket [h0, h1, h2, h3] a b)
          ((chunks.take i).map .received) = .ok r
      ∧ ReceiveInv LITTLE_ENDIAN r
      ∧ (r.incomingMem.length : Int) = r.IncomingLength
      ∧ ∀ src : List Byte, (src.length : Int) ≤ r.IncomingLength - r.IncomingNext →
          ∃ mem, writeBytes r.incomingMem r.IncomingNext src = .ok mem := by
  have hs0 := connected_awaiting MySocket h0 h1 h2 h3 a b
  have hpre := flatten_take chunks i
  have hlen : chunks.flatten.length = k := by
    rw [hfl, List.length_take]; omega
  have hk' : (chunks.take i).flatten.length ≤ k := by
    have := congrArg List.length hpre
    rw [List.length_take] at this
    omega
  rw [hfl, List.take_take, Nat.min_eq_left hk'] at hpre
  have hrecv := receiveAll_stream_take LITTLE_ENDIAN _ ms hs0 hms (chunks.take i) _
    (by omega) hpre
  have hinv := streamProgress_inv LITTLE_ENDIAN ms _ (chunks.take i).flatten.length hs0 hms
  have hmem := ReceiveInv_mem _ _ hinv
  refine ⟨_, hrecv, hinv, hmem, fun src hsrc => ?_⟩
  obtain ⟨n, hn⟩ : ∃ n : Nat, (streamProgress LITTLE_ENDIAN
      (connected MySocket [h0, h1, h2, h3] a b) ms (chunks.take i).flatten.length).IncomingNext
        = n := ⟨_, (Int.toNat_of_nonneg hinv.1).symm⟩
  rw [hn] at hsrc ⊢
  exact ⟨_, writeBytes_ok _ n src (by omega)⟩

/-! ## Lemmas on the registry -/

/-- The scan of `FindSocket` never faults inside the table; it returns the
first slot from `i` on whose object has the handle, and `none` if there is no
such slot among the `n` visited. -/
theorem findSocketFrom_spec (heap : SocketPtr → Socket) (r : Registry) (h : Int) :
    ∀ (n i : Nat), i + n ≤ r.SocketTab.length →
      ∃ res, findSocketFrom heap r h n i = .ok res
        ∧ (res = none → ∀ k p, i ≤ k → k < i + n → r.SocketTab[k]? = some p →
            (heap p).MySocket ≠ h)
        ∧ ∀ j, res = some j → i ≤ j ∧ j < i + n
            ∧ ∃ p, r.SocketTab[j]? = some p ∧ (heap p).MySocket = h
  | 0, i, _ => ⟨none, rfl, fun _ k p h1 h2 => (by omega), fun j hj => (by cases hj)⟩
  | n + 1, i, hb => by
    have hi : i < r.SocketTab.length := by omega
    have hget : r.SocketTab[i]? = some r.SocketTab[i] := List.getElem?_eq_getElem hi
    by_cases hm : (heap r.SocketTab[i]).MySocket = h
    · refine ⟨some i, by simp [findSocketFrom, hget, hm], fun hn => (by cases hn),
        fun j hj => ?_⟩
      cases hj
      exact ⟨Nat.le_refl _, by omega, _, hget, hm⟩
    · obtain ⟨res, hres, hnone, hsome⟩ := findSocketFrom_spec heap r h n (i + 1) (by omega)
      refine ⟨res, by simp [findSocketFrom, hget, hm, hres], fun hn k p h1 h2 hk => ?_,
        fun j hj => ?_⟩
      · by_cases hki : k = i
        · subst hki
          rw [hget] at hk
          cases hk
          exact hm
        · exact hnone hn k p (by omega) (by omega) hk
      · obtain ⟨h1, h2, h3⟩ := hsome j hj
        exact ⟨by omega, by omega, h3⟩

/-- On a well-formed registry `FindSocket` returns without fault: `none` exactly
when no registered object has the handle, and otherwise a live slot whose
object has the handle. -/
theorem FindSocket_spec (FD : Nat) (heap : SocketPtr → Socket) (r : Registry) (h : Int)
    (hv : r.Valid FD heap) :
    ∃ res, FindSocket heap r h = .ok res
      ∧ (res = none ↔ ∀ p, r.Registered p → (heap p).MySocket ≠ h)
      ∧ ∀ j, res = some j → j < r.SocketCnt
          ∧ ∃ p, r.SocketTab[j]? = some p ∧ (heap p).MySocket = h := by
  obtain ⟨hlen, hcnt, _⟩ := hv
  obtain ⟨res, hres, hnone, hsome⟩ := findSocketFrom_spec heap r h r.SocketCnt 0 (by omega)
  refine ⟨res, hres, ⟨fun hn p ⟨k, hk, hp⟩ => hnone hn k p (Nat.zero_le _) (by omega) hp,
    fun hall => ?_⟩, fun j hj => ?_⟩
  · cases hr : res with
    | none => rfl
    | some j =>
      obtain ⟨_, h2, p, hp, hh⟩ := hsome j hr
      exact absurd hh (hall p ⟨j, by omega, hp⟩)
  · obtain ⟨_, h2, h3⟩ := hsome j hj
    exact ⟨by omega, h3⟩

/-- `InsertSocket` returns exactly under its precondition (handle not present,
count below `FD_SETSIZE`), and then stores `this` in the first free slot. -/
theorem InsertSocket_spec (FD : Nat) (heap : SocketPtr → Socket) (r : Registry)
    (this : SocketPtr) (hv : r.Valid FD heap) :
    (∀ r', InsertSocket FD heap r this = .ok r' →
        (∀ q, r.Registered q → (heap q).MySocket ≠ (heap this).MySocket) ∧ r.SocketCnt < FD)
      ∧ ((∀ q, r.Registered q → (heap q).MySocket ≠ (heap this).MySocket) → r.SocketCnt < FD →
        InsertSocket FD heap r this
          = .ok { SocketTab := r.SocketTab.set r.SocketCnt this, SocketCnt := r.SocketCnt + 1 }) := by
  obtain ⟨res, hres, hnone, _⟩ := FindSocket_spec FD heap r (heap this).MySocket hv
  obtain ⟨hlen, _, _⟩ := hv
  constructor
  · intro r' h
    simp only [InsertSocket, hres, ok_bind] at h
    by_cases hc : res.isNone = true ∧ r.SocketCnt < FD
    · exact ⟨hnone.mp (Option.isNone_iff_eq_none.mp hc.1), hc.2⟩
    · rw [if_neg hc] at h
      cases h
  · intro hfree hcap
    have hc : res.isNone = true ∧ r.SocketCnt < FD :=
      ⟨Option.isNone_iff_eq_none.mpr (hnone.mpr hfree), hcap⟩
    have hin : r.SocketCnt < r.SocketTab.length := by omega
    simp only [InsertSocket, hres, ok_bind, hc, and_self, if_true, hin, pure_eq_ok]

/-- The registry after an insertion under the precondition is well formed, and
its registered objects are the former ones and the new one. -/
theorem insert_valid (FD : Nat) (heap : SocketPtr → Socket) (r : Registry)
    (this : SocketPtr) (hv : r.Valid FD heap)
    (hfree : ∀ q, r.Registered q → (heap q).MySocket ≠ (heap this).MySocket)
    (hcap : r.SocketCnt < FD) :
    Registry.Valid FD heap
        { SocketTab := r.SocketTab.set r.SocketCnt this, SocketCnt := r.SocketCnt + 1 }
      ∧ ∀ q, Registry.Registered
          { SocketTab := r.SocketTab.set r.SocketCnt this, SocketCnt := r.SocketCnt + 1 } q
        ↔ (r.Registered q ∨ q = this) := by
  obtain ⟨hlen, hcnt, huniq⟩ := hv
  have hin : r.SocketCnt < r.SocketTab.length := by omega
  have hget : ∀ k, (r.SocketTab.set r.SocketCnt this)[k]?
      = if r.SocketCnt = k then some this else r.SocketTab[k]? := by
    intro k
    rw [List.getElem?_set]
    simp [hin]
  refine ⟨⟨by simp [hlen], by simp only; omega, ?_⟩, ?_⟩
  · intro i j p q hi hj hp hq hh
    simp only at hi hj hp hq
    rw [hget] at hp hq
    by_cases h1 : r.SocketCnt = i <;> by_cases h2 : r.SocketCnt = j
    · omega
    · rw [if_pos h1] at hp
      rw [if_neg h2] at hq
      cases hp
      exact absurd hh.symm (hfree q ⟨j, by omega, hq⟩)
    · rw [if_neg h1] at hp
      rw [if_pos h2] at hq
      cases hq
      exact absurd hh (hfree p ⟨i, by omega, hp⟩)
    · rw [if_neg h1] at hp
      rw [if_neg h2] at hq
      exact huniq i j p q (by omega) (by omega) hp hq hh
  · intro q
    constructor
    · rintro ⟨k, hk, hq⟩
      simp only at hk hq
      rw [hget] at hq
      by_cases h1 : r.SocketCnt = k
      · rw [if_pos h1] at hq
        cases hq
        exact Or.inr rfl
      · rw [if_neg h1] at hq
        exact Or.inl ⟨k, by omega, hq⟩
    · rintro (⟨k, hk, hq⟩ | rfl)
      · exact ⟨k, by simp only; omega, by rw [hget, if_neg (by omega)]; exact hq⟩
      · exact ⟨r.SocketCnt, by simp only; omega, by rw [hget, if_pos rfl]⟩

/-- `RemoveSocket` never faults on a well-formed registry; the result is well
formed and holds the former objects but the one with the handle of `this`. -/
theorem RemoveSocket_spec (FD : Nat) (heap : SocketPtr → Socket) (r : Registry)
    (this : SocketPtr) (hv : r.Valid FD heap) :
    ∃ r', RemoveSocket heap r this = .ok r' ∧ r'.Valid FD heap
      ∧ (∀ q, r'.Registered q
          ↔ (r.Registered q ∧ (heap q).MySocket ≠ (heap this).MySocket))
      ∧ ((∃ q, r.Registered q ∧ (heap q).MySocket = (heap this).MySocket) →
          r'.SocketCnt + 1 = r.SocketCnt)
      ∧ ((∀ q, r.Registered q → (heap q).MySocket ≠ (heap this).MySocket) → r' = r) := by
  obtain ⟨res, hres, hnone, hsome⟩ := FindSocket_spec FD heap r (heap this).MySocket hv
  obtain ⟨hlen, hcnt, huniq⟩ := hv
  cases hr : res with
  | none =>
    have hall := hnone.mp hr
    refine ⟨r, by simp [RemoveSocket, hres, hr], ⟨hlen, hcnt, huniq⟩,
      fun q => ⟨fun hq => ⟨hq, hall q hq⟩, fun hq => hq.1⟩,
      fun ⟨q, hq, hh⟩ => absurd hh (hall q hq), fun _ => rfl⟩
  | some i =>
    obtain ⟨hi, a, ha, hah⟩ := hsome i hr
    have hlast : r.SocketTab[r.SocketCnt - 1]? = some r.SocketTab[r.SocketCnt - 1] :=
      List.getElem?_eq_getElem (by omega)
    have hget : ∀ k, (r.SocketTab.set i r.SocketTab[r.SocketCnt - 1])[k]?
        = if i = k then some r.SocketTab[r.SocketCnt - 1] else r.SocketTab[k]? := by
      intro k
      rw [List.getElem?_set]
      simp [show i < r.SocketTab.length by omega]
    refine ⟨{ SocketTab := r.SocketTab.set i r.SocketTab[r.SocketCnt - 1],
              SocketCnt := r.SocketCnt - 1 },
      by simp [RemoveSocket, hres, hr, hlast], ⟨by simp [hlen], by simp only; omega, ?_⟩, ?_,
      fun _ => by simp only; omega,
      fun hall => absurd hah (hall a ⟨i, hi, ha⟩)⟩
    · intro i1 i2 p q h1 h2 hp hq hh
      simp only at h1 h2 hp hq
      rw [hget] at hp hq
      by_cases e1 : i = i1 <;> by_cases e2 : i = i2
      · omega
      · rw [if_pos e1] at hp
        rw [if_neg e2] at hq
        cases hp
        have := huniq (r.SocketCnt - 1) i2 _ q (by omega) (by omega) hlast hq hh
        omega
      · rw [if_neg e1] at hp
        rw [if_pos e2] at hq
        cases hq
        have := huniq i1 (r.SocketCnt - 1) p _ (by omega) (by omega) hp hlast hh
        omega
      · rw [if_neg e1] at hp
        rw [if_neg e2] at hq
        exact huniq i1 i2 p q (by omega) (by omega) hp hq hh
    · intro q
      constructor
      · rintro ⟨k, hk, hq⟩
        simp only at hk hq
        rw [hget] at hq
        by_cases e : i = k
        · rw [if_pos e] at hq
          cases hq
          refine ⟨⟨r.SocketCnt - 1, by omega, hlast⟩, fun hh => ?_⟩
          have := huniq (r.SocketCnt - 1) i _ a (by omega) hi hlast ha (by rw [hh, hah])
          omega
        · rw [if_neg e] at hq
          refine ⟨⟨k, by omega, hq⟩, fun hh => ?_⟩
          have := huniq k i q a (by omega) hi hq ha (by rw [hh, hah])
          omega
      · rintro ⟨⟨k, hk, hq⟩, hne⟩
        have hki : k ≠ i := by
          intro e
          subst e
          rw [ha] at hq
          cases hq
          exact hne hah
        by_cases hkl : k < r.SocketCnt - 1
        · exact ⟨k, hkl, by rw [hget, if_neg (fun e => hki e.symm)]; exact hq⟩
        · have hk' : k = r.SocketCnt - 1 := by omega
          subst hk'
          rw [hlast] at hq
          cases hq
          exact ⟨i, by simp only; omega, by rw [hget, if_pos rfl]⟩

theorem init_valid (FD : Nat) (heap : SocketPtr → Socket) :
    (Registry.init FD).Valid FD heap ∧ ∀ q, ¬ (Registry.init FD).Registered q := by
  refine ⟨⟨by simp [Registry.init], Nat.zero_le _, fun i j p q hi => ?_⟩, fun q ⟨k, hk, _⟩ => ?_⟩
  · simp only [Registry.init] at hi
    omega
  · simp only [Registry.init] at hk
    omega

/-- One registry call keeps the registry well formed and registers no object
but the one inserted. -/
theorem applyOp_valid (FD : Nat) (heap : SocketPtr → Socket) (r r' : Registry)
    (op : RegistryOp) (hv : r.Valid FD heap) (h : applyOp FD heap r op = .ok r') :
    r'.Valid FD heap ∧ ∀ q, r'.Registered q → r.Registered q ∨ op = .insert q := by
  cases op with
  | insert this =>
    obtain ⟨hpre, hok⟩ := InsertSocket_spec FD heap r this hv
    obtain ⟨hfree, hcap⟩ := hpre r' h
    have heq := hok hfree hcap
    simp only [applyOp] at h
    rw [heq] at h
    cases h
    obtain ⟨hv', hreg⟩ := insert_valid FD heap r this hv hfree hcap
    refine ⟨hv', fun q hq => ?_⟩
    rcases (hreg q).mp hq with h1 | h1
    · exact Or.inl h1
    · exact Or.inr (by rw [h1])
  | remove this =>
    obtain ⟨r'', hrem, hv', hreg, _⟩ := RemoveSocket_spec FD heap r this hv
    simp only [applyOp] at h
    rw [hrem] at h
    cases h
    exact ⟨hv', fun q hq => Or.inl ((hreg q).mp hq).1⟩

theorem runOps_cons (FD : Nat) (heap : SocketPtr → Socket) (op : RegistryOp)
    (ops : List RegistryOp) (r : Registry) :
    runOps FD heap (op :: ops) r = applyOp FD heap r op >>= runOps FD heap ops := by
  simp only [runOps, List.foldlM_cons]
  rfl

theorem runOps_append (FD : Nat) (heap : SocketPtr → Socket) (ops1 ops2 : List RegistryOp)
    (r : Registry) :
    runOps FD heap (ops1 ++ ops2) r = runOps FD heap ops1 r >>= runOps FD heap ops2 := by
  simp only [runOps, List.foldlM_append]
  rfl

/-- A sequence of registry calls keeps the registry well formed, and every
object registered at the end was registered at the start or inserted. -/
theorem runOps_valid (FD : Nat) (heap : SocketPtr → Socket) :
    ∀ (ops : List RegistryOp) (r r' : Registry), r.Valid FD heap →
      runOps FD heap ops r = .ok r' →
      r'.Valid FD heap ∧ ∀ q, r'.Registered q → r.Registered q ∨ RegistryOp.insert q ∈ ops
  | [], r, r', hv, h => by
    simp only [runOps, List.foldlM_nil, pure_eq_ok, Except.ok.injEq] at h
    subst h
    exact ⟨hv, fun q hq => Or.inl hq⟩
  | op :: ops, r, r', hv, h => by
    rw [runOps_cons] at h
    cases h1 : applyOp FD heap r op with
    | error e => rw [h1] at h; cases h
    | ok r1 =>
      rw [h1, ok_bind] at h
      obtain ⟨hv1, hreg1⟩ := applyOp_valid FD heap r r1 op hv h1
      obtain ⟨hv', hreg'⟩ := runOps_valid FD heap ops r1 r' hv1 h
      refine ⟨hv', fun q hq => ?_⟩
      rcases hreg' q hq with h2 | h2
      · rcases hreg1 q h2 with h3 | h3
        · exact Or.inl h3
        · exact Or.inr (by rw [h3]; exact List.mem_cons_self _ _)
      · exact Or.inr (List.mem_cons_of_mem _ h2)

/-- A slot returned by the scan of `FindSocket` holds an object with the handle
looked for. -/
theorem findSocketFrom_some (heap : SocketPtr → Socket) (r : Registry) (h : Int) :
    ∀ (n i j : Nat), findSocketFrom heap r h n i = .ok (some j) →
      i ≤ j ∧ j < i + n ∧ ∃ p, r.SocketTab[j]? = some p ∧ (heap p).MySocket = h
  | 0, i, j, hf => by
    simp only [findSocketFrom, Except.ok.injEq] at hf
    cases hf
  | n + 1, i, j, hf => by
    cases hg : r.SocketTab[i]? with
    | none =>
      simp only [findSocketFrom, hg] at hf
      cases hf
    | some p =>
      simp only [findSocketFrom, hg] at hf
      by_cases hm : (heap p).MySocket = h
      · rw [if_pos hm] at hf
        simp only [Except.ok.injEq, Option.some.injEq] at hf
        subst hf
        exact ⟨Nat.le_refl _, by omega, p, hg, hm⟩
      · rw [if_neg hm] at hf
        obtain ⟨h1, h2, h3⟩ := findSocketFrom_some heap r h n (i + 1) j hf
        exact ⟨by omega, by omega, h3⟩

/-- Enqueuing on a socket that is not connected only appends to the queue. -/
theorem pushAll_unconnected (le : Bool) (send : Transport) :
    ∀ (frames : List (List Byte)) (s : Socket) (wire : List Byte), s.Connected = false →
      pushAll le send frames s wire
        = .ok ({ s with OutgoingMessageQueue := s.OutgoingMessageQueue ++ frames }, wire)
  | [], s, wire, _ => by simp [pushAll]
  | frame :: frames, s, wire, hc => by
    have hcond : ¬ (Option.isNone s.OutgoingMessage = true ∧ s.Connected = true) := by
      rw [hc]; simp
    have hpush : PushOutgoingMessage le send s frame wire
        = .ok ({ s with OutgoingMessageQueue := s.OutgoingMessageQueue ++ [frame] }, wire) := by
      unfold PushOutgoingMessage
      rw [if_neg hcond]
    have ih := pushAll_unconnected le send frames
      { s with OutgoingMessageQueue := s.OutgoingMessageQueue ++ [frame] } wire hc
    simp only [pushAll, hpush, ih, List.append_assoc, List.singleton_append]

/-! ## The claims -/

/-- C7: on a frame buffer of exactly `sizeof(MessageHeader) + length` bytes with
`length` odd (here 1), `AdjustOrdering` runs a last pass on the word made of the
final body byte and the byte after the frame: an access outside the buffer.
When the memory after the frame is accessible, the final body byte is exchanged
with it, so it does not stay untouched.  `ReceiveData` makes this call on a
received message whose header announces an odd length. -/
theorem AdjustOrdering_odd_length_overrun :
    AdjustOrdering true [1, 0, 0, 1, 0xAA] 1 = .error .outOfBounds
      ∧ AdjustOrdering true [1, 0, 0, 1, 0xAA, 0x55] 1 = .ok [1, 0, 1, 0, 0x55, 0xAA]
      ∧ wordsTouched 1 = 1
      ∧ receiveAll true (connected 3 [0, 0, 0, 0] 0 0) [.received [1, 0, 0, 1, 0xAA]]
          = .error .outOfBounds := by
  decide

/-- C8: on a little-endian host, for every even `length` with
`0 <= length <= 32766` and every buffer holding a frame with that body length,
`AdjustOrdering(message, length)` returns, leaves bytes 0 and 1 unchanged,
exchanges bytes 2 and 3, exchanges bytes `4 + 2i` and `5 + 2i` for every `i` with
`2i < length`, and changes no other byte; the 16-bit swap maps `256 * hi + lo`
to `256 * lo + hi` for all bytes `hi`, `lo`. -/
theorem AdjustOrdering_effect (message : List Byte) (length : Int)
    (heven : length % 2 = 0) (h0 : 0 ≤ length) (h1 : length ≤ 32766)
    (hbuf : sizeofMessageHeader + length ≤ message.length) :
    ∃ m, AdjustOrdering true message length = .ok m ∧ m.length = message.length
      ∧ m[0]? = message[0]? ∧ m[1]? = message[1]?
      ∧ m[2]? = message[3]? ∧ m[3]? = message[2]?
      ∧ (∀ i : Nat, 2 * (i : Int) < length →
          m[4 + 2 * i]? = message[5 + 2 * i]? ∧ m[5 + 2 * i]? = message[4 + 2 * i]?)
      ∧ (∀ j : Nat, sizeofMessageHeader + length ≤ j → m[j]? = message[j]?)
      ∧ ∀ hi lo : Nat, hi < 256 → lo < 256 →
          AdjustOrderingShort true (256 * hi + lo) = 256 * lo + hi := by
  have hk : 2 * (wordsTouched length : Int) = length := by unfold wordsTouched; omega
  obtain ⟨t, p, c, d, w, rest, rfl, hw⟩ := frame_split message (wordsTouched length)
    (by simp only [sizeofMessageHeader] at hbuf ⊢; omega)
  refine ⟨_, AdjustOrdering_frame t p c d w rest length hw, by simp [swapPairs_length],
    by simp, by simp, by simp, by simp, ?_, ?_, ?_⟩
  · intro i hi
    have hlt : 2 * i + 1 < w.length := by omega
    obtain ⟨e0, e1⟩ := swapPairs_getElem? i w hlt
    rw [show 4 + 2 * i = 2 * i + 1 + 1 + 1 + 1 by ring,
      show 5 + 2 * i = 2 * i + 1 + 1 + 1 + 1 + 1 by ring]
    simp only [List.getElem?_cons_succ]
    have hs := swapPairs_length w
    have a0 : (swapPairs w ++ rest)[2 * i]? = (swapPairs w)[2 * i]? :=
      List.getElem?_append_left (by omega)
    have a1 : (swapPairs w ++ rest)[2 * i + 1]? = (swapPairs w)[2 * i + 1]? :=
      List.getElem?_append_left (by omega)
    have a2 : (w ++ rest)[2 * i]? = w[2 * i]? := List.getElem?_append_left (by omega)
    have a3 : (w ++ rest)[2 * i + 1]? = w[2 * i + 1]? := List.getElem?_append_left (by omega)
    rw [a0, a1, a2, a3]
    exact ⟨e0, e1⟩
  · intro j hj
    simp only [sizeofMessageHeader] at hj
    obtain ⟨j', rfl⟩ : ∃ j', j = j' + 1 + 1 + 1 + 1 := ⟨j - 4, by omega⟩
    simp only [List.getElem?_cons_succ]
    have hs := swapPairs_length w
    simp only [List.length_cons, List.length_append] at hbuf
    rw [List.getElem?_append_right (by omega), List.getElem?_append_right (by omega), hs]
  · intro hi lo hhi hlo
    rw [AdjustOrderingShort_eq _ (by omega)]
    omega

theorem AdjustOrdering_effect_witness :
    (2 : Int) % 2 = 0 ∧ (0 : Int) ≤ 2 ∧ (2 : Int) ≤ 32766
      ∧ (sizeofMessageHeader : Int) + 2 ≤ ([1, 0, 2, 0, 0xAA, 0xBB] : List Byte).length
      ∧ ∃ m, AdjustOrdering true [1, 0, 2, 0, 0xAA, 0xBB] 2 = .ok m
        ∧ m.length = ([1, 0, 2, 0, 0xAA, 0xBB] : List Byte).length
        ∧ m[0]? = ([1, 0, 2, 0, 0xAA, 0xBB] : List Byte)[0]?
        ∧ m[1]? = ([1, 0, 2, 0, 0xAA, 0xBB] : List Byte)[1]?
        ∧ m[2]? = ([1, 0, 2, 0, 0xAA, 0xBB] : List Byte)[3]?
        ∧ m[3]? = ([1, 0, 2, 0, 0xAA, 0xBB] : List Byte)[2]?
        ∧ (∀ i : Nat, 2 * (i : Int) < 2 →
            m[4 + 2 * i]? = ([1, 0, 2, 0, 0xAA, 0xBB] : List Byte)[5 + 2 * i]?
              ∧ m[5 + 2 * i]? = ([1, 0, 2, 0, 0xAA, 0xBB] : List Byte)[4 + 2 * i]?)
        ∧ (∀ j : Nat, (sizeofMessageHeader : Int) + 2 ≤ j →
            m[j]? = ([1, 0, 2, 0, 0xAA, 0xBB] : List Byte)[j]?)
        ∧ ∀ hi lo : Nat, hi < 256 → lo < 256 →
            AdjustOrderingShort true (256 * hi + lo) = 256 * lo + hi :=
  ⟨by decide, by decide, by decide, by decide,
    AdjustOrdering_effect [1, 0, 2, 0, 0xAA, 0xBB] 2 (by decide) (by decide) (by decide)
      (by decide)⟩

/-- C1 (as stated, it fails): a body of odd length is not carried through.  On
a frame buffer of exactly `sizeof(MessageHeader) + 1` bytes the conversion in
`SendData` accesses the byte after the frame; when that byte is accessible
(here `0x55`), it is emitted in place of the body byte `0xAA`; and a received
message with an odd length makes `ReceiveData` access the byte after its
buffer.  A body of 32768 bytes has a negative `short` length, and `SendData`
calls `send` with a negative byte count. -/
theorem framing_roundtrip_counterexample :
    PushOutgoingMessage true acceptAll (connected 1 [0, 0, 0, 0] 0 0)
        (hostFrame true 1 0 [0xAA]) [] = .error .outOfBounds
      ∧ PushOutgoingMessage true acceptAll (connected 1 [0, 0, 0, 0] 0 0)
          (hostFrame true 1 0 [0xAA] ++ [0x55]) []
        = .ok (connected 1 [0, 0, 0, 0] 5 5, [1, 0, 0, 1, 0x55])
      ∧ receiveAll true (connected 2 [0, 0, 0, 0] 0 0) [.received [1, 0, 0, 1, 0xAA]]
        = .error .outOfBounds
      ∧ PushOutgoingMessage true acceptAll (connected 1 [0, 0, 0, 0] 0 0)
          (hostFrame true 1 0 (List.replicate 32768 0)) [] = .error .outOfBounds := by
  refine ⟨by decide, by decide, by decide, ?_⟩
  exact PushOutgoingMessage_long_body acceptAll _ 1 0 (List.replicate 32768 0) [] rfl rfl rfl
    (by rw [List.length_replicate]) (by rw [List.length_replicate]; omega)

/-- C1 (amended): round trip for bodies of even length at most 32766, on a
little-endian host.  Enqueuing the host-order frame `(type, pad, length = |body|,
body)` on a connected socket whose transport accepts everything emits wire
bytes such that delivering them to a freshly connected socket through any
sequence of `ReceiveData` calls whose chunks concatenate to the wire bytes
leaves exactly one frame in the incoming queue, equal byte for byte to the
original frame, with the accumulator awaiting a header. -/
theorem framing_roundtrip (type pad : Byte) (body : List Byte)
    (heven : body.length % 2 = 0) (hmax : body.length ≤ 32766)
    (sender receiver : Int) (hdr : List Byte) (h0 h1 h2 h3 : Byte) (a b c d : Int) :
    ∃ s' wire,
      PushOutgoingMessage true acceptAll (connected sender hdr a b)
          (hostFrame true type pad body) [] = .ok (s', wire)
        ∧ ∀ chunks : List (List Byte), chunks.flatten = wire →
          ∃ r', receiveAll true (connected receiver [h0, h1, h2, h3] c d)
                (chunks.map .received) = .ok r'
            ∧ r'.IncomingMessageQueue = [hostFrame true type pad body]
            ∧ AwaitingHeader r' := by
  obtain ⟨s', hpush, _⟩ := PushOutgoingMessage_acceptAll true (connected sender hdr a b)
    (hostFrame true type pad body) _ [] rfl rfl rfl
    (wireEncoding_hostFrame type pad body heven hmax)
  refine ⟨s', _, hpush, fun chunks hfl => ?_⟩
  rw [List.nil_append] at hfl
  have hsl := swapPairs_length body
  obtain ⟨r', hr, _, hdone⟩ := receiveAll_wireFrame (connected receiver [h0, h1, h2, h3] c d)
    type pad (swapPairs body) (connected_awaiting receiver h0 h1 h2 h3 c d) (by omega) (by omega)
    chunks chunks.flatten.length rfl (by rw [hfl, List.take_length])
  obtain ⟨hq, haw⟩ := hdone (by rw [hfl])
  refine ⟨r', hr, ?_, haw⟩
  rw [hq, swapPairs_twice]
  rfl

theorem framing_roundtrip_witness :
    ([0xAA, 0xBB] : List Byte).length % 2 = 0 ∧ ([0xAA, 0xBB] : List Byte).length ≤ 32766
      ∧ ∃ s' wire,
        PushOutgoingMessage true acceptAll (connected 1 [0, 0, 0, 0] 0 0)
            (hostFrame true 1 0 [0xAA, 0xBB]) [] = .ok (s', wire)
          ∧ ∀ chunks : List (List Byte), chunks.flatten = wire →
            ∃ r', receiveAll true (connected 2 [0, 0, 0, 0] 0 0)
                  (chunks.map .received) = .ok r'
              ∧ r'.IncomingMessageQueue = [hostFrame true 1 0 [0xAA, 0xBB]]
              ∧ AwaitingHeader r' :=
  ⟨by decide, by decide,
    framing_roundtrip 1 0 [0xAA, 0xBB] (by decide) (by decide) 1 2 [0, 0, 0, 0] 0 0 0 0 0 0 0 0⟩

/-- C3 (as stated, it fails): on a little-endian host the frame with `type = 1`,
`pad = 0` and body `[0xAA, 0xBB]` reaches the transport as `01 00 00 02 BB AA`,
not as `01 00 00 02 AA BB`: the two bytes of every body word are exchanged.
For a body of one byte, or of 32768 bytes, the transport receives no frame at
all: the conversion leaves the frame's buffer, or `send` is called with a
negative byte count. -/
theorem send_wire_format_counterexample :
    PushOutgoingMessage true acceptAll (connected 1 [0, 0, 0, 0] 0 0)
        (hostFrame true 1 0 [0xAA, 0xBB]) []
      = .ok (connected 1 [0, 0, 0, 0] 6 6, [1, 0, 0, 2, 0xBB, 0xAA])
    ∧ (¬ ∃ s', PushOutgoingMessage true acceptAll (connected 1 [0, 0, 0, 0] 0 0)
        (hostFrame true 1 0 [0xAA, 0xBB]) [] = .ok (s', [1, 0, 0, 2, 0xAA, 0xBB]))
    ∧ PushOutgoingMessage true acceptAll (connected 1 [0, 0, 0, 0] 0 0)
        (hostFrame true 1 0 [0xCC]) [] = .error .outOfBounds
    ∧ PushOutgoingMessage true acceptAll (connected 1 [0, 0, 0, 0] 0 0)
        (hostFrame true 7 0 (List.replicate 32768 0)) [] = .error .outOfBounds := by
  have h : PushOutgoingMessage true acceptAll (connected 1 [0, 0, 0, 0] 0 0)
      (hostFrame true 1 0 [0xAA, 0xBB]) []
        = .ok (connected 1 [0, 0, 0, 0] 6 6, [1, 0, 0, 2, 0xBB, 0xAA]) := by decide
  refine ⟨h, ?_, by decide, ?_⟩
  · rintro ⟨s', hs'⟩
    rw [h] at hs'
    revert hs'
    simp
  · exact PushOutgoingMessage_long_body acceptAll _ 7 0 (List.replicate 32768 0) [] rfl rfl rfl
      (by rw [List.length_replicate]) (by rw [List.length_replicate]; omega)

/-- C3 (amended): wire format on send, on a little-endian host, for a body of
even length at most 32766.  Enqueuing the frame with type `t`, pad `p` and body
`b` on a connected socket with nothing queued or in progress, on a transport
that accepts all bytes, makes the transport receive exactly `t`, `p`, the high
byte of `|b|`, the low byte of `|b|`, and then the bytes of `b` with the two
bytes of every 16-bit word exchanged; nothing stays queued or in progress. -/
theorem send_wire_format (t p : Byte) (b : List Byte)
    (heven : b.length % 2 = 0) (hmax : b.length ≤ 32766) (s : Socket) (wire : List Byte)
    (hconn : s.Connected = true) (hidle : s.OutgoingMessage = none)
    (hq : s.OutgoingMessageQueue = []) :
    ∃ s', PushOutgoingMessage true acceptAll s (hostFrame true t p b) wire
        = .ok (s', wire ++ t :: p :: Fin.ofNat (b.length / 256) :: Fin.ofNat (b.length % 256)
            :: swapPairs b)
      ∧ s'.OutgoingMessage = none ∧ s'.OutgoingMessageQueue = [] := by
  obtain ⟨s', hpush, h1, h2, _⟩ := PushOutgoingMessage_acceptAll true s (hostFrame true t p b) _
    wire hconn hidle hq (wireEncoding_hostFrame t p b heven hmax)
  refine ⟨s', ?_, h1, h2⟩
  rw [hpush, wireFrame, swapPairs_length, Nat.mod_eq_of_lt (show b.length / 256 < 256 by omega)]

theorem send_wire_format_witness :
    ([0xAA, 0xBB] : List Byte).length % 2 = 0 ∧ ([0xAA, 0xBB] : List Byte).length ≤ 32766
      ∧ (connected 1 [0, 0, 0, 0] 0 0).Connected = true
      ∧ (connected 1 [0, 0, 0, 0] 0 0).OutgoingMessage = none
      ∧ (connected 1 [0, 0, 0, 0] 0 0).OutgoingMessageQueue = []
      ∧ ∃ s', PushOutgoingMessage true acceptAll (connected 1 [0, 0, 0, 0] 0 0)
            (hostFrame true 1 0 [0xAA, 0xBB]) []
          = .ok (s', [] ++ 1 :: 0 :: Fin.ofNat (([0xAA, 0xBB] : List Byte).length / 256)
              :: Fin.ofNat (([0xAA, 0xBB] : List Byte).length % 256)
              :: swapPairs [0xAA, 0xBB])
        ∧ s'.OutgoingMessage = none ∧ s'.OutgoingMessageQueue = [] :=
  ⟨by decide, by decide, rfl, rfl, rfl,
    send_wire_format 1 0 [0xAA, 0xBB] (by decide) (by decide) (connected 1 [0, 0, 0, 0] 0 0) []
      rfl rfl rfl⟩

/-- C4 (as stated, it fails): delivering `01 00 00 02 AA BB` in two calls split
after 2 bytes leaves one frame with `type = 1`, `pad = 0`, host-order length 2,
whose body bytes are `[0xBB, 0xAA]`, not `[0xAA, 0xBB]`. -/
theorem receive_split_counterexample :
    receiveAll true (connected 3 [0, 0, 0, 0] 0 0)
        [.received [1, 0], .received [0, 2, 0xAA, 0xBB]]
      = .ok { connected 3 [1, 0, 0, 2] 0 0 with
          IncomingMessageQueue := [hostFrame true 1 0 [0xBB, 0xAA]] }
    ∧ hostFrame true 1 0 [0xBB, 0xAA] ≠ hostFrame true 1 0 [0xAA, 0xBB] := by
  decide

/-- C4 (amended): on a little-endian host, delivering the six wire bytes
`01 00 00 02 AA BB` to a freshly connected socket as two `ReceiveData` calls,
the first with `k` bytes, `1 <= k <= 3`, the second with the other `6 - k`, queues
no frame in the first call and leaves exactly one frame after the second, with
`type = 1`, `pad = 0`, host-order length 2 and body bytes `[0xBB, 0xAA]`: the
16-bit word `0xAABB` of the wire in host order. -/
theorem receive_split (k : Nat) (hk1 : 1 ≤ k) (hk3 : k ≤ 3) (MySocket : Int)
    (h0 h1 h2 h3 : Byte) (a b : Int) :
    ∃ r1 r2,
      ReceiveData true (connected MySocket [h0, h1, h2, h3] a b)
          (.received (([1, 0, 0, 2, 0xAA, 0xBB] : List Byte).take k)) = .ok r1
        ∧ r1.IncomingMessageQueue = []
        ∧ ReceiveData true r1 (.received (([1, 0, 0, 2, 0xAA, 0xBB] : List Byte).drop k))
            = .ok r2
        ∧ r2.IncomingMessageQueue = [[1, 0, 2, 0, 0xBB, 0xAA]]
        ∧ AwaitingHeader r2 := by
  have hw : wireFrame 1 0 [0xAA, 0xBB] = [1, 0, 0, 2, 0xAA, 0xBB] := by decide
  have hf : hostFrame true 1 0 (swapPairs [0xAA, 0xBB]) = [1, 0, 2, 0, 0xBB, 0xAA] := by decide
  have haw := connected_awaiting MySocket h0 h1 h2 h3 a b
  have hlen : ([1, 0, 0, 2, 0xAA, 0xBB] : List Byte).length = 6 := rfl
  have hl1 : (([1, 0, 0, 2, 0xAA, 0xBB] : List Byte).take k).length = k := by
    rw [List.length_take, hlen]; omega
  have hl2 : (([1, 0, 0, 2, 0xAA, 0xBB] : List Byte).drop k).length = 6 - k := by
    rw [List.length_drop, hlen]
  have e1 := ReceiveData_progress (connected MySocket [h0, h1, h2, h3] a b) 1 0 [0xAA, 0xBB]
    haw (by decide) (by decide) (([1, 0, 0, 2, 0xAA, 0xBB] : List Byte).take k) 0
    (by rw [hw, hl1, hlen]; omega) (by rw [hw, hl1, List.drop_zero])
  have e2 := ReceiveData_progress (connected MySocket [h0, h1, h2, h3] a b) 1 0 [0xAA, 0xBB]
    haw (by decide) (by decide) (([1, 0, 0, 2, 0xAA, 0xBB] : List Byte).drop k) k
    (by rw [hw, hl2, hlen]; omega)
    (by rw [hw, hl2, List.take_of_length_le (by rw [List.length_drop, hlen])])
  rw [receiveProgress_zero _ _ _ haw, Nat.zero_add, hl1] at e1
  rw [hl2, show k + (6 - k) = (wireFrame 1 0 [0xAA, 0xBB]).length by rw [hw, hlen]; omega,
    receiveProgress_done, hf] at e2
  refine ⟨_, _, e1, ?_, e2, rfl, ⟨rfl, rfl, rfl, rfl, rfl⟩⟩
  rw [receiveProgress_queue _ _ _ _ (by rw [hw, hlen]; omega)]
  rfl

theorem receive_split_witness :
    1 ≤ 2 ∧ 2 ≤ 3 ∧ ∃ r1 r2,
      ReceiveData true (connected 3 [9, 9, 9, 9] 0 0)
          (.received (([1, 0, 0, 2, 0xAA, 0xBB] : List Byte).take 2)) = .ok r1
        ∧ r1.IncomingMessageQueue = []
        ∧ ReceiveData true r1 (.received (([1, 0, 0, 2, 0xAA, 0xBB] : List Byte).drop 2))
            = .ok r2
        ∧ r2.IncomingMessageQueue = [[1, 0, 2, 0, 0xBB, 0xAA]]
        ∧ AwaitingHeader r2 :=
  ⟨by decide, by decide, receive_split 2 (by decide) (by decide) 3 9 9 9 9 0 0⟩

/-- C6 (as stated, it fails): for the header `01 00 80 00`, whose length field
encodes 32768, the decoded `short` is -32768 and the expected length computed
at header completion is `4 - 32768 = -32764`, not `4 + 32768`; the allocation
`new char[IncomingLength]` has a negative size. -/
theorem header_completion_counterexample :
    completeHeader true
        ((connected 3 [0, 0, 0, 0] 0 0).withReceive [1, 0, 0x80, 0x00] .header 4 4 [])
      = .error .badAlloc
    ∧ (sizeofMessageHeader : Int)
        + shortVal (AdjustOrderingShort true (readShort true 0x80 0x00)) = -32764
    ∧ ReceiveData true (connected 3 [0, 0, 0, 0] 0 0) (.received [1, 0, 0x80, 0x00])
      = .error .badAlloc := by
  decide

/-- C6 (amended): header completion for a length field that encodes `L` with
`0 <= L <= 32767`, the non-negative range of the `short` the code decodes it
into.  When `Header` holds the four received bytes `type`, `pad`, high byte of
`L`, low byte of `L`, the block run at `IncomingNext == sizeof(MessageHeader)`
sets `IncomingLength` to `sizeof(MessageHeader) + L`, makes `IncomingMessage` a
new buffer of that size whose first four bytes are copies of the header's
fields, and sets `IncomingNext` to `sizeof(MessageHeader)`; nothing else
changes. -/
theorem header_completion (LITTLE_ENDIAN : Bool) (s : Socket) (type pad : Byte) (L : Nat)
    (hL : L ≤ 32767) (next length : Int) (queue : List (List Byte)) :
    completeHeader LITTLE_ENDIAN
        (s.withReceive [type, pad, Fin.ofNat (L / 256), Fin.ofNat (L % 256)] .header next length
          queue)
      = .ok (s.withReceive [type, pad, Fin.ofNat (L / 256), Fin.ofNat (L % 256)]
          (.heap (type :: pad :: Fin.ofNat (L / 256) :: Fin.ofNat (L % 256)
            :: List.replicate L 0))
          sizeofMessageHeader (sizeofMessageHeader + L) queue) := by
  have hd := decode_length LITTLE_ENDIAN L (by omega)
  rw [Nat.mod_eq_of_lt (show L / 256 < 256 by omega)] at hd
  exact completeHeader_ok LITTLE_ENDIAN s type pad _ _ queue next length L hd hL

theorem header_completion_witness :
    2 ≤ 32767
      ∧ completeHeader true
          ((connected 3 [0, 0, 0, 0] 0 0).withReceive
            [1, 0, Fin.ofNat (2 / 256), Fin.ofNat (2 % 256)] .header 4 4 [])
        = .ok ((connected 3 [0, 0, 0, 0] 0 0).withReceive
            [1, 0, Fin.ofNat (2 / 256), Fin.ofNat (2 % 256)]
            (.heap (1 :: 0 :: Fin.ofNat (2 / 256) :: Fin.ofNat (2 % 256)
              :: List.replicate 2 0))
            sizeofMessageHeader (sizeofMessageHeader + (2 : Nat)) []) :=
  ⟨by decide, header_completion true (connected 3 [0, 0, 0, 0] 0 0) 1 0 2 (by decide) 4 4 []⟩

/-- C9: in every registry state reached from the empty registry by
`InsertSocket` calls made under their precondition and by `RemoveSocket` calls,
`FindSocket(h)` returns without fault; it returns null for every handle `h`
that no inserted Connection had, and for every handle whose Connection has been
removed with no Connection of that handle inserted afterwards; and it returns
a live slot whose Connection has handle `h` exactly when some registered
Connection has handle `h`. -/
theorem FindSocket_absent_or_slot (FD_SETSIZE : Nat) (heap : SocketPtr → Socket)
    (ops : List RegistryOp) (r : Registry)
    (hreach : runOps FD_SETSIZE heap ops (Registry.init FD_SETSIZE) = .ok r) (h : Int) :
    ∃ res, FindSocket heap r h = .ok res
      ∧ ((∀ p, RegistryOp.insert p ∈ ops → (heap p).MySocket ≠ h) → res = none)
      ∧ (∀ pre post p, ops = pre ++ RegistryOp.remove p :: post → (heap p).MySocket = h →
          (∀ q, RegistryOp.insert q ∈ post → (heap q).MySocket ≠ h) → res = none)
      ∧ ((∃ i p, res = some i ∧ i < r.SocketCnt ∧ r.SocketTab[i]? = some p
            ∧ (heap p).MySocket = h)
          ↔ ∃ p, r.Registered p ∧ (heap p).MySocket = h) := by
  obtain ⟨hv0, hempty⟩ := init_valid FD_SETSIZE heap
  obtain ⟨hv, hreg⟩ := runOps_valid FD_SETSIZE heap ops _ r hv0 hreach
  obtain ⟨res, hres, hnone, hsome⟩ := FindSocket_spec FD_SETSIZE heap r h hv
  refine ⟨res, hres, fun hnever => ?_, fun pre post p hops hp hpost => ?_, ?_⟩
  · refine hnone.mpr fun q hq => ?_
    rcases hreg q hq with h1 | h1
    · exact absurd h1 (hempty q)
    · exact hnever q h1
  · rw [hops, runOps_append] at hreach
    cases h1 : runOps FD_SETSIZE heap pre (Registry.init FD_SETSIZE) with
    | error e => rw [h1] at hreach; cases hreach
    | ok r1 =>
      rw [h1, ok_bind, runOps_cons] at hreach
      obtain ⟨hv1, _⟩ := runOps_valid FD_SETSIZE heap pre _ r1 hv0 h1
      obtain ⟨r2, hrem, hv2, hreg2, _⟩ := RemoveSocket_spec FD_SETSIZE heap r1 p hv1
      simp only [applyOp] at hreach
      rw [hrem, ok_bind] at hreach
      obtain ⟨_, hreg3⟩ := runOps_valid FD_SETSIZE heap post r2 r hv2 hreach
      refine hnone.mpr fun q hq => ?_
      rcases hreg3 q hq with h3 | h3
      · rw [← hp]
        exact ((hreg2 q).mp h3).2
      · exact hpost q h3
  · constructor
    · rintro ⟨i, p, _, hi, hp, hh⟩
      exact ⟨p, ⟨i, hi, hp⟩, hh⟩
    · rintro ⟨p, hp, hh⟩
      cases hr : res with
      | none => exact absurd hh (hnone.mp hr p hp)
      | some j =>
        obtain ⟨hj, q, hq, hqh⟩ := hsome j hr
        exact ⟨j, q, rfl, hj, hq, hqh⟩

theorem FindSocket_absent_or_slot_witness :
    runOps 4 (fun p => connected (10 * p) [0, 0, 0, 0] 0 0)
        [.insert 1, .insert 2, .remove 1] (Registry.init 4)
      = .ok { SocketTab := [2, 2, 0, 0], SocketCnt := 1 }
    ∧ ∃ res, FindSocket (fun p => connected (10 * p) [0, 0, 0, 0] 0 0)
          { SocketTab := [2, 2, 0, 0], SocketCnt := 1 } 10 = .ok res
      ∧ ((∀ p, RegistryOp.insert p ∈ [RegistryOp.insert 1, .insert 2, .remove 1] →
            (connected (10 * p) [0, 0, 0, 0] 0 0).MySocket ≠ 10) → res = none)
      ∧ (∀ pre post p, [RegistryOp.insert 1, .insert 2, .remove 1]
            = pre ++ RegistryOp.remove p :: post →
          (connected (10 * p) [0, 0, 0, 0] 0 0).MySocket = 10 →
          (∀ q, RegistryOp.insert q ∈ post →
            (connected (10 * q) [0, 0, 0, 0] 0 0).MySocket ≠ 10) → res = none)
      ∧ ((∃ i p, res = some i ∧ i < 1 ∧ ([2, 2, 0, 0] : List SocketPtr)[i]? = some p
            ∧ (connected (10 * p) [0, 0, 0, 0] 0 0).MySocket = 10)
          ↔ ∃ p, Registry.Registered { SocketTab := [2, 2, 0, 0], SocketCnt := 1 } p
            ∧ (connected (10 * p) [0, 0, 0, 0] 0 0).MySocket = 10) :=
  ⟨by decide,
    FindSocket_absent_or_slot 4 (fun p => connected (10 * p) [0, 0, 0, 0] 0 0)
      [.insert 1, .insert 2, .remove 1] { SocketTab := [2, 2, 0, 0], SocketCnt := 1 }
      (by decide) 10⟩

/-- C10: handle reuse.  In every registry state reached from the empty registry
that contains Connection `a`, `RemoveSocket` on `a` followed by `InsertSocket`
of a Connection `b` with the same handle (a different Connection in
particular) meets the precondition of `InsertSocket` (the handle is not
present, the count is below `FD_SETSIZE`), and afterwards `FindSocket` for
that handle returns a live slot that holds `b`. -/
theorem remove_then_insert (FD_SETSIZE : Nat) (heap : SocketPtr → Socket)
    (ops : List RegistryOp) (r : Registry)
    (hreach : runOps FD_SETSIZE heap ops (Registry.init FD_SETSIZE) = .ok r)
    (a b : SocketPtr) (ha : r.Registered a) (hh : (heap b).MySocket = (heap a).MySocket) :
    ∃ r1 r2 i, RemoveSocket heap r a = .ok r1
      ∧ FindSocket heap r1 (heap b).MySocket = .ok none ∧ r1.SocketCnt < FD_SETSIZE
      ∧ InsertSocket FD_SETSIZE heap r1 b = .ok r2
      ∧ FindSocket heap r2 (heap a).MySocket = .ok (some i)
      ∧ i < r2.SocketCnt ∧ r2.SocketTab[i]? = some b := by
  obtain ⟨hv0, _⟩ := init_valid FD_SETSIZE heap
  obtain ⟨hv, _⟩ := runOps_valid FD_SETSIZE heap ops _ r hv0 hreach
  obtain ⟨r1, hrem, hv1, hreg1, hcnt1, _⟩ := RemoveSocket_spec FD_SETSIZE heap r a hv
  have hfree : ∀ q, r1.Registered q → (heap q).MySocket ≠ (heap b).MySocket := by
    intro q hq
    rw [hh]
    exact ((hreg1 q).mp hq).2
  have hcap : r1.SocketCnt < FD_SETSIZE := by
    have := hcnt1 ⟨a, ha, rfl⟩
    have := hv.2.1
    omega
  obtain ⟨res1, hres1, hnone1, _⟩ := FindSocket_spec FD_SETSIZE heap r1 (heap b).MySocket hv1
  have hr1 : res1 = none := hnone1.mpr hfree
  subst hr1
  have hins := (InsertSocket_spec FD_SETSIZE heap r1 b hv1).2 hfree hcap
  obtain ⟨hv2, hreg2⟩ := insert_valid FD_SETSIZE heap r1 b hv1 hfree hcap
  obtain ⟨res2, hres2, hnone2, hsome2⟩ := FindSocket_spec FD_SETSIZE heap _
    (heap a).MySocket hv2
  cases hr2 : res2 with
  | none =>
    exact absurd hh (hnone2.mp hr2 b ((hreg2 b).mpr (Or.inr rfl)))
  | some i =>
    obtain ⟨hi, q, hq, hqh⟩ := hsome2 i hr2
    have hqb : q = b := by
      rcases (hreg2 q).mp ⟨i, hi, hq⟩ with h1 | h1
      · exact absurd (hqh.trans hh.symm) (hfree q h1)
      · exact h1
    rw [hr2] at hres2
    rw [hqb] at hq
    exact ⟨r1, _, i, hrem, hres1, hcap, hins, hres2, hi, hq⟩

theorem remove_then_insert_witness :
    runOps 4 (fun p => connected (if p = 3 then 10 else 10 * p) [0, 0, 0, 0] 0 0)
        [.insert 1, .insert 2] (Registry.init 4)
      = .ok { SocketTab := [1, 2, 0, 0], SocketCnt := 2 }
    ∧ Registry.Registered { SocketTab := [1, 2, 0, 0], SocketCnt := 2 } 1
    ∧ (connected (if (3 : Nat) = 3 then 10 else 10 * (3 : Nat)) [0, 0, 0, 0] 0 0).MySocket
        = (connected (if (1 : Nat) = 3 then 10 else 10 * (1 : Nat)) [0, 0, 0, 0] 0 0).MySocket
    ∧ ∃ r1 r2 i,
        RemoveSocket (fun p => connected (if p = 3 then 10 else 10 * p) [0, 0, 0, 0] 0 0)
            { SocketTab := [1, 2, 0, 0], SocketCnt := 2 } 1 = .ok r1
          ∧ FindSocket (fun p => connected (if p = 3 then 10 else 10 * p) [0, 0, 0, 0] 0 0) r1
              (connected (if (3 : Nat) = 3 then 10 else 10 * (3 : Nat)) [0, 0, 0, 0] 0 0).MySocket
            = .ok none
          ∧ r1.SocketCnt < 4
          ∧ InsertSocket 4 (fun p => connected (if p = 3 then 10 else 10 * p) [0, 0, 0, 0] 0 0)
              r1 3 = .ok r2
          ∧ FindSocket (fun p => connected (if p = 3 then 10 else 10 * p) [0, 0, 0, 0] 0 0) r2
              (connected (if (1 : Nat) = 3 then 10 else 10 * (1 : Nat)) [0, 0, 0, 0] 0 0).MySocket
            = .ok (some i)
          ∧ i < r2.SocketCnt ∧ r2.SocketTab[i]? = some 3 :=
  ⟨by decide, ⟨0, by decide, by decide⟩, by decide,
    remove_then_insert 4 (fun p => connected (if p = 3 then 10 else 10 * p) [0, 0, 0, 0] 0 0)
      [.insert 1, .insert 2] { SocketTab := [1, 2, 0, 0], SocketCnt := 2 } (by decide) 1 3
      ⟨0, by decide, by decide⟩ (by decide)⟩

/-- C11: registry invariant.  In every registry state reached from the empty
registry by `InsertSocket` calls made under their precondition and by
`RemoveSocket` calls, no two of the `SocketCnt` live entries have the same
native handle, every registered Connection is in exactly one live slot, and
`0 <= SocketCnt <= FD_SETSIZE` (the table keeping its `FD_SETSIZE` slots). -/
theorem registry_invariant (FD_SETSIZE : Nat) (heap : SocketPtr → Socket)
    (ops : List RegistryOp) (r : Registry)
    (hreach : runOps FD_SETSIZE heap ops (Registry.init FD_SETSIZE) = .ok r) :
    (∀ i j p q, i < r.SocketCnt → j < r.SocketCnt →
        r.SocketTab[i]? = some p → r.SocketTab[j]? = some q →
        (heap p).MySocket = (heap q).MySocket → i = j)
      ∧ (∀ p, r.Registered p → ∃! k, k < r.SocketCnt ∧ r.SocketTab[k]? = some p)
      ∧ 0 ≤ r.SocketCnt ∧ r.SocketCnt ≤ FD_SETSIZE ∧ r.SocketTab.length = FD_SETSIZE := by
  obtain ⟨hv0, _⟩ := init_valid FD_SETSIZE heap
  obtain ⟨⟨hlen, hcnt, huniq⟩, _⟩ := runOps_valid FD_SETSIZE heap ops _ r hv0 hreach
  refine ⟨huniq, fun p ⟨k, hk, hp⟩ => ⟨k, ⟨hk, hp⟩, fun k' ⟨hk', hp'⟩ => ?_⟩,
    Nat.zero_le _, hcnt, hlen⟩
  exact huniq k' k p p hk' hk hp' hp rfl

theorem registry_invariant_witness :
    runOps 4 (fun p => connected (10 * p) [0, 0, 0, 0] 0 0)
        [.insert 1, .insert 2, .insert 3, .remove 1] (Registry.init 4)
      = .ok { SocketTab := [3, 2, 3, 0], SocketCnt := 2 }
    ∧ ((∀ (i j : Nat) (p q : SocketPtr), i < 2 → j < 2 →
          ([3, 2, 3, 0] : List SocketPtr)[i]? = some p →
          ([3, 2, 3, 0] : List SocketPtr)[j]? = some q →
          (connected (10 * p) [0, 0, 0, 0] 0 0).MySocket
            = (connected (10 * q) [0, 0, 0, 0] 0 0).MySocket → i = j)
      ∧ (∀ p, Registry.Registered { SocketTab := [3, 2, 3, 0], SocketCnt := 2 } p →
          ∃! k, k < 2 ∧ ([3, 2, 3, 0] : List SocketPtr)[k]? = some p)
      ∧ 0 ≤ 2 ∧ 2 ≤ 4 ∧ ([3, 2, 3, 0] : List SocketPtr).length = 4) :=
  ⟨by decide,
    registry_invariant 4 (fun p => connected (10 * p) [0, 0, 0, 0] 0 0)
      [.insert 1, .insert 2, .insert 3, .remove 1]
      { SocketTab := [3, 2, 3, 0], SocketCnt := 2 } (by decide)⟩

/-- C12: `RemoveSocket` looks the entry up by the handle of `this`, not by
`this`.  With Connection 2 registered under handle 5 and Connection 1, which
has the same handle value, never inserted, `RemoveSocket` on Connection 1
decrements `SocketCnt` and Connection 2 is no longer found. -/
theorem RemoveSocket_removes_other :
    runOps 4 (fun p => connected (if p ≤ 2 then 5 else 10 * p) [0, 0, 0, 0] 0 0)
        [.insert 2] (Registry.init 4)
      = .ok { SocketTab := [2, 0, 0, 0], SocketCnt := 1 }
    ∧ ¬ Registry.Registered { SocketTab := [2, 0, 0, 0], SocketCnt := 1 } 1
    ∧ RemoveSocket (fun p => connected (if p ≤ 2 then 5 else 10 * p) [0, 0, 0, 0] 0 0)
        { SocketTab := [2, 0, 0, 0], SocketCnt := 1 } 1
      = .ok { SocketTab := [2, 0, 0, 0], SocketCnt := 0 }
    ∧ FindSocket (fun p => connected (if p ≤ 2 then 5 else 10 * p) [0, 0, 0, 0] 0 0)
        { SocketTab := [2, 0, 0, 0], SocketCnt := 0 } 5 = .ok none := by
  refine ⟨by decide, ?_, by decide, by decide⟩
  rintro ⟨k, hk, hp⟩
  have hk0 : k = 0 := by simp only at hk; omega
  subst hk0
  simp at hp

/-- C14: failed reads do not disturb the receive state.  On a connected socket
a `ReceiveData` call whose `recv` reports zero bytes, would-block or any other
error returns the state it was called on, every member unchanged; `OnReceive`
with a non-zero error returns the state unchanged on any socket. -/
theorem failed_read_keeps_state (LITTLE_ENDIAN : Bool) (s : Socket)
    (hconn : s.Connected = true) :
    ReceiveData LITTLE_ENDIAN s (.received []) = .ok s
      ∧ (∀ error, ReceiveData LITTLE_ENDIAN s (.socketError error) = .ok s)
      ∧ ∀ error r, error ≠ 0 → OnReceive LITTLE_ENDIAN s error r = .ok s := by
  refine ⟨by simp [ReceiveData, hconn], fun error => by simp [ReceiveData, hconn],
    fun error r he => by simp [OnReceive, he]⟩

theorem failed_read_keeps_state_witness :
    (receiveProgress (connected 3 [0, 0, 0, 0] 0 0) [1, 0, 0, 2, 0xAA, 0xBB] [] 5).Connected
        = true
      ∧ (ReceiveData true
            (receiveProgress (connected 3 [0, 0, 0, 0] 0 0) [1, 0, 0, 2, 0xAA, 0xBB] [] 5)
            (.received [])
          = .ok (receiveProgress (connected 3 [0, 0, 0, 0] 0 0) [1, 0, 0, 2, 0xAA, 0xBB] [] 5)
        ∧ (∀ error, ReceiveData true
            (receiveProgress (connected 3 [0, 0, 0, 0] 0 0) [1, 0, 0, 2, 0xAA, 0xBB] [] 5)
            (.socketError error)
          = .ok (receiveProgress (connected 3 [0, 0, 0, 0] 0 0) [1, 0, 0, 2, 0xAA, 0xBB] [] 5))
        ∧ ∀ error r, error ≠ 0 → OnReceive true
            (receiveProgress (connected 3 [0, 0, 0, 0] 0 0) [1, 0, 0, 2, 0xAA, 0xBB] [] 5)
            error r
          = .ok (receiveProgress (connected 3 [0, 0, 0, 0] 0 0) [1, 0, 0, 2, 0xAA, 0xBB] [] 5)) :=
  ⟨rfl, failed_read_keeps_state true _ rfl⟩

/-- C15: failed writes preserve the in-flight frame.  On a connected socket with
a frame in flight, whose unsent bytes from `OutgoingNext` up to
`OutgoingLength` are `cur`, a `SendData` call whose first `send` reports
would-block or any other error returns the state it was called on (in-flight
frame, `OutgoingNext`, `OutgoingLength` and outgoing queue included) and the
transport has received nothing more.  A later `SendData` on a transport that
accepts everything then emits exactly `cur` followed by the queued frames: it
resumes from the same offset, no byte sent twice or skipped. -/
theorem failed_write_keeps_state (LITTLE_ENDIAN : Bool) (send : Transport) (s : Socket)
    (m cur wire : List Byte) (error : Int) (hconn : s.Connected = true)
    (hm : s.OutgoingMessage = some m) (h0 : 0 ≤ s.OutgoingNext)
    (hlt : s.OutgoingNext < s.OutgoingLength)
    (hcur : readBytes m s.OutgoingNext (s.OutgoingLength - s.OutgoingNext) = .ok cur)
    (hfail : send wire cur = .socketError error) :
    SendData LITTLE_ENDIAN send s wire = .ok (s, wire)
      ∧ ∀ ws, List.Forall₂ (fun f w => wireEncoding LITTLE_ENDIAN f = .ok w)
            s.OutgoingMessageQueue ws →
          ∃ s', SendData LITTLE_ENDIAN acceptAll s wire = .ok (s', wire ++ (cur ++ ws.flatten))
            ∧ s'.OutgoingMessage = none ∧ s'.OutgoingMessageQueue = [] := by
  constructor
  · have hnext : nextOutgoing LITTLE_ENDIAN s = .ok (some s) := by simp [nextOutgoing, hm]
    have hsend : sendCurrent send s wire = .ok (s, wire, false) := by
      simp only [sendCurrent, hm, hcur, ok_bind, hfail, pure_eq_ok]
    simp only [SendData, hconn, if_true]
    rw [show s.OutgoingMessageQueue.length + 2 = (s.OutgoingMessageQueue.length + 1) + 1
      from rfl, sendLoop]
    simp only [hnext, hsend]
  · intro ws hws
    have hst : SendState LITTLE_ENDIAN s cur ws := ⟨hconn, hws, by rw [hm]; exact ⟨h0, hlt, hcur⟩⟩
    obtain ⟨s', h1, h2, h3, _⟩ := SendData_acceptAll LITTLE_ENDIAN s cur wire ws hst
    exact ⟨s', h1, h2, h3⟩

theorem failed_write_keeps_state_witness :
    ({ connected 1 [0, 0, 0, 0] 2 6 with
        OutgoingMessage := some [1, 0, 0, 2, 0xBB, 0xAA] } : Socket).Connected = true
      ∧ ({ connected 1 [0, 0, 0, 0] 2 6 with
          OutgoingMessage := some [1, 0, 0, 2, 0xBB, 0xAA] } : Socket).OutgoingMessage
        = some [1, 0, 0, 2, 0xBB, 0xAA]
      ∧ (0 : Int) ≤ 2 ∧ (2 : Int) < 6
      ∧ readBytes [1, 0, 0, 2, 0xBB, 0xAA] 2 (6 - 2) = .ok [0, 2, 0xBB, 0xAA]
      ∧ (fun _ _ => SendResult.socketError 11 : Transport) [9] [0, 2, 0xBB, 0xAA]
        = .socketError 11
      ∧ (SendData true (fun _ _ => SendResult.socketError 11)
            { connected 1 [0, 0, 0, 0] 2 6 with
              OutgoingMessage := some [1, 0, 0, 2, 0xBB, 0xAA] } [9]
          = .ok ({ connected 1 [0, 0, 0, 0] 2 6 with
              OutgoingMessage := some [1, 0, 0, 2, 0xBB, 0xAA] }, [9])
        ∧ ∀ ws, List.Forall₂ (fun f w => wireEncoding true f = .ok w)
              ({ connected 1 [0, 0, 0, 0] 2 6 with
                OutgoingMessage := some [1, 0, 0, 2, 0xBB, 0xAA] } : Socket).OutgoingMessageQueue
              ws →
            ∃ s', SendData true acceptAll
                { connected 1 [0, 0, 0, 0] 2 6 with
                  OutgoingMessage := some [1, 0, 0, 2, 0xBB, 0xAA] } [9]
              = .ok (s', [9] ++ ([0, 2, 0xBB, 0xAA] ++ ws.flatten))
              ∧ s'.OutgoingMessage = none ∧ s'.OutgoingMessageQueue = []) :=
  ⟨rfl, rfl, by decide, by decide, by decide, rfl,
    failed_write_keeps_state true (fun _ _ => SendResult.socketError 11)
      { connected 1 [0, 0, 0, 0] 2 6 with OutgoingMessage := some [1, 0, 0, 2, 0xBB, 0xAA] }
      [1, 0, 0, 2, 0xBB, 0xAA] [0, 2, 0xBB, 0xAA] [9] 11 rfl rfl (by decide) (by decide)
      (by decide) rfl⟩

/-- C17 (as stated, it fails): on a connected socket with an empty incoming
queue `PullIncomingMessage` does not return an 'empty' result: its
`ASSERT(!IncomingMessageQueue.empty())` fails. -/
theorem PullIncomingMessage_empty_counterexample :
    (connected 3 [0, 0, 0, 0] 0 0).IncomingMessageQueue = []
      ∧ PullIncomingMessage (connected 3 [0, 0, 0, 0] 0 0) = .error .assertion
      ∧ ¬ ∃ r, PullIncomingMessage (connected 3 [0, 0, 0, 0] 0 0) = .ok r := by
  refine ⟨rfl, rfl, ?_⟩
  rintro ⟨r, hr⟩
  cases hr

/-- C17 (amended): a non-empty incoming queue is the precondition of
`PullIncomingMessage`.  On an empty queue its assertion fails: this is a
programming error, not an 'empty' result.  On a non-empty queue it returns
the front frame and removes exactly that one, every other member of the
Connection unchanged. -/
theorem PullIncomingMessage_spec (s : Socket) :
    (s.IncomingMessageQueue = [] → PullIncomingMessage s = .error .assertion)
      ∧ ∀ front rest, s.IncomingMessageQueue = front :: rest →
          PullIncomingMessage s = .ok (front, { s with IncomingMessageQueue := rest }) := by
  constructor
  · intro h
    simp [PullIncomingMessage, h]
  · intro front rest h
    simp [PullIncomingMessage, h]

theorem PullIncomingMessage_spec_witness :
    PullIncomingMessage
        { connected 3 [0, 0, 0, 0] 0 0 with
          IncomingMessageQueue := [[1, 0, 0, 0], [2, 0, 0, 0]] }
      = .ok ([1, 0, 0, 0],
          { connected 3 [0, 0, 0, 0] 0 0 with IncomingMessageQueue := [[2, 0, 0, 0]] }) :=
  (PullIncomingMessage_spec
    { connected 3 [0, 0, 0, 0] 0 0 with
      IncomingMessageQueue := [[1, 0, 0, 0], [2, 0, 0, 0]] }).2 [1, 0, 0, 0] [[2, 0, 0, 0]] rfl

/-- C13: `Connect` rejects a malformed address.  For every address for which
`inet_addr` returns `INADDR_NONE` and every port, whatever the other system
calls return, `Connect` returns false and the registry (`SocketTab` and
`SocketCnt`) is the same as before the call; the other Connection objects are
unchanged, and if this Connection was not registered before, no slot that
`FindSocket` returns holds it. -/
theorem Connect_malformed_address (WSAEWOULDBLOCK : Int) (FD_SETSIZE : Nat)
    (calls : ConnectCalls) (heap : SocketPtr → Socket) (r : Registry) (this : SocketPtr)
    (address : String) (port : Int) (hbad : calls.inet_addr address = INADDR_NONE) :
    ∃ heap', Connect WSAEWOULDBLOCK FD_SETSIZE calls heap r this address port
        = .ok (false, heap', r)
      ∧ (∀ q, q ≠ this → heap' q = heap q)
      ∧ (¬ r.Registered this → ∀ h i, FindSocket heap' r h = .ok (some i) →
          r.SocketTab[i]? ≠ some this) := by
  refine ⟨Function.update heap this { heap this with MySocket := calls.socket }, ?_,
    fun q hq => Function.update_noteq hq _ _, fun hnot h i hf hi => ?_⟩
  · unfold Connect
    dsimp only
    by_cases h1 : calls.socket < 0
    · rw [if_pos h1]
    · rw [if_neg h1]
      by_cases h2 : calls.ioctlsocket ≠ 0
      · rw [if_pos h2]
      · rw [if_neg h2]
        by_cases h3 : calls.setsockopt ≠ 0
        · rw [if_pos h3]
        · rw [if_neg h3, if_pos hbad]
  · obtain ⟨_, hlt, _⟩ := findSocketFrom_some _ r h r.SocketCnt 0 i hf
    exact hnot ⟨i, by omega, hi⟩

theorem Connect_malformed_address_witness :
    (fun a => if a = "127.0.0.1" then 16777343 else INADDR_NONE) "not-an-ip" = INADDR_NONE
      ∧ ∃ heap', Connect 11 4
            { socket := 7, ioctlsocket := 0, setsockopt := 0,
              inet_addr := fun a => if a = "127.0.0.1" then 16777343 else INADDR_NONE,
              connect := fun _ _ => -1, lastError := 11 }
            (fun p => connected (10 * p) [0, 0, 0, 0] 0 0)
            { SocketTab := [1, 0, 0, 0], SocketCnt := 1 } 2 "not-an-ip" 1234
          = .ok (false, heap', { SocketTab := [1, 0, 0, 0], SocketCnt := 1 })
        ∧ (∀ q, q ≠ 2 → heap' q = (fun p => connected (10 * p) [0, 0, 0, 0] 0 0) q)
        ∧ (¬ Registry.Registered { SocketTab := [1, 0, 0, 0], SocketCnt := 1 } 2 →
            ∀ h i, FindSocket heap' { SocketTab := [1, 0, 0, 0], SocketCnt := 1 } h
                = .ok (some i) →
              ([1, 0, 0, 0] : List SocketPtr)[i]? ≠ some 2) :=
  ⟨by decide,
    Connect_malformed_address 11 4
      { socket := 7, ioctlsocket := 0, setsockopt := 0,
        inet_addr := fun a => if a = "127.0.0.1" then 16777343 else INADDR_NONE,
        connect := fun _ _ => -1, lastError := 11 }
      (fun p => connected (10 * p) [0, 0, 0, 0] 0 0)
      { SocketTab := [1, 0, 0, 0], SocketCnt := 1 } 2 "not-an-ip" 1234 (by decide)⟩

/-- C18: enqueue and connect-result contract.  `PushOutgoingMessage` on a
Connection that is connected with no frame in flight is appending the frame to
the outgoing queue and then running `SendData`; on a Connection that is not
connected, or has a frame in flight, it only appends the frame: no transport
write, the rest of the state unchanged.  `OnConnect(0)` is setting `Connected`
and running `SendData`; `OnConnect(error)` with a non-zero error leaves the
state unchanged.  So frames enqueued before the connect result are queued in
the order of the calls and, when `SendData` can convert them (`ws` lists the
bytes it emits for each queued frame) and the transport accepts everything,
`OnConnect(0)` emits them in that order and leaves nothing queued. -/
theorem enqueue_connect_contract (LITTLE_ENDIAN : Bool) (send : Transport) (s : Socket)
    (frame wire : List Byte) :
    (s.Connected = true → s.OutgoingMessage = none →
        PushOutgoingMessage LITTLE_ENDIAN send s frame wire
          = SendData LITTLE_ENDIAN send
              { s with OutgoingMessageQueue := s.OutgoingMessageQueue ++ [frame] } wire)
      ∧ (s.Connected = false ∨ s.OutgoingMessage ≠ none →
        PushOutgoingMessage LITTLE_ENDIAN send s frame wire
          = .ok ({ s with OutgoingMessageQueue := s.OutgoingMessageQueue ++ [frame] }, wire))
      ∧ OnConnect LITTLE_ENDIAN send s 0 wire
          = SendData LITTLE_ENDIAN send { s with Connected := true } wire
      ∧ (∀ error, error ≠ 0 → OnConnect LITTLE_ENDIAN send s error wire = .ok (s, wire))
      ∧ ∀ frames ws, s.Connected = false → s.OutgoingMessage = none →
          List.Forall₂ (fun f w => wireEncoding LITTLE_ENDIAN f = .ok w)
            (s.OutgoingMessageQueue ++ frames) ws →
          ∃ s1 s2, pushAll LITTLE_ENDIAN send frames s wire = .ok (s1, wire)
            ∧ s1.OutgoingMessageQueue = s.OutgoingMessageQueue ++ frames
            ∧ OnConnect LITTLE_ENDIAN acceptAll s1 0 wire = .ok (s2, wire ++ ws.flatten)
            ∧ s2.Connected = true ∧ s2.OutgoingMessageQueue = []
            ∧ s2.OutgoingMessage = none := by
  refine ⟨fun hc hm => ?_, fun h => ?_, by simp [OnConnect, Start],
    fun error he => by simp [OnConnect, he], fun frames ws hc hm hws => ?_⟩
  · have hcond : (Option.isNone s.OutgoingMessage = true ∧ s.Connected = true) := by
      rw [hm, hc]; exact ⟨rfl, rfl⟩
    unfold PushOutgoingMessage
    rw [if_pos hcond]
  · have hcond : ¬ (Option.isNone s.OutgoingMessage = true ∧ s.Connected = true) := by
      rcases h with h | h
      · rw [h]; simp
      · intro hh
        exact h (Option.isNone_iff_eq_none.mp hh.1)
    unfold PushOutgoingMessage
    rw [if_neg hcond]
  · have hst : SendState LITTLE_ENDIAN
        { ({ s with OutgoingMessageQueue := s.OutgoingMessageQueue ++ frames } : Socket) with
          Connected := true } [] ws :=
      ⟨rfl, hws, by show (match s.OutgoingMessage with
        | none => ([] : List Byte) = []
        | some m => _); rw [hm]⟩
    obtain ⟨s2, h1, h2, h3, h4⟩ := SendData_acceptAll LITTLE_ENDIAN _ [] wire ws hst
    refine ⟨_, s2, pushAll_unconnected LITTLE_ENDIAN send frames s wire hc, rfl, ?_, h4, h3, h2⟩
    rw [List.nil_append] at h1
    simp only [OnConnect, if_true, Start]
    exact h1

theorem enqueue_connect_contract_witness :
    ∃ s1 s2, pushAll true acceptAll [[1, 0, 2, 0, 0xAA, 0xBB], [2, 0, 0, 0]]
          { connected 1 [0, 0, 0, 0] 0 0 with Connected := false } [] = .ok (s1, [])
      ∧ s1.OutgoingMessageQueue = [[1, 0, 2, 0, 0xAA, 0xBB], [2, 0, 0, 0]]
      ∧ OnConnect true acceptAll s1 0 [] = .ok (s2, [1, 0, 0, 2, 0xBB, 0xAA, 2, 0, 0, 0])
      ∧ s2.Connected = true ∧ s2.OutgoingMessageQueue = []
      ∧ s2.OutgoingMessage = none :=
  (enqueue_connect_contract true acceptAll
    { connected 1 [0, 0, 0, 0] 0 0 with Connected := false } [1, 0, 0, 0] []).2.2.2.2
    [[1, 0, 2, 0, 0xAA, 0xBB], [2, 0, 0, 0]] [[1, 0, 0, 2, 0xBB, 0xAA], [2, 0, 0, 0]] rfl rfl
    (List.Forall₂.cons (by decide) (List.Forall₂.cons (by decide) List.Forall₂.nil))

/-- C16 (as stated, it fails): a complete wire message with a body of one byte
makes `ReceiveData` leave the message buffer when it converts the message, and a
header that announces 32768 body bytes makes it allocate a buffer of negative
size, whatever is delivered after the header; no frame is queued in either
case. -/
theorem inbound_fifo_counterexample :
    ReceiveData true (connected 3 [0, 0, 0, 0] 0 0) (.received [1, 0, 0, 1, 0xAA])
        = .error .outOfBounds
      ∧ ∀ (LITTLE_ENDIAN : Bool) (rest : List RecvResult),
          receiveAll LITTLE_ENDIAN (connected 3 [0, 0, 0, 0] 0 0)
            (.received [1, 0, 0x80, 0] :: rest) = .error .badAlloc := by
  refine ⟨by decide, fun le rest => ?_⟩
  have h : ReceiveData le (connected 3 [0, 0, 0, 0] 0 0) (.received [1, 0, 0x80, 0])
      = .error .badAlloc := by
    cases le <;> decide
  simp only [receiveAll, List.foldlM_cons, h, error_bind]

/-- C16 (amended): inbound FIFO order for messages of even body length at most
32766.  When the reads of a freshly connected socket deliver, in any chunks, the
wire bytes of the messages `ms` one after the other, followed by the first `j`
bytes of a further message, every call of `ReceiveData` returns, the incoming
queue holds the decoded frames of `ms` in the order of `ms`, and as many calls
of `PullIncomingMessage` as there are messages return these frames in the same
order and leave the queue empty. -/
theorem inbound_fifo (LITTLE_ENDIAN : Bool) (ms : List WireMessage) (last : WireMessage)
    (j : Nat) (hms : ∀ m ∈ ms, m.Even) (hlast : last.Even) (hj : j < last.wire.length)
    (MySocket : Int) (h0 h1 h2 h3 : Byte) (a b : Int) (chunks : List (List Byte))
    (hfl : chunks.flatten = wireStream ms ++ last.wire.take j) :
    ∃ r, receiveAll LITTLE_ENDIAN (connected MySocket [h0, h1, h2, h3] a b)
          (chunks.map .received) = .ok r
      ∧ r.IncomingMessageQueue = ms.map (WireMessage.decoded LITTLE_ENDIAN)
      ∧ ∃ r', pullAll ms.length r = .ok (ms.map (WireMessage.decoded LITTLE_ENDIAN), r')
        ∧ r'.IncomingMessageQueue = [] := by
  have hs0 := connected_awaiting MySocket h0 h1 h2 h3 a b
  have hall : ∀ m ∈ ms ++ [last], m.Even := by
    intro m hm
    rcases List.mem_append.mp hm with h | h
    · exact hms m h
    · rw [List.mem_singleton.mp h]; exact hlast
  have hws : wireStream (ms ++ [last]) = wireStream ms ++ last.wire := by
    rw [wireStream_append, wireStream_cons]
    simp [wireStream]
  have hrecv := receiveAll_stream_take LITTLE_ENDIAN _ (ms ++ [last]) hs0 hall chunks
    ((wireStream ms).length + j) (by rw [hws, List.length_append]; omega)
    (by rw [hws, List.take_append, hfl])
  obtain ⟨haw, hq⟩ := streamProgress_all LITTLE_ENDIAN ms _ hs0
  rw [streamProgress_append, streamProgress_first LITTLE_ENDIAN _ last [] haw j (by omega)]
    at hrecv
  have hqueue : (receiveProgress (streamProgress LITTLE_ENDIAN
      (connected MySocket [h0, h1, h2, h3] a b) ms (wireStream ms).length) last.wire
        (last.decoded LITTLE_ENDIAN) j).IncomingMessageQueue
      = ms.map (WireMessage.decoded LITTLE_ENDIAN) := by
    rw [receiveProgress_queue _ _ _ _ hj, hq]
    rfl
  have hpull := pullAll_queue _ _ hqueue
  rw [List.length_map] at hpull
  exact ⟨_, hrecv, hqueue, _, hpull, rfl⟩

theorem inbound_fifo_witness :
    ∃ r, receiveAll true (connected 3 [0, 0, 0, 0] 0 0)
          [.received [1, 0, 0, 2, 0xAA, 0xBB, 2, 0, 0, 0, 3, 0, 0]] = .ok r
      ∧ r.IncomingMessageQueue = [[1, 0, 2, 0, 0xBB, 0xAA], [2, 0, 0, 0]]
      ∧ ∃ r', pullAll 2 r = .ok ([[1, 0, 2, 0, 0xBB, 0xAA], [2, 0, 0, 0]], r')
        ∧ r'.IncomingMessageQueue = [] :=
  inbound_fifo true [⟨1, 0, [0xAA, 0xBB]⟩, ⟨2, 0, []⟩] ⟨3, 0, [1, 2]⟩ 3 (by decide) (by decide)
    (by decide) 3 0 0 0 0 0 0 [[1, 0, 0, 2, 0xAA, 0xBB, 2, 0, 0, 0, 3, 0, 0]] (by decide)

/-- C19: restricted round trip, under either byte order.  For a body of even
length at most 32766 the host-order frame occupies `sizeof(MessageHeader) +
length` bytes; enqueuing it on a connected socket whose transport accepts
everything returns, having read and written only within these bytes, and emits
as many wire bytes.  Delivering the wire bytes to a freshly connected socket in
any sequence of chunks (so also in non-empty chunks of at most `bufferLength`
bytes), every call of `ReceiveData` returns with the accumulator invariant, the
buffer in use having exactly `IncomingLength` bytes and never more than the
frame, and the calls leave exactly one incoming frame, equal byte for byte to
the original. -/
theorem restricted_roundtrip (LITTLE_ENDIAN : Bool) (type pad : Byte) (body : List Byte)
    (heven : body.length % 2 = 0) (hmax : body.length ≤ 32766)
    (sender receiver : Int) (hdr : List Byte) (h0 h1 h2 h3 : Byte) (a b c d : Int) :
    (hostFrame LITTLE_ENDIAN type pad body).length = sizeofMessageHeader + body.length
      ∧ ∃ s' wire,
        PushOutgoingMessage LITTLE_ENDIAN acceptAll (connected sender hdr a b)
            (hostFrame LITTLE_ENDIAN type pad body) [] = .ok (s', wire)
          ∧ wire.length = sizeofMessageHeader + body.length
          ∧ ∀ chunks : List (List Byte), chunks.flatten = wire →
            (∀ i, ∃ r, receiveAll LITTLE_ENDIAN (connected receiver [h0, h1, h2, h3] c d)
                  ((chunks.take i).map .received) = .ok r
                ∧ ReceiveInv LITTLE_ENDIAN r
                ∧ (r.incomingMem.length : Int) = r.IncomingLength
                ∧ r.IncomingLength ≤ sizeofMessageHeader + body.length)
            ∧ ∃ r', receiveAll LITTLE_ENDIAN (connected receiver [h0, h1, h2, h3] c d)
                  (chunks.map .received) = .ok r'
              ∧ r'.IncomingMessageQueue = [hostFrame LITTLE_ENDIAN type pad body]
              ∧ AwaitingHeader r' := by
  have hsz : sizeofMessageHeader = 4 := rfl
  obtain ⟨wbody, hwbody⟩ : ∃ wbody, wbody = if LITTLE_ENDIAN then swapPairs body else body :=
    ⟨_, rfl⟩
  have hwlen : wbody.length = body.length := by
    rw [hwbody]; cases LITTLE_ENDIAN
    · rfl
    · exact swapPairs_length body
  have hback : (if LITTLE_ENDIAN then swapPairs wbody else wbody) = body := by
    rw [hwbody]; cases LITTLE_ENDIAN
    · rfl
    · exact swapPairs_twice body
  obtain ⟨s', hpush, _⟩ := PushOutgoingMessage_acceptAll LITTLE_ENDIAN (connected sender hdr a b)
    (hostFrame LITTLE_ENDIAN type pad body) _ [] rfl rfl rfl
    (wireEncoding_hostFrame_any LITTLE_ENDIAN type pad body heven hmax)
  rw [List.nil_append, ← hwbody] at hpush
  have hs0 := connected_awaiting receiver h0 h1 h2 h3 c d
  obtain ⟨m, hm⟩ : ∃ m : WireMessage, m = ⟨type, pad, wbody⟩ := ⟨_, rfl⟩
  have hmw : m.wire = wireFrame type pad wbody := by rw [hm]; rfl
  have hmb : m.body.length = body.length := by rw [hm]; exact hwlen
  have hmd : m.decoded LITTLE_ENDIAN = hostFrame LITTLE_ENDIAN type pad body := by
    rw [hm]
    show hostFrame LITTLE_ENDIAN type pad (if LITTLE_ENDIAN then swapPairs wbody else wbody) = _
    rw [hback]
  have hwl : m.wire.length = body.length + 4 := by
    rw [hmw, wireFrame_length, hwlen]
  have heven1 : ∀ x ∈ [m], x.Even := by
    intro x hx
    rw [List.mem_singleton.mp hx]
    exact ⟨by omega, by omega⟩
  refine ⟨by simp only [hostFrame, List.length_cons, hsz]; omega, s', _, hpush,
    by rw [wireFrame_length, hwlen, hsz]; omega, fun chunks hfl => ⟨fun i => ?_, ?_⟩⟩
  · have hpre := flatten_take chunks i
    have hk : (chunks.take i).flatten.length ≤ (wireStream [m]).length := by
      have := congrArg List.length hpre
      rw [List.length_take, hfl, ← hmw, ← wireStream_single m] at this
      omega
    rw [hfl, ← hmw, ← wireStream_single m] at hpre
    have hrecv := receiveAll_stream_take LITTLE_ENDIAN _ [m] hs0 heven1 (chunks.take i) _ hk hpre
    have hinv := streamProgress_inv LITTLE_ENDIAN [m] _ (chunks.take i).flatten.length hs0 heven1
    refine ⟨_, hrecv, hinv, ReceiveInv_mem _ _ hinv, ?_⟩
    have := streamProgress_single_size LITTLE_ENDIAN _ m (chunks.take i).flatten.length hs0
    rw [hwl] at this
    rw [hsz]
    push_cast at this ⊢
    omega
  · have hrecv := receiveAll_stream_take LITTLE_ENDIAN _ [m] hs0 heven1 chunks
      (wireStream [m]).length (le_refl _)
      (by rw [List.take_length, wireStream_single, hmw]; exact hfl)
    obtain ⟨haw, hq⟩ := streamProgress_all LITTLE_ENDIAN [m] _ hs0
    refine ⟨_, hrecv, ?_, haw⟩
    rw [hq, List.map_cons, List.map_nil, hmd]
    rfl

theorem restricted_roundtrip_witness :
    ([0xAA, 0xBB] : List Byte).length % 2 = 0 ∧ ([0xAA, 0xBB] : List Byte).length ≤ 32766
      ∧ (hostFrame true 1 0 [0xAA, 0xBB]).length = sizeofMessageHeader + 2
      ∧ ∃ s' wire,
        PushOutgoingMessage true acceptAll (connected 1 [0, 0, 0, 0] 0 0)
            (hostFrame true 1 0 [0xAA, 0xBB]) [] = .ok (s', wire)
          ∧ wire.length = sizeofMessageHeader + 2
          ∧ ∀ chunks : List (List Byte), chunks.flatten = wire →
            (∀ i, ∃ r, receiveAll true (connected 2 [0, 0, 0, 0] 0 0)
                  ((chunks.take i).map .received) = .ok r
                ∧ ReceiveInv true r
                ∧ (r.incomingMem.length : Int) = r.IncomingLength
                ∧ r.IncomingLength ≤ sizeofMessageHeader + 2)
            ∧ ∃ r', receiveAll true (connected 2 [0, 0, 0, 0] 0 0)
                  (chunks.map .received) = .ok r'
              ∧ r'.IncomingMessageQueue = [hostFrame true 1 0 [0xAA, 0xBB]]
              ∧ AwaitingHeader r' :=
  ⟨by decide, by decide,
    restricted_roundtrip true 1 0 [0xAA, 0xBB] (by decide) (by decide) 1 2 [0, 0, 0, 0]
      0 0 0 0 0 0 0 0⟩

/-- C20: the receive-accumulator invariant is broken by a header that announces
an odd body length, here 1, which is within the claim's bound of 32767.  After
the four header bytes `01 00 00 01` the accumulator awaits the body in a buffer
of five bytes and satisfies the invariant; the call of `ReceiveData` that
delivers the body byte `AA` does not return a state: converting the completed
message, `AdjustOrdering` reads and writes the `short` at offsets 4 and 5 of
the five-byte buffer, one byte past `IncomingLength`.  The same holds when the
five bytes arrive in one read. -/
theorem ReceiveData_odd_length_overrun :
    ReceiveData true (connected 3 [0, 0, 0, 0] 0 0) (.received [1, 0, 0, 1])
        = .ok { connected 3 [1, 0, 0, 1] 0 0 with
            IncomingMessage := .heap [1, 0, 0, 1, 0], IncomingNext := 4, IncomingLength := 5 }
      ∧ ReceiveInv true { connected 3 [1, 0, 0, 1] 0 0 with
            IncomingMessage := .heap [1, 0, 0, 1, 0], IncomingNext := 4, IncomingLength := 5 }
      ∧ ReceiveData true { connected 3 [1, 0, 0, 1] 0 0 with
            IncomingMessage := .heap [1, 0, 0, 1, 0], IncomingNext := 4, IncomingLength := 5 }
          (.received [0xAA]) = .error .outOfBounds
      ∧ adjustShortAt true [1, 0, 1, 0, 0xAA] 4 = .error .outOfBounds
      ∧ ReceiveData true (connected 3 [0, 0, 0, 0] 0 0) (.received [1, 0, 0, 1, 0xAA])
        = .error .outOfBounds := by
  refine ⟨by decide, ⟨by decide, by decide, rfl, rfl, by decide, by decide, 256, rfl, ?_⟩,
    by decide, by decide, by decide⟩
  decide

end DAIDE
